import Mathlib

/-!
The program stardate: conversion between date formats

A shallow embedding of `stardate.c` and a verification of its specification.

Conventions of the embedding.

* A C string is a `List Char`; the terminating NUL is implicit, so reading the
  character at the end of the list yields NUL (`hd [] = NUL`).  A pointer into a
  string is the suffix it points at.
* Integer widths are those of an LP64 platform: `unsigned` and `uint32_t` have 32
  bits, `unsigned long`, `unsigned long long` and `uint64_t` have 64 bits.  Machine
  integers are natural numbers, reduced modulo `2^32` or `2^64` wherever the C
  operation can wrap around.
* A decoder returns an `Outcome`: the C return value (0, 2 or 1), the diagnostic
  written to standard error when it is 2, and, when it is 1, the decoded value
  with the state of `errno` on return.
* The `while` loops of `uint64str` and `docalout` are bounded by a fuel argument.
-/

namespace Stardate

/-! ## Machine arithmetic -/

/-- Addition of two `uint64_t` values. -/
def add64 (a b : Nat) : Nat := (a + b) % 2 ^ 64

/-- Subtraction of two `uint64_t` values (wraps below zero). -/
def sub64 (a b : Nat) : Nat := (a % 2 ^ 64 + 2 ^ 64 - b % 2 ^ 64) % 2 ^ 64

/-- Multiplication of two `uint64_t` values. -/
def mul64 (a b : Nat) : Nat := (a * b) % 2 ^ 64

/-- Conversion to `uint32_t` or `unsigned`. -/
def u32 (a : Nat) : Nat := a % 2 ^ 32

/-! ## C strings and the C library -/

/-- The character a pointer points at: `*p`. -/
def hd (s : List Char) : Char := s.headD (Char.ofNat 0)

/-- The pointer advanced by one: `p + 1`. -/
def tl (s : List Char) : List Char := s.tail

/-- `ISDIGIT` in the C locale. -/
def isdigit (c : Char) : Bool := 48 ≤ c.toNat && c.toNat ≤ 57

/-- `ISALNUM` in the C locale. -/
def isalnum (c : Char) : Bool :=
  isdigit c || (65 ≤ c.toNat && c.toNat ≤ 90) || (97 ≤ c.toNat && c.toNat ≤ 122)

/-- `isspace` in the C locale: space, `\t`, `\n`, `\v`, `\f`, `\r`. -/
def isspace (c : Char) : Bool := c.toNat = 32 || (9 ≤ c.toNat && c.toNat ≤ 13)

/-- The value of a character as a digit, for radices up to 36. -/
def digitVal (c : Char) : Nat :=
  if isdigit c then c.toNat - 48
  else if 97 ≤ c.toNat && c.toNat ≤ 122 then c.toNat - 97 + 10
  else if 65 ≤ c.toNat && c.toNat ≤ 90 then c.toNat - 65 + 10
  else 36

/-- The longest run of digits of the radix at the start of a string: the number of
digits read, the value they denote (with accumulator `acc`), and what follows. -/
def scanDigits (radix : Nat) : List Char → Nat → Nat × Nat × List Char
  | [], acc => (0, acc, [])
  | c :: cs, acc =>
    if digitVal c < radix then
      let r := scanDigits radix cs (acc * radix + digitVal c)
      (r.1 + 1, r.2.1, r.2.2)
    else (0, acc, c :: cs)

/-- The C library function `strtoull(s, &end, radix)` for radix 10 or 16: the value,
the end pointer, and whether `errno` was set to `ERANGE`.  White space and a sign
are skipped, radix 16 allows a `0x` before the digits, a value that does not fit
64 bits is clamped to `ULLONG_MAX`, and without any digit the result is 0 with the
end pointer at the start. -/
def strtoull (s : List Char) (radix : Nat) : Nat × List Char × Bool :=
  let s1 := s.dropWhile isspace
  let neg := hd s1 = '-'
  let s2 := if hd s1 = '-' ∨ hd s1 = '+' then tl s1 else s1
  let s3 :=
    if radix = 16 ∧ hd s2 = '0' ∧ (hd (tl s2) = 'x' ∨ hd (tl s2) = 'X')
        ∧ digitVal (hd (tl (tl s2))) < 16 then tl (tl s2) else s2
  let r := scanDigits radix s3 0
  if r.1 = 0 then (0, s, false)
  else if 2 ^ 64 ≤ r.2.1 then (2 ^ 64 - 1, r.2.2, true)
  else (if neg then sub64 0 r.2.1 else r.2.1, r.2.2, false)

/-- The C library function `strtoul`; `unsigned long` has 64 bits. -/
def strtoul (s : List Char) (radix : Nat) : Nat × List Char × Bool := strtoull s radix

/-- The digit table of `uint64str`: `"0123456789abcdef"[d]`. -/
def digitChar (d : Nat) : Char := "0123456789abcdef".toList.getD d (Char.ofNat 0)

/-- The first loop of `uint64str`: `while(n) { *--pos = digit; n /= radix; }`. -/
def uint64strLoop (radix : Nat) : Nat → Nat → List Char → List Char
  | 0, _, acc => acc
  | fuel + 1, n, acc =>
    if n = 0 then acc
    else uint64strLoop radix fuel (n / radix) (digitChar (n % radix) :: acc)

/-- Source function `uint64str`: a `uint64_t` as a string in the given radix with at
least `min` digits.  A 64-bit value has at most 64 digits. -/
def uint64str (n radix min : Nat) : List Char :=
  let ds := uint64strLoop radix 64 n []
  List.replicate (min - ds.length) '0' ++ ds

/-- The `printf` conversions `%lu`, `%04lu`, `%05lu`, `%06lu` and `%02d` (of a
non-negative value): decimal, zero-padded to `width` digits, at least one digit. -/
def fmtlu (width n : Nat) : List Char := uint64str n 10 (max width 1)

/-! ## The internal date format and decoder outcomes -/

/-- Source type `intdate`: seconds since 0001=01=01 and a 32-bit fraction. -/
structure intdate where
  sec : Nat
  frac : Nat
  deriving DecidableEq, Repr

/-- The message a decoder writes to standard error before it returns 2. -/
inductive Diag where
  | integerPart
  | day
  | month
  | hour
  | minute
  | second
  | timeOfDay
  | unixDate
  deriving DecidableEq, Repr

/-- The message text of a diagnostic (between the program name and the token). -/
def Diag.text : Diag → String
  | .integerPart => "integer part is out of range"
  | .day => "day is out of range"
  | .month => "month is out of range"
  | .hour => "hour is out of range"
  | .minute => "minute is out of range"
  | .second => "second is out of range"
  | .timeOfDay => "malformed time of day"
  | .unixDate => "malformed Unix date"

/-- What a decoder call does: return 0, print a diagnostic and return 2, or
store a value and return 1 with `errno` zero (`false`) or non-zero (`true`). -/
inductive Outcome (α : Type) where
  | unmatched : Outcome α
  | outOfRange : Diag → Outcome α
  | success : α → Bool → Outcome α
  deriving DecidableEq, Repr

/-- The C return value of a decoder. -/
def Outcome.code {α : Type} : Outcome α → Nat
  | .unmatched => 0
  | .outOfRange _ => 2
  | .success _ _ => 1

/-! ## Constants -/

def QCYEAR : Nat := 31556952
def STDYEAR : Nat := 31536000

def nrmdays : List Nat := [31, 28, 31, 30, 31, 30, 31, 31, 30, 31, 30, 31]
def lyrdays : List Nat := [31, 29, 31, 30, 31, 30, 31, 31, 30, 31, 30, 31]

def jleapyear (y : Nat) : Bool := y % 4 = 0
def gleapyear (y : Nat) : Bool := y % 4 = 0 && (y % 100 ≠ 0 || y % 400 = 0)

/-- Source macro `xdays(gp, y)`: the table of month lengths of year `y`. -/
def xdays (gp : Bool) (y : Nat) : List Nat :=
  if (if gp then gleapyear y else jleapyear y) then lyrdays else nrmdays

/-- Array indexing `a[i]` into a table of month lengths. -/
def idx (a : List Nat) (i : Nat) : Nat := a.getD i 0

def qcepoch : Nat := 0x25daaed80
def quadcent : Nat := 0x2f0605980
def unixepoch : Nat := 0xe77949a00
def ufpepoch : Nat := 0xfe0bd2500
def tngepoch : Nat := 0x110f8cad00

/-- Source type `struct caldate`. -/
structure caldate where
  year : Nat
  month : Nat
  day : Nat
  hour : Nat
  min : Nat
  sec : Nat
  deriving DecidableEq, Repr

/-! ## Calendar input -/

/-- Source function `readcal`: the syntax check of a calendar token, then the
fields with their range checks. -/
def readcal (date : List Char) (sep : Char) : Outcome caldate :=
  if !isdigit (hd date) then .unmatched else
  let pos := (tl date).dropWhile isdigit
  if hd pos ≠ sep ∨ !isdigit (hd (tl pos)) then .unmatched else
  let pos := (tl (tl pos)).dropWhile isdigit
  if hd pos ≠ sep ∨ !isdigit (hd (tl pos)) then .unmatched else
  let pos := (tl (tl pos)).dropWhile isdigit
  let badtime : Bool :=
    if hd pos ≠ Char.ofNat 0 then
      if (hd pos ≠ 'T' ∧ hd pos ≠ 't') ∨ !isdigit (hd (tl pos)) then true else
      let pos := (tl (tl pos)).dropWhile isdigit
      if hd pos ≠ ':' ∨ !isdigit (hd (tl pos)) then true else
      let pos := (tl (tl pos)).dropWhile isdigit
      if hd pos ≠ Char.ofNat 0 then
        if hd pos ≠ ':' ∨ !isdigit (hd (tl pos)) then true else
        let pos := (tl (tl pos)).dropWhile isdigit
        if hd pos ≠ Char.ofNat 0 then true else false
      else false
    else false
  if badtime then .outOfRange .timeOfDay else
  let y := strtoull date 10
  let oerrno := y.2.2
  let m := strtoul (tl y.2.1) 10
  let errno := m.2.2
  if errno ∨ m.1 = 0 ∨ m.1 > 12 then .outOfRange .month else
  let d := strtoul (tl m.2.1) 10
  let errno := errno || d.2.2
  if errno ∨ d.1 = 0 ∨ d.1 > 31 then .outOfRange .day else
  if hd d.2.1 = Char.ofNat 0 then
    .success { year := y.1, month := m.1, day := d.1, hour := 0, min := 0, sec := 0 } oerrno
  else
  let h := strtoul (tl d.2.1) 10
  let errno := errno || h.2.2
  if errno ∨ h.1 > 23 then .outOfRange .hour else
  let mi := strtoul (tl h.2.1) 10
  let errno := errno || mi.2.2
  if errno ∨ mi.1 > 59 then .outOfRange .minute else
  if hd mi.2.1 = Char.ofNat 0 then
    .success { year := y.1, month := m.1, day := d.1, hour := h.1, min := mi.1, sec := 0 } oerrno
  else
  let s := strtoul (tl mi.2.1) 10
  let errno := errno || s.2.2
  if errno ∨ s.1 > 59 then .outOfRange .second else
  .success { year := y.1, month := m.1, day := d.1, hour := h.1, min := mi.1, sec := s.1 } oerrno

/-- The month loop of `calin` and `qcin`, over the table `days`:
`for(c.month--; c.month--; ) n += days[c.month];`
entered with `m = c.month - 1`. -/
def monthLoop (days : List Nat) : Nat → Nat → Nat
  | 0, n => n
  | m + 1, n => monthLoop days m (u32 (n + idx days m))

/-- Source function `calin`. -/
def calin (date : List Char) (gregp : Bool) : Outcome intdate :=
  match readcal date (if gregp then '-' else '=') with
  | .unmatched => .unmatched
  | .outOfRange d => .outOfRange d
  | .success c oerrno =>
    let cycle := u32 (c.year % 400)
    if c.day > idx (xdays gregp cycle) (c.month - 1) then .outOfRange .day else
    let low : Bool := gregp && c.year = 0
    let year := if low then 399 else sub64 c.year 1
    let t := mul64 year 365
    let t := if gregp then add64 (sub64 t (year / 100)) (year / 400) else t
    let t := add64 t (year / 4)
    let n := u32 (2 * (if gregp then 1 else 0) + c.day - 1)
    let n := monthLoop (xdays gregp cycle) (c.month - 1) n
    let t := add64 t n
    let t := if low then sub64 t 146097 else t
    let t := mul64 t 86400
    .success { sec := add64 t (c.hour * 3600 + c.min * 60 + c.sec), frac := 0 } oerrno

def julin (date : List Char) : Outcome intdate := calin date false

def gregin (date : List Char) : Outcome intdate := calin date true

/-! ## Calendar output -/

/-- The loop of `docalout`, walking through the months:
`while(ndays >= xdays(gregp, cycle)[nmonth]) { ... }`.
The result is `(year, nmonth, ndays)` when the loop is left, `none` when the fuel
runs out first. -/
def monthWalk (gregp : Bool) : Nat → Nat → Nat → Nat → Nat → Option (Nat × Nat × Nat)
  | 0, _, _, _, _ => none
  | fuel + 1, cycle, year, nmonth, ndays =>
    if ndays ≥ idx (xdays gregp cycle) nmonth then
      if nmonth + 1 = 12 then
        monthWalk gregp fuel (u32 (cycle + 1)) (add64 year 1) 0
          (ndays - idx (xdays gregp cycle) nmonth)
      else
        monthWalk gregp fuel cycle year (nmonth + 1) (ndays - idx (xdays gregp cycle) nmonth)
    else some (year, nmonth, ndays)

/-- The `sprintf` of `docalout`: `"%s%c%02d%c%02dT%02d:%02d:%02d"` with the year
from `uint64str(year, 10, 4)`. -/
def calfmt (sep : Char) (year nmonth ndays hr min sec : Nat) : List Char :=
  uint64str year 10 4 ++ sep :: (fmtlu 2 nmonth ++ sep :: (fmtlu 2 ndays
    ++ 'T' :: (fmtlu 2 hr ++ ':' :: (fmtlu 2 min ++ ':' :: fmtlu 2 sec))))

/-- Source function `docalout`.  Each turn of the loop removes at least one day, so
`ndays + 1` turns are enough fuel. -/
def docalout (sep : Char) (gregp : Bool) (cycle year ndays tod : Nat) :
    Option (List Char) :=
  match monthWalk gregp (ndays + 1) cycle year 0 ndays with
  | none => none
  | some (year, nmonth, ndays) =>
    let ndays := ndays + 1
    let nmonth := nmonth + 1
    let hr := tod / 3600
    let tod := tod % 3600
    let min := tod / 60
    let sec := tod % 60
    some (calfmt sep year nmonth ndays hr min sec)

/-- Source function `calout`. -/
def calout (dt : intdate) (gregp : Bool) : Option (List Char) :=
  let tod := u32 (dt.sec % 86400)
  let days := dt.sec / 86400
  let days := if gregp then add64 days 146095 else days
  let year :=
    if gregp then add64 (mul64 (days / 146097) 400) (days % 146097 / 366)
    else add64 (days / 366) (days / (366 * 487))
  let days := if gregp then sub64 (add64 days (year / 100)) (year / 400) else days
  let days := sub64 days (add64 (mul64 year 365) (year / 4))
  let year := if gregp then sub64 year 399 else add64 year 1
  docalout (if gregp then '-' else '=') gregp (u32 (year % 400)) year (u32 days) tod

/-- The statements of `calout` before the call of `docalout`, with the machine arithmetic of
the source: the estimate of the elapsed years (`year` before its correction to a year
number), the year number, and the days that remain. -/
def caloutEstimate (dt : intdate) (gregp : Bool) : Nat × Nat × Nat :=
  let days := dt.sec / 86400
  let days := if gregp then add64 days 146095 else days
  let year :=
    if gregp then add64 (mul64 (days / 146097) 400) (days % 146097 / 366)
    else add64 (days / 366) (days / (366 * 487))
  let days := if gregp then sub64 (add64 days (year / 100)) (year / 400) else days
  let days := sub64 days (add64 (mul64 year 365) (year / 4))
  (year, if gregp then sub64 year 399 else add64 year 1, days)

def julout (dt : intdate) : Option (List Char) := calout dt false

def gregout (dt : intdate) : Option (List Char) := calout dt true

/-! ## Quadcent calendar -/

/-- Source function `qcin`. -/
def qcin (date : List Char) : Outcome intdate :=
  match readcal date '*' with
  | .unmatched => .unmatched
  | .outOfRange d => .outOfRange d
  | .success c oerrno =>
    if c.day > idx nrmdays (c.month - 1) then .outOfRange .day else
    let low : Bool := c.year < 323
    let year := if low then add64 c.year (400 - 323) else sub64 c.year 323
    let secs := add64 qcepoch (mul64 year QCYEAR)
    let n := monthLoop nrmdays (c.month - 1) (u32 (c.day - 1))
    let t := (n * 86400 + c.hour * 3600 + c.min * 60 + c.sec) % 2 ^ 64
    let t := mul64 t QCYEAR
    let f := add64 (((t % STDYEAR) <<< 32) % 2 ^ 64) (STDYEAR - 1)
    let secs := add64 secs (t / STDYEAR)
    let secs := if low then sub64 secs quadcent else secs
    .success { sec := secs, frac := u32 (f / STDYEAR) } oerrno

/-- Source function `qcout`. -/
def qcout (dt : intdate) : Option (List Char) :=
  let secs := dt.sec
  let low : Bool := secs < qcepoch
  let secs := if low then add64 secs quadcent else secs
  let secs := sub64 secs qcepoch
  let nsec := u32 (secs % QCYEAR)
  let secs := secs / QCYEAR
  let year := if low then sub64 secs (400 - 323) else add64 secs 323
  let h := mul64 nsec 146000
  let l := mul64 dt.frac 146000
  let h := add64 h (u32 (l >>> 32))
  let nsec := u32 (h / 146097)
  docalout '*' false 1 year (nsec / 86400) (nsec % 86400)

/-! ## Stardates -/

/-- The filling of `fracbuf` in `sdin`: `while(*b && ISDIGIT(*ptr)) *b++ = *ptr++;`
with `b` at the unwritten rest of the buffer.  Returns the buffer and `ptr`. -/
def fillFrac : List Char → List Char → List Char × List Char
  | [], ptr => ([], ptr)
  | b :: bs, ptr =>
    if isdigit (hd ptr) then
      let r := fillFrac bs (tl ptr)
      (hd ptr :: r.1, r.2)
    else (b :: bs, ptr)

/-- The code of `sdin` at the label `fiddle`: a stardate from [19]7340 on, with
`integer` counted from [19]0000, is scaled to the rate of the early stardates. -/
def sdinFiddle (integer frac : Nat) : Nat × Nat :=
  let integer := u32 ((7340 + mul64 (sub64 integer 7340) 50 + frac / (1000000 / 50)) % 2 ^ 64)
  let frac := u32 ((frac * 50) % 1000000)
  if integer ≥ 32340 then
    (u32 (32340 + (integer - 32340) / 5), u32 (frac / 5 + (integer % 5) * (1000000 / 5)))
  else (integer, frac)

/-- The second half of `sdin` (from `if(negi || nissue <= 20)` on): the internal
time of a stardate with the parsed sign, issue, integer and six-digit fraction.
The triple `(nissue, integer, frac)` is the state at the assignment of `dt->sec`
in the pre-TNG branch. -/
def sdinTime (negi : Bool) (nissue integer frac : Nat) : intdate :=
  if negi ∨ nissue ≤ 20 then
    let r : Nat × Nat × Nat :=
      if !negi then
        if nissue = 20 then (19, sdinFiddle (u32 (integer + 10000)) frac)
        else if nissue = 19 ∧ integer ≥ 7340 then (nissue, sdinFiddle integer frac)
        else (nissue, integer, frac)
      else (nissue, integer, frac)
    let nissue := r.1
    let integer := r.2.1
    let frac := r.2.2
    let sec :=
      if !negi then add64 ufpepoch (mul64 nissue (2000 * 86400))
      else sub64 ufpepoch (mul64 (sub64 nissue 1) (2000 * 86400))
    let sec := add64 sec (mul64 (86400 / 5) integer)
    let f := mul64 ((frac <<< 32) % 2 ^ 64) 54
    let f := add64 f 3124 / 3125
    let sec := add64 sec (u32 (f >>> 32))
    let sec := if negi then sub64 sec (2000 * 86400) else sec
    { sec := sec, frac := u32 f }
  else
    let nissue := sub64 nissue 21
    let sec := add64 tngepoch (mul64 nissue ((86400 / 4) * 146097))
    let t := mul64 integer 1000000
    let t := add64 t frac
    let t := mul64 t (27 * 146097)
    let sec := add64 sec (t / 125000000)
    let t := ((t % 125000000) <<< 32) % 2 ^ 64
    let t := add64 t 124999999 / 125000000
    { sec := sec, frac := u32 t }

/-- The middle of `sdin`, from `if(!ISDIGIT(*cptr))` to the call of `sdinTime`: the
issue, the integer part with its range check, and the fraction.  `negi` is the
sign read before, `cptr` points at the issue, and `fracbuf0` is what the array
`fracbuf`, which is not initialised, holds on entry.  The statements after the
`if(*ptr == '.')` block are written out in both of its branches. -/
def sdinFields (fracbuf0 : List Char) (negi : Bool) (cptr : List Char) : Outcome intdate :=
  if !isdigit (hd cptr) then .unmatched else
  let i := strtoull cptr 10
  let nissue := i.1
  let oerrno := i.2.2
  if hd i.2.1 ≠ ']' ∨ !isdigit (hd (tl i.2.1)) then .unmatched else
  let j := strtoul (tl i.2.1) 10
  let integer := u32 j.1
  let errno := oerrno || j.2.2
  if errno ∨ integer > 99999 ∨ (!negi ∧ nissue = 20 ∧ integer > 5005)
      ∨ ((negi ∨ nissue < 20) ∧ integer > 9999) then .outOfRange .integerPart else
  let ptr := j.2.1
  if hd ptr = '.' then
    let fracbuf := fillFrac "000000".toList (tl ptr)
    let ptr := fracbuf.2.dropWhile isdigit
    if hd ptr ≠ Char.ofNat 0 then .unmatched else
    let frac := u32 (strtoul fracbuf.1 10).1
    .success (sdinTime negi nissue integer frac) oerrno
  else if hd ptr ≠ Char.ofNat 0 then .unmatched
  else
    let frac := u32 (strtoul fracbuf0 10).1
    .success (sdinTime negi nissue integer frac) oerrno

/-- Source function `sdin`: the opening bracket and the sign, then `sdinFields`. -/
def sdin (fracbuf0 : List Char) (date : List Char) : Outcome intdate :=
  if hd date ≠ '[' then .unmatched else
  let cptr := tl date
  let negi : Bool := hd cptr = '-'
  let cptr := if negi then tl cptr else cptr
  sdinFields fracbuf0 negi cptr

/-- The fraction that `sdout` and `tngsdout` append when `sddigits` is not zero:
`sprintf(ptr, ".%06lu", v); ptr[sddigits + 1] = 0;`. -/
def fracfmt (sddigits v : Nat) : List Char :=
  if sddigits ≠ 0 then ('.' :: fmtlu 6 v).take (sddigits + 1) else []

/-- The computation of `tngsdout` before the printing: `(nissue, h)`, the issue and
the millionths of a unit within it. -/
def tngFields (dt : intdate) : Nat × Nat :=
  let diff := sub64 dt.sec tngepoch
  let nissue := add64 21 (diff / ((86400 / 4) * 146097))
  let nsecs := u32 (diff % ((86400 / 4) * 146097))
  let h := mul64 nsecs 125000000
  let l := mul64 dt.frac 125000000
  let h := add64 h (u32 (l >>> 32))
  let h := h / (27 * 146097)
  (nissue, h)

/-- Source function `tngsdout`; `sddigits` is the global output precision. -/
def tngsdout (sddigits : Nat) (dt : intdate) : List Char :=
  let r := tngFields dt
  '[' :: (uint64str r.1 10 1 ++ ']' :: (fmtlu 5 (u32 (r.2 / 1000000))
    ++ fracfmt sddigits (u32 (r.2 % 1000000))))

/-- The computation of `sdout` before the printing, for a time before the TNG
epoch: `(isneg, nissue, integer, frac)`. -/
def sdoutFields (dt : intdate) : Bool × Nat × Nat × Nat :=
  if dt.sec < ufpepoch then
    let diff := sub64 (sub64 ufpepoch dt.sec) 1
    let nsecs := u32 (2000 * 86400 - 1 - u32 (diff % (2000 * 86400)))
    let nissue := u32 (1 + u32 (diff / (2000 * 86400)))
    let integer := u32 (nsecs / (86400 / 5))
    let frac := mul64 (((nsecs % (86400 / 5)) <<< 32) ||| dt.frac) 50
    (true, nissue, integer, frac)
  else
    let diff := sub64 dt.sec ufpepoch
    let nsecs := u32 (diff % (2000 * 86400))
    let nissue := u32 (diff / (2000 * 86400))
    if nissue < 19 ∨ (nissue = 19 ∧ nsecs < 7340 * (86400 / 5)) then
      let integer := u32 (nsecs / (86400 / 5))
      let frac := mul64 (((nsecs % (86400 / 5)) <<< 32) ||| dt.frac) 50
      (false, nissue, integer, frac)
    else
      let nsecs := u32 (nsecs + (nissue - 19) * 2000 * 86400)
      let nissue := 19
      let nsecs := u32 (nsecs + 2 ^ 32 - 7340 * (86400 / 5))
      if nsecs ≥ 5000 * 86400 then
        let nsecs := nsecs - 5000 * 86400
        let integer := u32 (7840 + nsecs / (86400 * 2))
        let frac := mul64 (((nsecs % (86400 * 2)) <<< 32) ||| dt.frac) 5
        if integer ≥ 10000 then (false, nissue + 1, integer - 10000, frac)
        else (false, nissue, integer, frac)
      else
        let integer := u32 (7340 + nsecs / (86400 * 10))
        let frac := ((nsecs % (86400 * 10)) <<< 32) ||| dt.frac
        (false, nissue, integer, frac)

/-- Source function `sdout`; `sddigits` is the global output precision. -/
def sdout (sddigits : Nat) (dt : intdate) : List Char :=
  if tngepoch ≤ dt.sec then tngsdout sddigits dt else
  let r := sdoutFields dt
  let frac := mul64 r.2.2.2 125 / 108
  '[' :: ((if r.1 then ['-'] else []) ++ (fmtlu 0 r.2.1 ++ ']' :: (fmtlu 4 r.2.2.1
    ++ fracfmt sddigits (u32 (frac >>> 32)))))

/-! ## Unix time -/

/-- Source function `unixin`. -/
def unixin (date : List Char) : Outcome intdate :=
  let pos := tl date
  if hd date ≠ 'u' ∧ hd date ≠ 'U' then .unmatched else
  let neg : Bool := hd pos = '-'
  let pos := if neg then tl pos else pos
  let hex : Bool := hd pos = '0' && (hd (tl pos) = 'x' || hd (tl pos) = 'X')
  let pos := if hex then tl (tl pos) else pos
  let radix := if hex then 16 else 10
  if !isalnum (hd pos) then .outOfRange .unixDate else
  let m := strtoull pos radix
  if hd m.2.1 ≠ Char.ofNat 0 then .outOfRange .unixDate else
  .success { sec := if neg then sub64 unixepoch m.1 else add64 unixepoch m.1, frac := 0 } m.2.2

/-- Source function `unixout`. -/
def unixout (dt : intdate) (radix : Nat) (pfx : List Char) : List Char :=
  let r : List Char × Nat :=
    if unixepoch ≤ dt.sec then ([], sub64 dt.sec unixepoch)
    else (['-'], sub64 unixepoch dt.sec)
  'U' :: r.1 ++ pfx ++ uint64str r.2 radix 1

def unixdout (dt : intdate) : List Char := unixout dt 10 []

def unixxout (dt : intdate) : List Char := unixout dt 16 "0x".toList

/-! ## The scaling computations with every step checked

The same statements as in `sdinTime`, `qcin`, `sdoutFields`, `sdout`, `tngFields` and
`qcout`, computed in unbounded natural numbers; a step whose exact value does not fit its
machine type gives `none`; the shifts and the bitwise or are those of the source. -/

/-- A `uint64_t` result: its exact value, when that is below 2^64. -/
def exact64 (a : Nat) : Option Nat := if a < 2 ^ 64 then some a else none

/-- A conversion to `uint32_t` or `unsigned`: the value, when that loses no bits. -/
def exact32 (a : Nat) : Option Nat := if a < 2 ^ 32 then some a else none

/-- An unsigned subtraction: the exact difference, when that is not negative. -/
def exactSub (a b : Nat) : Option Nat := if b ≤ a then some (a - b) else none

/-- The code of `sdin` at the label `fiddle`, every step checked. -/
def sdinFiddleExact (integer frac : Nat) : Option (Nat × Nat) := do
  let a ← exactSub integer 7340
  let a ← exact64 (a * 50)
  let a ← exact64 (7340 + a)
  let a ← exact64 (a + frac / (1000000 / 50))
  let integer ← exact32 a
  let b ← exact64 (frac * 50)
  let frac ← exact32 (b % 1000000)
  if integer ≥ 32340 then do
    let c ← exact64 ((integer % 5) * (1000000 / 5))
    let c ← exact64 (frac / 5 + c)
    let frac ← exact32 c
    let d ← exactSub integer 32340
    let d ← exact64 (32340 + d / 5)
    let integer ← exact32 d
    pure (integer, frac)
  else pure (integer, frac)

/-- The second half of `sdin`, every step checked; the low half of `f` is the fraction. -/
def sdinTimeExact (negi : Bool) (nissue integer frac : Nat) : Option intdate :=
  if negi ∨ nissue ≤ 20 then do
    let r : Nat × Nat × Nat ←
      if !negi then
        if nissue = 20 then do
          let i ← exact32 (integer + 10000)
          let r ← sdinFiddleExact i frac
          pure (19, r)
        else if nissue = 19 ∧ integer ≥ 7340 then do
          let r ← sdinFiddleExact integer frac
          pure (nissue, r)
        else pure (nissue, integer, frac)
      else pure (nissue, integer, frac)
    let nissue := r.1
    let integer := r.2.1
    let frac := r.2.2
    let sec ←
      if !negi then do
        let a ← exact64 (nissue * (2000 * 86400))
        exact64 (ufpepoch + a)
      else do
        let a ← exactSub nissue 1
        let a ← exact64 (a * (2000 * 86400))
        exactSub ufpepoch a
    let a ← exact64 ((86400 / 5) * integer)
    let sec ← exact64 (sec + a)
    let f ← exact64 (frac <<< 32)
    let f ← exact64 (f * 54)
    let f ← exact64 (f + 3124)
    let f := f / 3125
    let a ← exact32 (f >>> 32)
    let sec ← exact64 (sec + a)
    let sec ← if negi then exactSub sec (2000 * 86400) else pure sec
    pure { sec := sec, frac := f % 2 ^ 32 }
  else do
    let nissue ← exactSub nissue 21
    let a ← exact64 (nissue * ((86400 / 4) * 146097))
    let sec ← exact64 (tngepoch + a)
    let t ← exact64 (integer * 1000000)
    let t ← exact64 (t + frac)
    let t ← exact64 (t * (27 * 146097))
    let sec ← exact64 (sec + t / 125000000)
    let t ← exact64 ((t % 125000000) <<< 32)
    let t ← exact64 (t + 124999999)
    let frac ← exact32 (t / 125000000)
    pure { sec := sec, frac := frac }

/-- The month loop of `qcin`, every addition checked. -/
def monthLoopExact (days : List Nat) : Nat → Nat → Option Nat
  | 0, n => some n
  | m + 1, n => do
    let n ← exact32 (n + idx days m)
    monthLoopExact days m n

/-- The computation of `qcin` after the check of the day, every step checked. -/
def qcinTimeExact (c : caldate) : Option intdate := do
  let low : Bool := c.year < 323
  let year ← if low then exact64 (c.year + (400 - 323)) else exactSub c.year 323
  let a ← exact64 (year * QCYEAR)
  let secs ← exact64 (qcepoch + a)
  let n ← exactSub c.day 1
  let n ← monthLoopExact nrmdays (c.month - 1) n
  let t ← exact64 (n * 86400 + c.hour * 3600 + c.min * 60 + c.sec)
  let t ← exact64 (t * QCYEAR)
  let f ← exact64 ((t % STDYEAR) <<< 32)
  let f ← exact64 (f + STDYEAR)
  let f ← exactSub f 1
  let secs ← exact64 (secs + t / STDYEAR)
  let secs ← if low then exactSub secs quadcent else pure secs
  let frac ← exact32 (f / STDYEAR)
  pure { sec := secs, frac := frac }

/-- The computation of `sdout` before the printing, every step checked. -/
def sdoutFieldsExact (dt : intdate) : Option (Bool × Nat × Nat × Nat) :=
  if dt.sec < ufpepoch then do
    let diff ← exactSub ufpepoch dt.sec
    let diff ← exactSub diff 1
    let a ← exact32 (diff % (2000 * 86400))
    let nsecs ← exactSub (2000 * 86400 - 1) a
    let a ← exact32 (diff / (2000 * 86400))
    let nissue ← exact32 (1 + a)
    let integer := nsecs / (86400 / 5)
    let b ← exact64 ((nsecs % (86400 / 5)) <<< 32)
    let frac ← exact64 ((b ||| dt.frac) * 50)
    pure (true, nissue, integer, frac)
  else do
    let diff ← exactSub dt.sec ufpepoch
    let nsecs ← exact32 (diff % (2000 * 86400))
    let nissue ← exact32 (diff / (2000 * 86400))
    if nissue < 19 ∨ (nissue = 19 ∧ nsecs < 7340 * (86400 / 5)) then do
      let integer := nsecs / (86400 / 5)
      let b ← exact64 ((nsecs % (86400 / 5)) <<< 32)
      let frac ← exact64 ((b ||| dt.frac) * 50)
      pure (false, nissue, integer, frac)
    else do
      let a ← exactSub nissue 19
      let a ← exact64 (a * 2000 * 86400)
      let nsecs ← exact32 (nsecs + a)
      let nissue := 19
      let nsecs ← exactSub nsecs (7340 * (86400 / 5))
      if nsecs ≥ 5000 * 86400 then do
        let nsecs ← exactSub nsecs (5000 * 86400)
        let integer ← exact32 (7840 + nsecs / (86400 * 2))
        let b ← exact64 ((nsecs % (86400 * 2)) <<< 32)
        let frac ← exact64 ((b ||| dt.frac) * 5)
        if integer ≥ 10000 then do
          let integer ← exactSub integer 10000
          pure (false, nissue + 1, integer, frac)
        else pure (false, nissue, integer, frac)
      else do
        let integer ← exact32 (7340 + nsecs / (86400 * 10))
        let b ← exact64 ((nsecs % (86400 * 10)) <<< 32)
        pure (false, nissue, integer, b ||| dt.frac)

/-- The scaling of the fraction in `sdout`, `frac * 125 / 108` and the conversion of its
high half, every step checked. -/
def sdoutFracExact (frac : Nat) : Option Nat := do
  let a ← exact64 (frac * 125)
  exact32 ((a / 108) >>> 32)

/-- The computation of `tngsdout` before the printing, every step checked. -/
def tngFieldsExact (dt : intdate) : Option (Nat × Nat) := do
  let diff ← exactSub dt.sec tngepoch
  let nissue ← exact64 (21 + diff / ((86400 / 4) * 146097))
  let nsecs ← exact32 (diff % ((86400 / 4) * 146097))
  let h ← exact64 (nsecs * 125000000)
  let l ← exact64 (dt.frac * 125000000)
  let a ← exact32 (l >>> 32)
  let h ← exact64 (h + a)
  let h := h / (27 * 146097)
  let _ ← exact32 (h / 1000000)
  let _ ← exact32 (h % 1000000)
  pure (nissue, h)

/-- The computation of `qcout` before the call of `docalout`, every step checked: the year
and the seconds into it. -/
def qcoutExact (dt : intdate) : Option (Nat × Nat) := do
  let low : Bool := dt.sec < qcepoch
  let secs ← if low then exact64 (dt.sec + quadcent) else pure dt.sec
  let secs ← exactSub secs qcepoch
  let nsec ← exact32 (secs % QCYEAR)
  let secs := secs / QCYEAR
  let year ← if low then exactSub secs (400 - 323) else exact64 (secs + 323)
  let h ← exact64 (nsec * 146000)
  let l ← exact64 (dt.frac * 146000)
  let a ← exact32 (l >>> 32)
  let h ← exact64 (h + a)
  let nsec ← exact32 (h / 146097)
  pure (year, nsec)

/-! ## The decoders in turn -/

/-- The column `in` of the source table `formats`, in its order: `sdin`, `julin`, `gregin`,
`qcin`, `unixin`, and no decoder for the option `x`.  `fracbuf0` is what the array
`fracbuf` of `sdin` holds on entry. -/
def formats (fracbuf0 : List Char) : List (Option (List Char → Outcome intdate)) :=
  [some (sdin fracbuf0), some julin, some gregin, some qcin, some unixin, none]

/-- The decoder loop of `main` over a table of decoders:
`for(f = formats; f->opt; f++) { errno = 0; n = f->in ? f->in(*argv, &dt) : 0; if(n) break; }`.
The result is the outcome of the first decoder that does not return 0. -/
def decodeLoop : List (Option (List Char → Outcome intdate)) → List Char → Outcome intdate
  | [], _ => .unmatched
  | none :: fs, date => decodeLoop fs date
  | some f :: fs, date =>
    match f date with
    | .unmatched => decodeLoop fs date
    | .outOfRange d => .outOfRange d
    | .success dt e => .success dt e


/-! ## Definitions for the statements

Texts, their values, and the calendar quantities the theorems are stated with. -/

/-- A string of decimal digits. -/
def Digits (ds : List Char) : Prop := ∀ c ∈ ds, isdigit c = true

/-- The number a string of decimal digits denotes, continuing from `acc`. -/
def decFold (ds : List Char) (acc : Nat) : Nat := ds.foldl (fun a c => a * 10 + (c.toNat - 48)) acc

/-- The number a string of decimal digits denotes. -/
def decVal (ds : List Char) : Nat := decFold ds 0

/-- A non-empty string of decimal digits. -/
def Digits1 (ds : List Char) : Prop := Digits ds ∧ ds ≠ []

/-- The time of day of a calendar token: absent, `Thh:mm` or `Thh:mm:ss`. -/
def timeText : Option (List Char × List Char × Option (List Char)) → List Char
  | none => []
  | some (hs, ns, none) => 'T' :: (hs ++ ':' :: ns)
  | some (hs, ns, some ss) => 'T' :: (hs ++ ':' :: (ns ++ ':' :: ss))

/-- The time of day consists of non-empty digit strings. -/
def TimeDigits : Option (List Char × List Char × Option (List Char)) → Prop
  | none => True
  | some (hs, ns, none) => Digits1 hs ∧ Digits1 ns
  | some (hs, ns, some ss) => Digits1 hs ∧ Digits1 ns ∧ Digits1 ss

/-- A calendar token: digits, separator, digits, separator, digits, time of day. -/
def calToken (sep : Char) (ys ms ds : List Char)
    (t : Option (List Char × List Char × Option (List Char))) : List Char :=
  ys ++ sep :: (ms ++ sep :: (ds ++ timeText t))

/-- The hour, minute and second a time of day denotes (0 when absent). -/
def timeVals : Option (List Char × List Char × Option (List Char)) → Nat × Nat × Nat
  | none => (0, 0, 0)
  | some (hs, ns, none) => (decVal hs, decVal ns, 0)
  | some (hs, ns, some ss) => (decVal hs, decVal ns, decVal ss)

/-- The first field out of range, in the order month, day, hour, minute, second. -/
def firstOffending (month day hour min sec : Nat) : Option Diag :=
  if month = 0 ∨ month > 12 then some .month
  else if day = 0 ∨ day > 31 then some .day
  else if hour > 23 then some .hour
  else if min > 59 then some .minute
  else if sec > 59 then some .second
  else none

/-- The leap-year test that `xdays` makes. -/
def isLeap (gp : Bool) (y : Nat) : Bool := if gp then gleapyear y else jleapyear y

/-- The number of days of a year by its leap flag. -/
def ylen (leap : Bool) : Nat := if leap then 366 else 365

/-- The table of month lengths by leap flag. -/
def mdays (leap : Bool) : List Nat := if leap then lyrdays else nrmdays

/-- The days of the `j` months from month `k` on. -/
def span (tbl : List Nat) (k : Nat) : Nat → Nat
  | 0 => 0
  | j + 1 => idx tbl k + span tbl (k + 1) j

/-- The days of a year before month `m` (from 0). -/
def cumDays (leap : Bool) (m : Nat) : Nat := span (mdays leap) 0 m

/-- The days of the first `y` years of the Gregorian calendar. -/
def gdaysBefore (y : Nat) : Nat := 365 * y + y / 4 - y / 100 + y / 400

/-- The days of the first `y` years of the Julian calendar. -/
def jdaysBefore (y : Nat) : Nat := 365 * y + y / 4

/-- The internal seconds of a Julian date-time. -/
def julSecs (Y M D h mi s : Nat) : Nat :=
  86400 * (jdaysBefore (Y - 1) + (cumDays (jleapyear Y) (M - 1) + (D - 1)))
    + (3600 * h + 60 * mi + s)

/-- The days of the first `z` years of a calendar. -/
def yearDays (gp : Bool) (z : Nat) : Nat := if gp then gdaysBefore z else jdaysBefore z

/-- The day count that `calout` estimates the year from: the whole days of the internal time,
for the Gregorian calendar counted from 400 years less 2 days earlier. -/
def caloutDays (gp : Bool) (sec : Nat) : Nat := sec / 86400 + (if gp then 146095 else 0)

/-- The estimate of the elapsed years that the specification describes. -/
def yearEstimate (gp : Bool) (days : Nat) : Nat :=
  if gp then days / 146097 * 400 + days % 146097 / 366 else days / 366 + days / (366 * 487)

/-- The internal seconds of a Gregorian date-time. -/
def gregSecs (Y M D h mi s : Nat) : Nat :=
  86400 * (gdaysBefore (Y - 1) + 2 + (cumDays (gleapyear Y) (M - 1) + (D - 1)))
    + (3600 * h + 60 * mi + s)

/-- The leap-year rule of the specification: Julian years are leap when divisible by 4,
Gregorian years when divisible by 4 and (not divisible by 100, or divisible by 400). -/
def leapRule (gp : Bool) (y : Nat) : Bool :=
  if gp then decide (y % 4 = 0 ∧ (y % 100 ≠ 0 ∨ y % 400 = 0)) else decide (y % 4 = 0)

/-- The separator of a calendar: `-` for Gregorian, `=` for Julian. -/
def calSep (gp : Bool) : Char := if gp then '-' else '='

/-- A stardate token: `[`, an optional `-`, the digits of the issue, `]`, the digits of the
integer part, and optionally `.` with the digits of the fraction. -/
def sdToken (neg : Bool) (is ns : List Char) (fs : Option (List Char)) : List Char :=
  '[' :: ((if neg then ['-'] else []) ++ (is ++ ']' :: (ns ++
    (match fs with
      | none => []
      | some f => '.' :: f))))

/-- The contents of `fracbuf` when `sdin` reads the fraction from it. -/
def fracDigits (fracbuf0 : List Char) : Option (List Char) → List Char
  | none => fracbuf0
  | some f => (fillFrac "000000".toList f).1

/-- The valid stardates of the specification: a negative issue 1..394 or an issue 0..19 with
integer part up to 9999, issue 20 with integer part up to 5005, and an issue 21..10^9 with
integer part up to 99999. -/
def ValidStardate (neg : Bool) (n I : Nat) : Prop :=
  (neg = true ∧ 1 ≤ n ∧ n ≤ 394 ∧ I ≤ 9999)
    ∨ (neg = false ∧ n ≤ 19 ∧ I ≤ 9999)
    ∨ (neg = false ∧ n = 20 ∧ I ≤ 5005)
    ∨ (neg = false ∧ 21 ≤ n ∧ n ≤ 10 ^ 9 ∧ I ≤ 99999)

/-- The canonical text of a stardate, as `sdout` and `tngsdout` print it with six fraction
digits: the issue without leading zeros, the integer part with at least four digits, five
from issue 21 on, and the six digits of the fraction `F`. -/
def sdText (neg : Bool) (n I F : Nat) : List Char :=
  sdToken neg (fmtlu 0 n) (fmtlu (if neg = false ∧ 21 ≤ n then 5 else 4) I) (some (fmtlu 6 F))

/-- The internal time as a rational number of seconds since 0001=01=01. -/
def intdate.toRat (dt : intdate) : ℚ := (dt.sec : ℚ) + (dt.frac : ℚ) / 2 ^ 32

/-- The internal time in units of `2^-32` s. -/
def intdate.ticks (dt : intdate) : Nat := dt.sec * 2 ^ 32 + dt.frac

/-- The piecewise-linear reference of the specification for a stardate before the TNG era:
the seconds after `ufpepoch` of the stardate with sign `neg`, issue `n` and value
`u = integer + fraction`: 17280 s per unit up to [19]7340, then 864000 s per unit up to
[19]7840, then 172800 s per unit. -/
def refSeconds (neg : Bool) (n I : Nat) (u : ℚ) : ℚ :=
  if neg then -(n : ℚ) * 172800000 + 17280 * u
  else if n < 19 ∨ (n = 19 ∧ I < 7340) then (n : ℚ) * 172800000 + 17280 * u
  else if n = 19 ∧ I < 7840 then 19 * 172800000 + 7340 * 17280 + 864000 * (u - 7340)
  else 19 * 172800000 + 7340 * 17280 + 500 * 864000
    + 172800 * (u + 10000 * ((n : ℚ) - 19) - 7840)

/-- The declared resolution of a stardate at the internal time `t`, in seconds: one millionth
of the stardate unit of the era of `t`: 0.01728 s before [19]7340, 0.864 s up to [19]7840,
0.1728 s up to the TNG epoch, 3944619/125000000 s from the TNG epoch on. -/
def sdResolution (t : intdate) : ℚ :=
  if t.sec < 71605036800 then 17280 / 10 ^ 6
  else if t.sec < 72037036800 then 864000 / 10 ^ 6
  else if t.sec < tngepoch then 172800 / 10 ^ 6
  else 3944619 / 125000000

/-- The naive count of the days of the years 1..`y`: the sum of their lengths, 365 or 366 by
the leap rule of the calendar, one year at a time. -/
def naiveYearDays (gp : Bool) : Nat → Nat
  | 0 => 0
  | y + 1 => naiveYearDays gp y + (if leapRule gp (y + 1) then 366 else 365)

/-- The naive count of the months before month `m` (from 1) of a year: the sum of their
lengths in the table of the year. -/
def naiveMonthDays (leap : Bool) (m : Nat) : Nat :=
  ((if leap then lyrdays else nrmdays).take (m - 1)).sum

/-- The naive day number of a date: the days of the years 1..`Y-1`, the days of the months
before month `M`, the days before day `D`, and 2 for the Gregorian calendar. -/
def naiveDays (gp : Bool) (Y M D : Nat) : Nat :=
  naiveYearDays gp (Y - 1) + naiveMonthDays (leapRule gp Y) M + (D - 1) + (if gp then 2 else 0)

/-- A hexadecimal digit, of either letter case. -/
def ishex (c : Char) : Bool :=
  isdigit c || (97 ≤ c.toNat && c.toNat ≤ 102) || (65 ≤ c.toNat && c.toNat ≤ 70)

/-- The value of a hexadecimal digit. -/
def hexDigit (c : Char) : Nat :=
  if isdigit c then c.toNat - 48 else if 97 ≤ c.toNat then c.toNat - 87 else c.toNat - 55

/-- A string of hexadecimal digits. -/
def HexDigits (hs : List Char) : Prop := ∀ c ∈ hs, ishex c = true

/-- The number a string of hexadecimal digits denotes, continuing from `acc`. -/
def hexFold (hs : List Char) (acc : Nat) : Nat := hs.foldl (fun a c => a * 16 + hexDigit c) acc

/-- The number a string of hexadecimal digits denotes. -/
def hexVal (hs : List Char) : Nat := hexFold hs 0

/-- A Unix token: `U` or `u`, an optional `-`, an optional radix prefix, the digits. -/
def unixToken (u : Char) (neg : Bool) (pfx ds : List Char) : List Char :=
  u :: ((if neg then ['-'] else []) ++ (pfx ++ ds))

/-- The number of digits the integer part of a stardate is padded to at the time `t`: 4
before the TNG epoch, 5 from the TNG epoch on. -/
def intWidth (t : intdate) : Nat := if t.sec < tngepoch then 4 else 5

/-- The order of stardates by the value they denote: negative issues before non-negative
ones, a larger negative issue number earlier, then by issue, integer part and fraction. -/
def sdBefore (neg1 : Bool) (n1 I1 F1 : Nat) (neg2 : Bool) (n2 I2 F2 : Nat) : Prop :=
  (neg1 = true ∧ neg2 = false)
    ∨ (neg1 = true ∧ neg2 = true ∧ (n2 < n1 ∨ (n1 = n2 ∧ (I1 < I2 ∨ (I1 = I2 ∧ F1 < F2)))))
    ∨ (neg1 = false ∧ neg2 = false
      ∧ (n1 < n2 ∨ (n1 = n2 ∧ (I1 < I2 ∨ (I1 = I2 ∧ F1 < F2)))))

/-- The order of internal times as pairs of seconds and fraction. -/
def intdate.before (a b : intdate) : Prop := a.sec < b.sec ∨ (a.sec = b.sec ∧ a.frac < b.frac)

/-- The position of a stardate before the TNG era in millionths of an early unit of 17280 s,
counted from the start of the negative issue 394: an issue is 10^10 millionths, a unit from
[19]7340 on is 50 early units and a unit from [19]7840 on is 10 early units. -/
def sdKey (neg : Bool) (n I F : Nat) : Nat :=
  if neg then (394 - n) * 10000000000 + I * 1000000 + F
  else if n < 19 ∨ (n = 19 ∧ I < 7340) then (394 + n) * 10000000000 + I * 1000000 + F
  else if n = 19 ∧ I < 7840 then
    4130000000000 + (7340 + 50 * (I - 7340)) * 1000000 + 50 * F
  else 4130000000000 + (32340 + 10 * (I + 10000 * (n - 19) - 7840)) * 1000000 + 10 * F

/-- A decoder outcome other than Unmatched. -/
def Outcome.matched {α : Type} : Outcome α → Bool
  | .unmatched => false
  | .outOfRange _ => true
  | .success _ _ => true

/-- The seconds, in units of `2^-32` s and rounded up, of `frac` millionths of an early
stardate unit of 17280 s: `54 * frac / 3125` seconds. -/
def efrac (frac : Nat) : Nat := (frac * 2 ^ 32 * 54 + 3124) / 3125

/-! ## Decimal text -/

theorem isdigit_iff (c : Char) : isdigit c = true ↔ 48 ≤ c.toNat ∧ c.toNat ≤ 57 := by
  simp [isdigit]

theorem digitVal_lt_ten (c : Char) : digitVal c < 10 ↔ isdigit c = true := by
  unfold digitVal
  by_cases h : isdigit c = true
  · rw [if_pos h]
    have := (isdigit_iff c).1 h
    exact ⟨fun _ => h, fun _ => by omega⟩
  · rw [if_neg h]
    refine ⟨fun hlt => ?_, fun h1 => absurd h1 h⟩
    exfalso
    split_ifs at hlt <;> omega

theorem digitVal_of_isdigit (c : Char) (h : isdigit c = true) : digitVal c = c.toNat - 48 := by
  simp [digitVal, h]

theorem hd_nil : hd [] = Char.ofNat 0 := rfl

theorem hd_cons (c : Char) (s : List Char) : hd (c :: s) = c := rfl

theorem tl_cons (c : Char) (s : List Char) : tl (c :: s) = s := rfl

theorem scanDigits_append (ds rest : List Char) (acc : Nat) (hds : Digits ds)
    (hrest : isdigit (hd rest) = false) :
    scanDigits 10 (ds ++ rest) acc = (ds.length, decFold ds acc, rest) := by
  induction ds generalizing acc with
  | nil =>
    cases rest with
    | nil => rfl
    | cons c cs =>
      have : ¬ digitVal c < 10 := by
        rw [digitVal_lt_ten]; simpa [hd] using hrest
      simp [scanDigits, this, decFold]
  | cons d ds ih =>
    have hd1 : isdigit d = true := hds d (List.mem_cons_self _ _)
    have hlt : digitVal d < 10 := (digitVal_lt_ten d).2 hd1
    have hds1 : Digits ds := fun c hc => hds c (List.mem_cons_of_mem _ hc)
    rw [List.cons_append, scanDigits, if_pos hlt, ih _ hds1, digitVal_of_isdigit d hd1]
    rfl

theorem isspace_of_isdigit (c : Char) (h : isdigit c = true) : isspace c = false := by
  rw [isdigit_iff] at h
  simp only [isspace, Bool.or_eq_false_iff, decide_eq_false_iff_not, Bool.and_eq_false_iff]
  omega

theorem char_ne_of_toNat_ne {c d : Char} (h : c.toNat ≠ d.toNat) : c ≠ d := by
  rintro rfl; exact h rfl

/-- `strtoull` in radix 10 at a non-empty run of digits. -/
theorem strtoull_digits (ds rest : List Char) (hds : Digits ds) (hne : ds ≠ [])
    (hrest : isdigit (hd rest) = false) :
    strtoull (ds ++ rest) 10 =
      (min (decVal ds) (2 ^ 64 - 1), rest, decide (2 ^ 64 ≤ decVal ds)) := by
  obtain ⟨d, ds1, rfl⟩ := List.exists_cons_of_ne_nil hne
  have hd1 : isdigit d = true := hds d (List.mem_cons_self _ _)
  have hsp : isspace d = false := isspace_of_isdigit d hd1
  have hd2 : 48 ≤ d.toNat ∧ d.toNat ≤ 57 := (isdigit_iff d).1 hd1
  have hm : d ≠ '-' := char_ne_of_toNat_ne (by
    have : ('-' : Char).toNat = 45 := by decide
    omega)
  have hp : d ≠ '+' := char_ne_of_toNat_ne (by
    have : ('+' : Char).toNat = 43 := by decide
    omega)
  have hscan := scanDigits_append (d :: ds1) rest 0 hds hrest
  simp only [List.cons_append] at hscan
  have h16 : ¬ (10 : Nat) = 16 := by decide
  simp only [strtoull, List.cons_append, List.dropWhile_cons, hsp, hd_cons, hm, hp, false_or,
    if_false, hscan, List.length_cons, Nat.add_one_ne_zero, decVal, Bool.false_eq_true,
    h16, false_and]
  by_cases hbig : 2 ^ 64 ≤ decFold (d :: ds1) 0
  · rw [if_pos hbig, min_eq_right (by omega)]; simp; omega
  · rw [if_neg hbig, min_eq_left (by omega)]; simp; omega

theorem dropWhile_digits (ds rest : List Char) (hds : Digits ds)
    (hrest : isdigit (hd rest) = false) :
    (ds ++ rest).dropWhile isdigit = rest := by
  induction ds with
  | nil =>
    cases rest with
    | nil => rfl
    | cons c cs => simp only [hd_cons] at hrest; simp [List.dropWhile_cons, hrest]
  | cons d ds ih =>
    have hd1 : isdigit d = true := hds d (List.mem_cons_self _ _)
    simp only [List.cons_append, List.dropWhile_cons, hd1, if_true]
    exact ih (fun c hc => hds c (List.mem_cons_of_mem _ hc))

theorem decFold_append (xs ys : List Char) (acc : Nat) :
    decFold (xs ++ ys) acc = decFold ys (decFold xs acc) := by
  simp [decFold, List.foldl_append]

theorem decFold_replicate_zero (k : Nat) : decFold (List.replicate k '0') 0 = 0 := by
  induction k with
  | zero => rfl
  | succ k ih => rw [List.replicate_succ]; exact ih

theorem Digits_append {xs ys : List Char} (hx : Digits xs) (hy : Digits ys) :
    Digits (xs ++ ys) := by
  intro c hc
  rcases List.mem_append.1 hc with h | h
  · exact hx c h
  · exact hy c h

theorem Digits_replicate_zero (k : Nat) : Digits (List.replicate k '0') := by
  intro c hc
  rw [(List.mem_replicate.1 hc).2]; rfl

theorem digitChar_toNat (d : Nat) (h : d < 10) : (digitChar d).toNat = 48 + d := by
  interval_cases d <;> rfl

theorem digitChar_isdigit (d : Nat) (h : d < 10) : isdigit (digitChar d) = true := by
  rw [isdigit_iff, digitChar_toNat d h]; omega

/-- The digit loop of `uint64str` in radix 10 writes the decimal digits of `n`. -/
theorem uint64strLoop_spec (fuel n : Nat) (acc : List Char) (h : n < 10 ^ fuel) :
    ∃ ds, uint64strLoop 10 fuel n acc = ds ++ acc ∧ Digits ds ∧ decVal ds = n
      ∧ (n ≠ 0 → ds ≠ []) ∧ ∀ k, n < 10 ^ k → ds.length ≤ k := by
  induction fuel generalizing n acc with
  | zero =>
    have hn : n = 0 := by simpa using h
    subst hn
    exact ⟨[], rfl, fun _ hc => absurd hc (List.not_mem_nil _), rfl, fun h0 => absurd rfl h0,
      fun k _ => Nat.zero_le _⟩
  | succ fuel ih =>
    by_cases hn : n = 0
    · subst hn
      exact ⟨[], rfl, fun _ hc => absurd hc (List.not_mem_nil _), rfl, fun h0 => absurd rfl h0,
        fun k _ => Nat.zero_le _⟩
    · have hq : n / 10 < 10 ^ fuel := by
        rw [pow_succ] at h; omega
      obtain ⟨ds, hloop, hds, hval, _, hlen⟩ := ih (n / 10) (digitChar (n % 10) :: acc) hq
      have hm : n % 10 < 10 := Nat.mod_lt _ (by decide)
      refine ⟨ds ++ [digitChar (n % 10)], ?_, ?_, ?_, ?_, ?_⟩
      · rw [uint64strLoop, if_neg hn, hloop]; simp
      · exact Digits_append hds (by
          intro c hc
          rw [List.mem_singleton.1 hc]; exact digitChar_isdigit _ hm)
      · unfold decVal at hval ⊢
        rw [decFold_append, hval]
        show n / 10 * 10 + ((digitChar (n % 10)).toNat - 48) = n
        rw [digitChar_toNat _ hm]; omega
      · intro _; simp
      · intro k hk
        cases k with
        | zero => simp at hk; exact absurd hk hn
        | succ k =>
          have : n / 10 < 10 ^ k := by rw [pow_succ] at hk; omega
          have := hlen k this
          simp; omega

theorem uint64str_spec (n w : Nat) (h : n < 2 ^ 64) :
    Digits (uint64str n 10 w) ∧ decVal (uint64str n 10 w) = n
      ∧ (1 ≤ w → uint64str n 10 w ≠ []) ∧ (n < 10 ^ w → (uint64str n 10 w).length = w) := by
  have h64 : n < 10 ^ 64 := lt_trans h (by norm_num)
  obtain ⟨ds, hloop, hds, hval, hne, hlen⟩ := uint64strLoop_spec 64 n [] h64
  rw [List.append_nil] at hloop
  simp only [uint64str, hloop]
  refine ⟨Digits_append (Digits_replicate_zero _) hds, ?_, ?_, ?_⟩
  · unfold decVal at hval ⊢
    rw [decFold_append, decFold_replicate_zero, hval]
  · intro hw hnil
    have h1 := congrArg List.length hnil
    simp only [List.length_append, List.length_replicate, List.length_nil] at h1
    omega
  · intro hk
    have := hlen w hk
    simp only [List.length_append, List.length_replicate]
    omega

theorem fmtlu_spec (w n : Nat) (h : n < 2 ^ 64) :
    Digits (fmtlu w n) ∧ decVal (fmtlu w n) = n ∧ fmtlu w n ≠ [] := by
  obtain ⟨h1, h2, h3, _⟩ := uint64str_spec n (max w 1) h
  exact ⟨h1, h2, h3 (le_max_right _ _)⟩

theorem hd_digits_append (ds r : List Char) (h : Digits1 ds) : isdigit (hd (ds ++ r)) = true := by
  obtain ⟨d, ds1, rfl⟩ := List.exists_cons_of_ne_nil h.2
  exact h.1 d (List.mem_cons_self _ _)

theorem dropWhile_tl_digits (ds r : List Char) (h : Digits1 ds) (hr : isdigit (hd r) = false) :
    (tl (ds ++ r)).dropWhile isdigit = r := by
  obtain ⟨d, ds1, rfl⟩ := List.exists_cons_of_ne_nil h.2
  exact dropWhile_digits ds1 r (fun c hc => h.1 c (List.mem_cons_of_mem _ hc)) hr

theorem strtoul_digits (ds rest : List Char) (h : Digits1 ds)
    (hrest : isdigit (hd rest) = false) :
    strtoul (ds ++ rest) 10 =
      (min (decVal ds) (2 ^ 64 - 1), rest, decide (2 ^ 64 ≤ decVal ds)) :=
  strtoull_digits ds rest h.1 h.2 hrest

theorem hd_digits_ne (ds r : List Char) (h : Digits1 ds) (c : Char) (hc : isdigit c = false) :
    hd (ds ++ r) ≠ c := by
  intro he
  have := hd_digits_append ds r h
  rw [he, hc] at this
  exact Bool.noConfusion this

theorem clamp_eq (v : Nat) (h : v < 2 ^ 64) : min v (2 ^ 64 - 1) = v :=
  min_eq_left (by omega)

theorem month_check (v : Nat) :
    (decide (2 ^ 64 ≤ v) = true ∨ min v (2 ^ 64 - 1) = 0 ∨ min v (2 ^ 64 - 1) > 12)
      ↔ (v = 0 ∨ v > 12) := by
  rw [decide_eq_true_eq]
  rcases Nat.lt_or_ge v (2 ^ 64) with h | h
  · rw [clamp_eq v h]; omega
  · rw [min_eq_right (by omega)]; omega

theorem day_check (e : Bool) (v : Nat) :
    ((e || decide (2 ^ 64 ≤ v)) = true ∨ min v (2 ^ 64 - 1) = 0 ∨ min v (2 ^ 64 - 1) > 31)
      ↔ (e = true ∨ v = 0 ∨ v > 31) := by
  rw [Bool.or_eq_true, decide_eq_true_eq]
  rcases Nat.lt_or_ge v (2 ^ 64) with h | h
  · rw [clamp_eq v h]; cases e <;> simp <;> omega
  · rw [min_eq_right (by omega)]; cases e <;> simp <;> omega

theorem field_check (e : Bool) (v k : Nat) (hk : k < 2 ^ 64 - 1) :
    ((e || decide (2 ^ 64 ≤ v)) = true ∨ min v (2 ^ 64 - 1) > k) ↔ (e = true ∨ v > k) := by
  rw [Bool.or_eq_true, decide_eq_true_eq]
  rcases Nat.lt_or_ge v (2 ^ 64) with h | h
  · rw [clamp_eq v h]; cases e <;> simp <;> omega
  · rw [min_eq_right (by omega)]; cases e <;> simp <;> omega

theorem decide_big_false (v k : Nat) (h : ¬ v > k) (hk : k < 2 ^ 64) :
    decide (2 ^ 64 ≤ v) = false := by
  rw [decide_eq_false_iff_not]; omega

/-- What `readcal` returns on any calendar token, by the values of its fields. -/
theorem readcal_token (sep : Char) (ys ms ds : List Char)
    (t : Option (List Char × List Char × Option (List Char)))
    (hsep : isdigit sep = false) (hy : Digits1 ys) (hm : Digits1 ms) (hd0 : Digits1 ds)
    (ht : TimeDigits t) :
    readcal (calToken sep ys ms ds t) sep =
      match firstOffending (decVal ms) (decVal ds) (timeVals t).1 (timeVals t).2.1
          (timeVals t).2.2 with
      | some f => .outOfRange f
      | none => .success
          { year := min (decVal ys) (2 ^ 64 - 1), month := decVal ms, day := decVal ds,
            hour := (timeVals t).1, min := (timeVals t).2.1, sec := (timeVals t).2.2 }
          (decide (2 ^ 64 ≤ decVal ys)) := by
  have hT : isdigit 'T' = false := by decide
  have hcolon : isdigit ':' = false := by decide
  have hnil : isdigit (hd []) = false := by decide
  have hTn : ¬ ('T' = Char.ofNat 0) := by decide
  have hcn : ¬ (':' = Char.ofNat 0) := by decide
  have k23 : (23 : Nat) < 2 ^ 64 - 1 := by norm_num
  have k59 : (59 : Nat) < 2 ^ 64 - 1 := by norm_num
  rcases t with _ | ⟨hs, ns, _ | ss⟩
  · simp only [calToken, timeText, timeVals, List.append_nil]
    have e1 := hd_digits_append ys (sep :: (ms ++ sep :: ds)) hy
    have e2 := dropWhile_tl_digits ys (sep :: (ms ++ sep :: ds)) hy hsep
    have e3 := hd_digits_append ms (sep :: ds) hm
    have e4 := dropWhile_tl_digits ms (sep :: ds) hm hsep
    have e5 := hd_digits_append ds [] hd0
    have e6 := dropWhile_tl_digits ds [] hd0 hnil
    have e7 := strtoull_digits ys (sep :: (ms ++ sep :: ds)) hy.1 hy.2 hsep
    have e8 := strtoul_digits ms (sep :: ds) hm hsep
    have e9 := strtoul_digits ds [] hd0 hnil
    simp only [List.append_nil] at e5 e6 e9
    generalize ys ++ sep :: (ms ++ sep :: ds) = date at *
    unfold readcal
    simp only [e1, e2, hd_cons, tl_cons, e3, e4, e5, e6, e7, e8, e9, hd_nil, ne_eq,
      not_true_eq_false, Bool.not_true, Bool.false_eq_true, if_false, false_or, or_self,
      month_check, day_check]
    unfold firstOffending
    by_cases hM : decVal ms = 0 ∨ decVal ms > 12
    · simp only [hM, if_true]
    have hMb := decide_big_false (decVal ms) 12 (fun h => hM (Or.inr h)) (by norm_num)
    simp only [hM, if_false, hMb, Bool.false_eq_true, false_or]
    rw [clamp_eq (decVal ms) (by omega)]
    by_cases hD : decVal ds = 0 ∨ decVal ds > 31
    · simp only [hD, if_true]
    simp only [hD, if_false, if_true, gt_iff_lt, Nat.not_lt_zero]
    rw [clamp_eq (decVal ds) (by omega)]
  · obtain ⟨hh, hn⟩ := ht
    simp only [calToken, timeText, timeVals]
    have e1 := hd_digits_append ys (sep :: (ms ++ sep :: (ds ++ 'T' :: (hs ++ ':' :: ns)))) hy
    have e2 := dropWhile_tl_digits ys (sep :: (ms ++ sep :: (ds ++ 'T' :: (hs ++ ':' :: ns)))) hy hsep
    have e3 := hd_digits_append ms (sep :: (ds ++ 'T' :: (hs ++ ':' :: ns))) hm
    have e4 := dropWhile_tl_digits ms (sep :: (ds ++ 'T' :: (hs ++ ':' :: ns))) hm hsep
    have e5 := hd_digits_append ds ('T' :: (hs ++ ':' :: ns)) hd0
    have e6 := dropWhile_tl_digits ds ('T' :: (hs ++ ':' :: ns)) hd0 hT
    have e7 := strtoull_digits ys (sep :: (ms ++ sep :: (ds ++ 'T' :: (hs ++ ':' :: ns)))) hy.1 hy.2 hsep
    have e8 := strtoul_digits ms (sep :: (ds ++ 'T' :: (hs ++ ':' :: ns))) hm hsep
    have e9 := strtoul_digits ds ('T' :: (hs ++ ':' :: ns)) hd0 hT
    have f1 := hd_digits_append hs (':' :: ns) hh
    have f2 := dropWhile_tl_digits hs (':' :: ns) hh hcolon
    have f3 := strtoul_digits hs (':' :: ns) hh hcolon
    have f4 := hd_digits_append ns [] hn
    have f5 := dropWhile_tl_digits ns [] hn hnil
    have f6 := strtoul_digits ns [] hn hnil
    simp only [List.append_nil] at f4 f5 f6
    generalize ys ++ sep :: (ms ++ sep :: (ds ++ 'T' :: (hs ++ ':' :: ns))) = date at *
    unfold readcal
    simp only [e1, e2, hd_cons, tl_cons, e3, e4, e5, e6, e7, e8, e9, f1, f2, f3, f4, f5, f6, hd_nil,
      ne_eq, not_true_eq_false, Bool.not_true, Bool.false_eq_true, if_false, false_or, or_self,
      month_check, day_check, field_check _ _ _ k23, field_check _ _ _ k59, hTn, hcn,
      not_false_eq_true, if_true, false_and]
    unfold firstOffending
    by_cases hM : decVal ms = 0 ∨ decVal ms > 12
    · simp only [hM, if_true]
    have hMb := decide_big_false (decVal ms) 12 (fun h => hM (Or.inr h)) (by norm_num)
    simp only [hM, if_false, hMb, Bool.false_eq_true, false_or, Bool.false_or]
    rw [clamp_eq (decVal ms) (by omega)]
    by_cases hD : decVal ds = 0 ∨ decVal ds > 31
    · simp only [hD, if_true]
    have hDb := decide_big_false (decVal ds) 31 (fun h => hD (Or.inr h)) (by norm_num)
    simp only [hD, if_false, hDb, Bool.false_eq_true, false_or, Bool.false_or]
    rw [clamp_eq (decVal ds) (by omega)]
    by_cases hH : decVal hs > 23
    · simp only [hH, if_true]
    have hHb := decide_big_false (decVal hs) 23 hH (by norm_num)
    simp only [hH, if_false, hHb, Bool.false_eq_true, false_or, Bool.false_or]
    rw [clamp_eq (decVal hs) (by omega)]
    by_cases hN : decVal ns > 59
    · simp only [hN, if_true]
    have hNb := decide_big_false (decVal ns) 59 hN (by norm_num)
    simp only [hN, if_false, hNb, Bool.false_eq_true, false_or, Bool.false_or]
    rw [clamp_eq (decVal ns) (by omega)]
    simp only [gt_iff_lt, Nat.not_lt_zero, if_false]
  · obtain ⟨hh, hn, hs0⟩ := ht
    simp only [calToken, timeText, timeVals]
    have e1 := hd_digits_append ys
      (sep :: (ms ++ sep :: (ds ++ 'T' :: (hs ++ ':' :: (ns ++ ':' :: ss))))) hy
    have e2 := dropWhile_tl_digits ys
      (sep :: (ms ++ sep :: (ds ++ 'T' :: (hs ++ ':' :: (ns ++ ':' :: ss))))) hy hsep
    have e3 := hd_digits_append ms (sep :: (ds ++ 'T' :: (hs ++ ':' :: (ns ++ ':' :: ss)))) hm
    have e4 := dropWhile_tl_digits ms
      (sep :: (ds ++ 'T' :: (hs ++ ':' :: (ns ++ ':' :: ss)))) hm hsep
    have e5 := hd_digits_append ds ('T' :: (hs ++ ':' :: (ns ++ ':' :: ss))) hd0
    have e6 := dropWhile_tl_digits ds ('T' :: (hs ++ ':' :: (ns ++ ':' :: ss))) hd0 hT
    have e7 := strtoull_digits ys
      (sep :: (ms ++ sep :: (ds ++ 'T' :: (hs ++ ':' :: (ns ++ ':' :: ss))))) hy.1 hy.2 hsep
    have e8 := strtoul_digits ms (sep :: (ds ++ 'T' :: (hs ++ ':' :: (ns ++ ':' :: ss)))) hm hsep
    have e9 := strtoul_digits ds ('T' :: (hs ++ ':' :: (ns ++ ':' :: ss))) hd0 hT
    have f1 := hd_digits_append hs (':' :: (ns ++ ':' :: ss)) hh
    have f2 := dropWhile_tl_digits hs (':' :: (ns ++ ':' :: ss)) hh hcolon
    have f3 := strtoul_digits hs (':' :: (ns ++ ':' :: ss)) hh hcolon
    have f4 := hd_digits_append ns (':' :: ss) hn
    have f5 := dropWhile_tl_digits ns (':' :: ss) hn hcolon
    have f6 := strtoul_digits ns (':' :: ss) hn hcolon
    have g1 := hd_digits_append ss [] hs0
    have g2 := dropWhile_tl_digits ss [] hs0 hnil
    have g3 := strtoul_digits ss [] hs0 hnil
    simp only [List.append_nil] at g1 g2 g3
    generalize ys ++ sep :: (ms ++ sep :: (ds ++ 'T' :: (hs ++ ':' :: (ns ++ ':' :: ss)))) = date
      at *
    unfold readcal
    simp only [e1, e2, hd_cons, tl_cons, e3, e4, e5, e6, e7, e8, e9, f1, f2, f3, f4, f5, f6, g1, g2,
      g3, hd_nil, ne_eq, not_true_eq_false, Bool.not_true, Bool.false_eq_true, if_false, false_or,
      or_self, month_check, day_check, field_check _ _ _ k23, field_check _ _ _ k59, hTn, hcn,
      not_false_eq_true, if_true, false_and]
    unfold firstOffending
    by_cases hM : decVal ms = 0 ∨ decVal ms > 12
    · simp only [hM, if_true]
    have hMb := decide_big_false (decVal ms) 12 (fun h => hM (Or.inr h)) (by norm_num)
    simp only [hM, if_false, hMb, Bool.false_eq_true, false_or, Bool.false_or]
    rw [clamp_eq (decVal ms) (by omega)]
    by_cases hD : decVal ds = 0 ∨ decVal ds > 31
    · simp only [hD, if_true]
    have hDb := decide_big_false (decVal ds) 31 (fun h => hD (Or.inr h)) (by norm_num)
    simp only [hD, if_false, hDb, Bool.false_eq_true, false_or, Bool.false_or]
    rw [clamp_eq (decVal ds) (by omega)]
    by_cases hH : decVal hs > 23
    · simp only [hH, if_true]
    have hHb := decide_big_false (decVal hs) 23 hH (by norm_num)
    simp only [hH, if_false, hHb, Bool.false_eq_true, false_or, Bool.false_or]
    rw [clamp_eq (decVal hs) (by omega)]
    by_cases hN : decVal ns > 59
    · simp only [hN, if_true]
    have hNb := decide_big_false (decVal ns) 59 hN (by norm_num)
    simp only [hN, if_false, hNb, Bool.false_eq_true, false_or, Bool.false_or]
    rw [clamp_eq (decVal ns) (by omega)]
    by_cases hS : decVal ss > 59
    · simp only [hS, if_true]
    simp only [hS, if_false]
    rw [clamp_eq (decVal ss) (by omega)]

/-! ## The month walk -/

theorem xdays_eq (gp : Bool) (y : Nat) : xdays gp y = mdays (isLeap gp y) := by
  unfold xdays mdays isLeap
  cases gp <;> rfl

theorem span_year (leap : Bool) : span (mdays leap) 0 12 = ylen leap := by
  cases leap <;> rfl

theorem monthWalk_months (gp : Bool) (c y d : Nat) (j : Nat) :
    ∀ k n fuel, k + j < 12 → n = span (xdays gp c) k j + d → d < idx (xdays gp c) (k + j) →
      monthWalk gp (fuel + j + 1) c y k n = some (y, k + j, d) := by
  induction j with
  | zero =>
    intro k n fuel _ hn hd
    simp only [span, Nat.zero_add, Nat.add_zero] at hn hd ⊢
    subst hn
    rw [monthWalk, if_neg (by omega)]
  | succ j ih =>
    intro k n fuel hk hn hd
    simp only [span] at hn
    have h1 : n ≥ idx (xdays gp c) k := by omega
    have h2 : ¬ (k + 1 = 12) := by omega
    rw [show fuel + (j + 1) + 1 = (fuel + j + 1) + 1 from rfl, monthWalk, if_pos h1, if_neg h2]
    have := ih (k + 1) (n - idx (xdays gp c) k) fuel (by omega) (by omega)
      (by rw [show k + 1 + j = k + (j + 1) by omega]; exact hd)
    rw [this, show k + 1 + j = k + (j + 1) by omega]

theorem monthWalk_rest_of_year (gp : Bool) (c y : Nat) (j : Nat) :
    ∀ k n fuel, k + j = 11 → n ≥ span (xdays gp c) k (j + 1) →
      monthWalk gp (fuel + j + 1) c y k n =
        monthWalk gp fuel (u32 (c + 1)) (add64 y 1) 0 (n - span (xdays gp c) k (j + 1)) := by
  induction j with
  | zero =>
    intro k n fuel hk hn
    simp only [span, Nat.add_zero] at hn hk ⊢
    subst hk
    rw [monthWalk, if_pos hn, if_pos rfl]
  | succ j ih =>
    intro k n fuel hk hn
    have hs : span (xdays gp c) k (j + 1 + 1) = idx (xdays gp c) k + span (xdays gp c) (k + 1) (j + 1) := rfl
    rw [hs] at hn ⊢
    have h1 : n ≥ idx (xdays gp c) k := by omega
    have h2 : ¬ (k + 1 = 12) := by omega
    rw [show fuel + (j + 1) + 1 = (fuel + j + 1) + 1 from rfl, monthWalk, if_pos h1, if_neg h2]
    rw [ih (k + 1) (n - idx (xdays gp c) k) fuel (by omega) (by omega), Nat.sub_sub]

/-- The walk through a whole year. -/
theorem monthWalk_year (gp : Bool) (c y n fuel : Nat) (h : ylen (isLeap gp c) ≤ n) :
    monthWalk gp (fuel + 12) c y 0 n =
      monthWalk gp fuel (u32 (c + 1)) (add64 y 1) 0 (n - ylen (isLeap gp c)) := by
  have hs : span (xdays gp c) 0 12 = ylen (isLeap gp c) := by rw [xdays_eq, span_year]
  have := monthWalk_rest_of_year gp c y 11 0 n fuel rfl (by rw [hs]; exact h)
  rw [hs] at this
  exact this

/-- The walk within the year of the date: it stops at the month and day. -/
theorem monthWalk_date (gp : Bool) (c y m d fuel : Nat) (hm : m < 12)
    (hd : d < idx (mdays (isLeap gp c)) m) :
    monthWalk gp (fuel + 12) c y 0 (cumDays (isLeap gp c) m + d) = some (y, m, d) := by
  have := monthWalk_months gp c y d m 0 (cumDays (isLeap gp c) m + d) (fuel + (11 - m))
    (by omega) (by rw [xdays_eq]; rfl) (by rw [xdays_eq, Nat.zero_add]; exact hd)
  rw [Nat.zero_add] at this
  rw [← this]
  congr 1
  omega

theorem monthLoop_eq (leap : Bool) (m n : Nat) (hm : m ≤ 12) (hn : n < 2 ^ 31) :
    monthLoop (mdays leap) m n = n + cumDays leap m := by
  interval_cases m <;> cases leap <;>
    simp only [monthLoop, mdays, cumDays, span, idx, nrmdays, lyrdays, u32, if_true,
      Bool.false_eq_true, if_false, List.getD_cons_zero, List.getD_cons_succ] <;> omega

/-! ## Machine arithmetic without wrap-around -/

theorem add64_of_lt (a b : Nat) (h : a + b < 2 ^ 64) : add64 a b = a + b :=
  Nat.mod_eq_of_lt h

theorem sub64_of_le (a b : Nat) (h : b ≤ a) (ha : a < 2 ^ 64) : sub64 a b = a - b := by
  unfold sub64; omega

theorem mul64_of_lt (a b : Nat) (h : a * b < 2 ^ 64) : mul64 a b = a * b :=
  Nat.mod_eq_of_lt h

theorem u32_of_lt (a : Nat) (h : a < 2 ^ 32) : u32 a = a :=
  Nat.mod_eq_of_lt h

/-! ## Leap years -/

theorem gleapyear_iff (y : Nat) :
    gleapyear y = true ↔ (y % 4 = 0 ∧ (y % 100 ≠ 0 ∨ y % 400 = 0)) := by
  simp [gleapyear]

theorem jleapyear_iff (y : Nat) : jleapyear y = true ↔ y % 4 = 0 := by
  simp [jleapyear]

theorem gleapyear_congr (a b : Nat) (h : a % 400 = b % 400) : gleapyear a = gleapyear b := by
  rw [Bool.eq_iff_iff, gleapyear_iff, gleapyear_iff]; omega

theorem jleapyear_congr (a b : Nat) (h : a % 4 = b % 4) : jleapyear a = jleapyear b := by
  rw [Bool.eq_iff_iff, jleapyear_iff, jleapyear_iff]; omega

theorem idx_mdays_le (leap : Bool) (m : Nat) : idx (mdays leap) m ≤ 31 := by
  cases leap
  · by_cases h : m < 12
    · interval_cases m <;> decide
    · simp only [mdays, idx, nrmdays, Bool.false_eq_true, if_false]
      rw [List.getD_eq_default _ _ (by simp; omega)]; omega
  · by_cases h : m < 12
    · interval_cases m <;> decide
    · simp only [mdays, idx, lyrdays, if_true]
      rw [List.getD_eq_default _ _ (by simp; omega)]; omega

theorem cumDays_add_lt (leap : Bool) (m d : Nat) (hm : m < 12) (hd : d < idx (mdays leap) m) :
    cumDays leap m + d < ylen leap := by
  interval_cases m <;> cases leap <;>
    simp only [mdays, cumDays, span, idx, nrmdays, lyrdays, ylen, if_true,
      Bool.false_eq_true, if_false, List.getD_cons_zero, List.getD_cons_succ] at hd ⊢ <;> omega

theorem cumDays_ge (leap : Bool) (m : Nat) (hm : m < 12) : m ≤ cumDays leap m := by
  interval_cases m <;> cases leap <;> decide

/-! ## The walk from the estimated year -/

theorem monthWalk_mono (gp : Bool) (f : Nat) :
    ∀ c y k n x, monthWalk gp f c y k n = some x →
      ∀ g, f ≤ g → monthWalk gp g c y k n = some x := by
  induction f with
  | zero => intro c y k n x h; simp [monthWalk] at h
  | succ f ih =>
    intro c y k n x h g hg
    obtain ⟨g, rfl⟩ : ∃ g1, g = g1 + 1 := ⟨g - 1, by omega⟩
    rw [monthWalk] at h ⊢
    split_ifs at h ⊢ with h1 h2
    · exact ih _ _ _ _ _ h g (by omega)
    · exact ih _ _ _ _ _ h g (by omega)
    · exact h

/-- The walk when the estimated year is the year of the date. -/
theorem monthWalk_same (gp : Bool) (c y m d r : Nat) (hm : m < 12)
    (hd : d < idx (mdays (isLeap gp c)) m) (hr : r = cumDays (isLeap gp c) m + d) :
    monthWalk gp (r + 1) c y 0 r = some (y, m, d) := by
  have h := monthWalk_months gp c y d m 0 r 0 (by omega) (by rw [xdays_eq]; exact hr)
    (by rw [xdays_eq, Nat.zero_add]; exact hd)
  rw [Nat.zero_add] at h
  have := cumDays_ge (isLeap gp c) m hm
  exact monthWalk_mono gp _ _ _ _ _ _ h _ (by omega)

/-- The walk when the estimated year is one year early. -/
theorem monthWalk_next (gp : Bool) (c y m d r : Nat) (hm : m < 12) (hc : c + 1 < 2 ^ 32)
    (hd : d < idx (mdays (isLeap gp (c + 1))) m)
    (hr : r = ylen (isLeap gp c) + (cumDays (isLeap gp (c + 1)) m + d)) :
    monthWalk gp (r + 1) c y 0 r = some (add64 y 1, m, d) := by
  have h1 := monthWalk_year gp c y r (r - ylen (isLeap gp c) + 1) (by omega)
  rw [u32_of_lt _ hc, monthWalk_same gp (c + 1) (add64 y 1) m d _ hm hd (by omega)] at h1
  have : ylen (isLeap gp c) ≥ 365 := by unfold ylen; split_ifs <;> omega
  exact monthWalk_mono gp _ _ _ _ _ _ h1 _ (by omega)

/-- The walk when the estimated year is two years early. -/
theorem monthWalk_next2 (gp : Bool) (c y m d r : Nat) (hm : m < 12) (hc : c + 2 < 2 ^ 32)
    (hd : d < idx (mdays (isLeap gp (c + 1 + 1))) m)
    (hr : r = ylen (isLeap gp c) + (ylen (isLeap gp (c + 1))
      + (cumDays (isLeap gp (c + 1 + 1)) m + d))) :
    monthWalk gp (r + 1) c y 0 r = some (add64 (add64 y 1) 1, m, d) := by
  have h1 := monthWalk_year gp c y r (r - ylen (isLeap gp c) + 1) (by omega)
  rw [u32_of_lt _ (by omega),
    monthWalk_next gp (c + 1) (add64 y 1) m d _ hm (by omega) hd (by omega)] at h1
  have : ylen (isLeap gp c) ≥ 365 := by unfold ylen; split_ifs <;> omega
  exact monthWalk_mono gp _ _ _ _ _ _ h1 _ (by omega)

theorem docalout_of_walk (sep : Char) (gp : Bool) (c y r tod Y m d h mi s : Nat)
    (hw : monthWalk gp (r + 1) c y 0 r = some (Y, m, d))
    (htod : tod = 3600 * h + 60 * mi + s) (hmi : mi < 60) (hs : s < 60) :
    docalout sep gp c y r tod = some (calfmt sep Y (m + 1) (d + 1) h mi s) := by
  have e1 : tod / 3600 = h := by omega
  have e2 : tod % 3600 / 60 = mi := by omega
  have e3 : tod % 3600 % 60 = s := by omega
  simp only [docalout, hw, e1, e2, e3]

theorem calin_greg_of_readcal (date : List Char) (Y M D h mi s : Nat) (e : Bool)
    (hrc : readcal date '-' =
      .success { year := Y, month := M, day := D, hour := h, min := mi, sec := s } e)
    (hY : 1 ≤ Y) (hY2 : Y ≤ 10 ^ 11) (hM : 1 ≤ M) (hM2 : M ≤ 12)
    (hD : 1 ≤ D) (hD2 : D ≤ idx (mdays (gleapyear Y)) (M - 1))
    (hh : h < 24) (hmi : mi < 60) (hs : s < 60) :
    gregin date = .success ⟨gregSecs Y M D h mi s, 0⟩ e := by
  have hcyc : u32 (Y % 400) = Y % 400 := u32_of_lt _ (by omega)
  have hleap : gleapyear (Y % 400) = gleapyear Y :=
    gleapyear_congr _ _ (by omega)
  have hD31 := idx_mdays_le (gleapyear Y) (M - 1)
  have hcum := cumDays_add_lt (gleapyear Y) (M - 1) (D - 1) (by omega)
  have hlen : ylen (gleapyear Y) ≤ 366 := by unfold ylen; split_ifs <;> omega
  have hlow : ¬ (Y = 0) := by omega
  simp only [gregin, calin, hrc, if_true, hcyc, xdays_eq, isLeap, hleap, Bool.true_and,
    decide_eq_true_eq, hlow, if_false, Bool.false_eq_true, not_lt.2 hD2]
  rw [monthLoop_eq _ _ _ (by omega) (by unfold u32; omega)]
  have hcum1 := hcum (by omega)
  congr 2
  unfold gregSecs gdaysBefore
  generalize cumDays (gleapyear Y) (M - 1) = cd at *
  have h10 : (10 : Nat) ^ 11 = 100000000000 := by norm_num
  simp (disch := omega) only [sub64_of_le, mul64_of_lt, add64_of_lt, u32_of_lt]
  omega

theorem isLeap_true (y : Nat) : isLeap true y = gleapyear y := rfl

theorem isLeap_false (y : Nat) : isLeap false y = jleapyear y := rfl

theorem ylen_gleap_cases (y : Nat) :
    (ylen (gleapyear y) = 366 ∧ (y % 4 = 0 ∧ (y % 100 ≠ 0 ∨ y % 400 = 0)))
      ∨ (ylen (gleapyear y) = 365 ∧ ¬ (y % 4 = 0 ∧ (y % 100 ≠ 0 ∨ y % 400 = 0))) := by
  by_cases h : gleapyear y = true
  · left; exact ⟨by simp [ylen, h], (gleapyear_iff y).1 h⟩
  · right; exact ⟨by simp [ylen, h], fun h1 => h ((gleapyear_iff y).2 h1)⟩

theorem greg_resid0 (e doy r : Nat)
    (hr : r = 365 * e + e / 4 - e / 100 + e / 400 + doy + e / 100 - e / 400 - (e * 365 + e / 4)) :
    r = doy := by omega

theorem greg_resid1 (e doy r L1 : Nat)
    (h1 : (L1 = 366 ∧ ((e + 1) % 4 = 0 ∧ ((e + 1) % 100 ≠ 0 ∨ (e + 1) % 400 = 0)))
      ∨ (L1 = 365 ∧ ¬ ((e + 1) % 4 = 0 ∧ ((e + 1) % 100 ≠ 0 ∨ (e + 1) % 400 = 0))))
    (hr : r = 365 * (e + 1) + (e + 1) / 4 - (e + 1) / 100 + (e + 1) / 400 + doy + e / 100
      - e / 400 - (e * 365 + e / 4)) :
    r = L1 + doy := by omega

theorem greg_resid2 (e doy r L1 L2 : Nat)
    (h1 : (L1 = 366 ∧ ((e + 1) % 4 = 0 ∧ ((e + 1) % 100 ≠ 0 ∨ (e + 1) % 400 = 0)))
      ∨ (L1 = 365 ∧ ¬ ((e + 1) % 4 = 0 ∧ ((e + 1) % 100 ≠ 0 ∨ (e + 1) % 400 = 0))))
    (h2 : (L2 = 366 ∧ ((e + 2) % 4 = 0 ∧ ((e + 2) % 100 ≠ 0 ∨ (e + 2) % 400 = 0)))
      ∨ (L2 = 365 ∧ ¬ ((e + 2) % 4 = 0 ∧ ((e + 2) % 100 ≠ 0 ∨ (e + 2) % 400 = 0))))
    (hr : r = 365 * (e + 2) + (e + 2) / 4 - (e + 2) / 100 + (e + 2) / 400 + doy + e / 100
      - e / 400 - (e * 365 + e / 4)) :
    r = L1 + (L2 + doy) := by omega

theorem greg_shift (Y t doy : Nat) (hY : 1 ≤ Y)
    (ht : t = 365 * (Y - 1) + (Y - 1) / 4 - (Y - 1) / 100 + (Y - 1) / 400 + 2 + doy) :
    t + 146095 = 365 * (Y + 399) + (Y + 399) / 4 - (Y + 399) / 100 + (Y + 399) / 400 + doy := by
  omega

theorem greg_bounds (Y t doy e : Nat) (hY : 1 ≤ Y) (hY2 : Y ≤ 100000000000) (hdoy : doy ≤ 365)
    (ht : t = 365 * (Y - 1) + (Y - 1) / 4 - (Y - 1) / 100 + (Y - 1) / 400 + 2 + doy)
    (he : e = ((t + 146095) / 146097) * 400 + ((t + 146095) % 146097) / 366) :
    t < 2 ^ 50 ∧ 399 ≤ e := by
  omega

/-- The year estimate of `calout` for the Gregorian calendar is at most two short. -/
theorem greg_estimate (z doy D e : Nat)
    (hD : D = 365 * z + z / 4 - z / 100 + z / 400 + doy) (hdoy : doy ≤ 365)
    (hdoy2 : doy = 365 → ((z + 1) % 4 = 0 ∧ ((z + 1) % 100 ≠ 0 ∨ (z + 1) % 400 = 0)))
    (he : e = (D / 146097) * 400 + (D % 146097) / 366) : e ≤ z ∧ z ≤ e + 2 := by
  omega

theorem three_cases (a b : Nat) (h : b ≤ a ∧ a ≤ b + 2) : a = b ∨ a = b + 1 ∨ a = b + 2 := by
  omega

theorem greg_walk_bound (e D z doy : Nat)
    (hD : D = 365 * z + z / 4 - z / 100 + z / 400 + doy) (hest : e ≤ z ∧ z ≤ e + 2)
    (hdoy : doy ≤ 365) :
    D + e / 100 - e / 400 - (e * 365 + e / 4) < 2 ^ 32
      ∧ e * 365 + e / 4 ≤ D + e / 100 - e / 400 := by
  rcases three_cases _ _ hest with h | h | h <;> subst h <;> omega

/-- The month walk of `calout` from the estimated year reaches the date. -/
theorem greg_walk (Y M D e r doy : Nat) (hY : 1 ≤ Y) (he399 : 399 ≤ e) (hebig : e < 2 ^ 50)
    (hm : M - 1 < 12) (hdm : D - 1 < idx (mdays (gleapyear Y)) (M - 1))
    (hdoydef : cumDays (gleapyear Y) (M - 1) + (D - 1) = doy)
    (hcase : Y + 399 = e ∨ Y + 399 = e + 1 ∨ Y + 399 = e + 2)
    (hr : r = 365 * (Y + 399) + (Y + 399) / 4 - (Y + 399) / 100 + (Y + 399) / 400 + doy
      + e / 100 - e / 400 - (e * 365 + e / 4)) :
    monthWalk true (r + 1) ((e - 399) % 400) (e - 399) 0 r = some (Y, M - 1, D - 1) := by
  have hc32 : (e - 399) % 400 + 2 < 2 ^ 32 := by clear hr; omega
  rcases hcase with hc | hc | hc
  · rw [hc] at hr
    have hr0 := greg_resid0 e doy r hr
    clear hr
    have hl : isLeap true ((e - 399) % 400) = gleapyear Y := by
      rw [isLeap_true]; exact gleapyear_congr _ _ (by omega)
    have hyear : e - 399 = Y := by omega
    rw [hyear] at hl ⊢
    exact monthWalk_same true _ Y (M - 1) (D - 1) r hm (by rw [hl]; exact hdm)
      (by rw [hl, hdoydef]; exact hr0)
  · rw [hc] at hr
    have hr1 := greg_resid1 e doy r _ (ylen_gleap_cases (e + 1)) hr
    clear hr
    have hl : isLeap true ((e - 399) % 400 + 1) = gleapyear Y := by
      rw [isLeap_true]; exact gleapyear_congr _ _ (by omega)
    have hl1 : isLeap true ((e - 399) % 400) = gleapyear (e + 1) := by
      rw [isLeap_true]; exact gleapyear_congr _ _ (by omega)
    have hyear : add64 (e - 399) 1 = Y := by rw [add64_of_lt (e - 399) 1 (by omega)]; omega
    have := monthWalk_next true ((e - 399) % 400) (e - 399) (M - 1) (D - 1) r hm
      (by omega) (by rw [hl]; exact hdm) (by rw [hl, hl1, hdoydef]; exact hr1)
    rw [hyear] at this
    exact this
  · rw [hc] at hr
    have hr2 := greg_resid2 e doy r _ _ (ylen_gleap_cases (e + 1)) (ylen_gleap_cases (e + 2)) hr
    clear hr
    have hl : isLeap true ((e - 399) % 400 + 1 + 1) = gleapyear Y := by
      rw [isLeap_true]; exact gleapyear_congr _ _ (by omega)
    have hl1 : isLeap true ((e - 399) % 400 + 1) = gleapyear (e + 2) := by
      rw [isLeap_true]; exact gleapyear_congr _ _ (by omega)
    have hl2 : isLeap true ((e - 399) % 400) = gleapyear (e + 1) := by
      rw [isLeap_true]; exact gleapyear_congr _ _ (by omega)
    have hyear : add64 (add64 (e - 399) 1) 1 = Y := by
      rw [add64_of_lt (e - 399) 1 (by omega), add64_of_lt (e - 399 + 1) 1 (by omega)]; omega
    have := monthWalk_next2 true ((e - 399) % 400) (e - 399) (M - 1) (D - 1) r hm
      hc32 (by rw [hl]; exact hdm) (by rw [hl, hl1, hl2, hdoydef]; exact hr2)
    rw [hyear] at this
    exact this

theorem gregout_gregSecs (Y M D h mi s : Nat) (hY : 1 ≤ Y) (hY2 : Y ≤ 10 ^ 11)
    (hM : 1 ≤ M) (hM2 : M ≤ 12) (hD : 1 ≤ D) (hD2 : D ≤ idx (mdays (gleapyear Y)) (M - 1))
    (hh : h < 24) (hmi : mi < 60) (hs : s < 60) :
    gregout ⟨gregSecs Y M D h mi s, 0⟩ = some (calfmt '-' Y M D h mi s) := by
  have h10 : (10 : Nat) ^ 11 = 100000000000 := by norm_num
  have hm11 : M - 1 < 12 := by omega
  have hdm : D - 1 < idx (mdays (gleapyear Y)) (M - 1) := by omega
  have hdoy := cumDays_add_lt (gleapyear Y) (M - 1) (D - 1) hm11 hdm
  have hL := ylen_gleap_cases Y
  have hfmt : calfmt '-' Y M D h mi s = calfmt '-' Y (M - 1 + 1) (D - 1 + 1) h mi s := by
    rw [Nat.sub_add_cancel hM, Nat.sub_add_cancel hD]
  rw [hfmt]
  unfold gregSecs gdaysBefore at *
  generalize hdoydef : cumDays (gleapyear Y) (M - 1) + (D - 1) = doy at *
  have hd365 : doy ≤ 365 := by omega
  have hd366 : doy = 365 →
      ((Y + 399 + 1) % 4 = 0 ∧ ((Y + 399 + 1) % 100 ≠ 0 ∨ (Y + 399 + 1) % 400 = 0)) := by omega
  have hY3 : Y ≤ 100000000000 := by omega
  clear hL hdoy hD2 hM2 hM hD h10 hY2
  obtain ⟨tod, htod⟩ : ∃ tod, tod = 3600 * h + 60 * mi + s := ⟨_, rfl⟩
  rw [← htod]
  have htod2 : tod < 86400 := by omega
  obtain ⟨t, ht⟩ : ∃ t, t = 365 * (Y - 1) + (Y - 1) / 4 - (Y - 1) / 100 + (Y - 1) / 400 + 2 + doy :=
    ⟨_, rfl⟩
  rw [← ht]
  obtain ⟨e, he⟩ : ∃ e, e = ((t + 146095) / 146097) * 400 + ((t + 146095) % 146097) / 366 :=
    ⟨_, rfl⟩
  have hN := greg_shift Y t doy hY ht
  have hest := greg_estimate (Y + 399) doy (t + 146095) e hN hd365 hd366 he
  obtain ⟨hbig, he399⟩ := greg_bounds Y t doy e hY hY3 hd365 ht he
  have hcase := three_cases _ _ hest
  have hebig : e < 2 ^ 50 := by
    have := hest.1
    clear hN ht he hbig htod hest hcase
    omega
  obtain ⟨hr, hle⟩ := greg_walk_bound e (t + 146095) (Y + 399) doy hN hest hd365
  have hwalk := greg_walk Y M D e (t + 146095 + e / 100 - e / 400 - (e * 365 + e / 4)) doy hY
    he399 hebig hm11 hdm hdoydef hcase (by rw [hN])
  clear ht hN hest hd366
  have e1 : (86400 * t + tod) / 86400 = t := by omega
  have e2 : (86400 * t + tod) % 86400 = tod := by omega
  unfold gregout calout
  simp only [if_true, e1, e2]
  clear e1 e2
  simp (disch := omega) only [u32_of_lt, add64_of_lt, mul64_of_lt]
  rw [← he]
  clear he
  simp (disch := omega) only [u32_of_lt, add64_of_lt, mul64_of_lt, sub64_of_le]
  exact docalout_of_walk '-' true ((e - 399) % 400) (e - 399)
    (t + 146095 + e / 100 - e / 400 - (e * 365 + e / 4)) tod Y (M - 1) (D - 1) h mi s
    hwalk htod hmi hs

theorem fmtlu_digits1 (w n : Nat) (h : n < 2 ^ 64) : Digits1 (fmtlu w n) :=
  ⟨(fmtlu_spec w n h).1, (fmtlu_spec w n h).2.2⟩

theorem fmtlu_decVal (w n : Nat) (h : n < 2 ^ 64) : decVal (fmtlu w n) = n :=
  (fmtlu_spec w n h).2.1

/-- The text that `docalout` prints is read back by `readcal` field by field. -/
theorem readcal_calfmt (sep : Char) (Y M D h mi s : Nat) (hsep : isdigit sep = false)
    (hY : Y < 2 ^ 64) (hM : 1 ≤ M ∧ M ≤ 12) (hD : 1 ≤ D ∧ D ≤ 31) (hh : h < 24)
    (hmi : mi < 60) (hs : s < 60) :
    readcal (calfmt sep Y M D h mi s) sep =
      .success { year := Y, month := M, day := D, hour := h, min := mi, sec := s } false := by
  have hy := uint64str_spec Y 4 hY
  have e : calfmt sep Y M D h mi s = calToken sep (uint64str Y 10 4) (fmtlu 2 M) (fmtlu 2 D)
      (some (fmtlu 2 h, fmtlu 2 mi, some (fmtlu 2 s))) := rfl
  rw [e, readcal_token sep (uint64str Y 10 4) (fmtlu 2 M) (fmtlu 2 D)
    (some (fmtlu 2 h, fmtlu 2 mi, some (fmtlu 2 s))) hsep ⟨hy.1, hy.2.2.1 (by norm_num)⟩
    (fmtlu_digits1 2 M (by omega)) (fmtlu_digits1 2 D (by omega))
    (show Digits1 _ ∧ Digits1 _ ∧ Digits1 _ from
      ⟨fmtlu_digits1 2 h (by omega), fmtlu_digits1 2 mi (by omega), fmtlu_digits1 2 s (by omega)⟩)]
  simp only [timeVals, fmtlu_decVal 2 M (by omega), fmtlu_decVal 2 D (by omega),
    fmtlu_decVal 2 h (by omega), fmtlu_decVal 2 mi (by omega), fmtlu_decVal 2 s (by omega), hy.2.1]
  have hoff : firstOffending M D h mi s = none := by
    unfold firstOffending
    rw [if_neg (by omega), if_neg (by omega), if_neg (by omega), if_neg (by omega),
      if_neg (by omega)]
  rw [hoff]
  simp only [min_eq_left (show Y ≤ 2 ^ 64 - 1 by omega)]
  congr 1
  simp only [decide_eq_false_iff_not]
  omega

/-- C1. Gregorian decode-then-encode round trip: for every Gregorian date-time with year
1..10^11, month 1..12, day from 1 to the length of the month under the Gregorian leap rule,
hour 0..23, minute 0..59 and second 0..59, `gregin` accepts the canonical text
`YYYY-MM-DDThh:mm:ss` and `gregout` of the decoded time is that same text. -/
theorem gregorian_round_trip (Y M D h mi s : Nat) (hY : 1 ≤ Y ∧ Y ≤ 10 ^ 11)
    (hM : 1 ≤ M ∧ M ≤ 12) (hD : 1 ≤ D ∧ D ≤ idx (xdays true Y) (M - 1)) (hh : h ≤ 23)
    (hmi : mi ≤ 59) (hs : s ≤ 59) :
    ∃ dt, gregin (calfmt '-' Y M D h mi s) = .success dt false
      ∧ gregout dt = some (calfmt '-' Y M D h mi s) := by
  have h10 : (10 : Nat) ^ 11 = 100000000000 := by norm_num
  rw [xdays_eq, isLeap_true] at hD
  have hD31 := idx_mdays_le (gleapyear Y) (M - 1)
  have hrc := readcal_calfmt '-' Y M D h mi s (by decide) (by omega) hM ⟨hD.1, by omega⟩
    (by omega) (by omega) (by omega)
  refine ⟨⟨gregSecs Y M D h mi s, 0⟩, ?_, ?_⟩
  · exact calin_greg_of_readcal _ Y M D h mi s false hrc hY.1 hY.2 hM.1 hM.2 hD.1 hD.2 (by omega) (by omega)
      (by omega)
  · exact gregout_gregSecs Y M D h mi s hY.1 hY.2 hM.1 hM.2 hD.1 hD.2 (by omega) (by omega)
      (by omega)

theorem gregorian_round_trip_witness :
    calfmt '-' 2023 6 15 12 30 45 = "2023-06-15T12:30:45".toList
      ∧ ∃ dt, gregin (calfmt '-' 2023 6 15 12 30 45) = .success dt false
        ∧ gregout dt = some (calfmt '-' 2023 6 15 12 30 45) :=
  ⟨by decide, gregorian_round_trip 2023 6 15 12 30 45 (by decide) (by decide) (by decide)
    (by decide) (by decide) (by decide)⟩

/-! ## Calendar field validation -/

/-- C4. Cross-format consistency at the Unix epoch: `unixin` succeeds on `U0`, and the decoded
time is printed as `1970-01-01T00:00:00` by `gregout` and as `1969=12=19T00:00:00` by
`julout`. -/
theorem unix_epoch_cross_format :
    ∃ dt, unixin "U0".toList = .success dt false
      ∧ gregout dt = some "1970-01-01T00:00:00".toList
      ∧ julout dt = some "1969=12=19T00:00:00".toList :=
  ⟨⟨unixepoch, 0⟩, by decide, by decide, by decide⟩

/-- C9 (as amended). Calendar field range validation: on every token digits sep digits sep
digits with an optional time of day `T` digits `:` digits and optional `:` digits, `readcal`
returns 2 naming the first field out of range in the order month, day, hour, minute, second
(month 0 or above 12, day 0 or above 31, hour above 23, minute above 59, second above 59),
and returns 1 exactly when no field is out of range, with the month, day, hour, minute and
second read; the year stored is the year read when that is below 2^64, with `errno` clear,
and is 2^64-1 with `errno` set when the year read is 2^64 or more. -/
theorem readcal_field_ranges (sep : Char) (ys ms ds : List Char)
    (t : Option (List Char × List Char × Option (List Char)))
    (hsep : sep = '-' ∨ sep = '=' ∨ sep = '*') (hy : Digits1 ys) (hm : Digits1 ms)
    (hd0 : Digits1 ds) (ht : TimeDigits t) :
    (∀ f, firstOffending (decVal ms) (decVal ds) (timeVals t).1 (timeVals t).2.1
        (timeVals t).2.2 = some f →
      readcal (calToken sep ys ms ds t) sep = .outOfRange f
        ∧ (readcal (calToken sep ys ms ds t) sep).code = 2)
    ∧ (firstOffending (decVal ms) (decVal ds) (timeVals t).1 (timeVals t).2.1
        (timeVals t).2.2 = none →
      readcal (calToken sep ys ms ds t) sep = .success
          { year := min (decVal ys) (2 ^ 64 - 1), month := decVal ms, day := decVal ds,
            hour := (timeVals t).1, min := (timeVals t).2.1, sec := (timeVals t).2.2 }
          (decide (2 ^ 64 ≤ decVal ys))
        ∧ (readcal (calToken sep ys ms ds t) sep).code = 1)
    ∧ (firstOffending (decVal ms) (decVal ds) (timeVals t).1 (timeVals t).2.1
        (timeVals t).2.2 = none → decVal ys < 2 ^ 64 →
      readcal (calToken sep ys ms ds t) sep = .success
          { year := decVal ys, month := decVal ms, day := decVal ds,
            hour := (timeVals t).1, min := (timeVals t).2.1, sec := (timeVals t).2.2 } false)
    ∧ ((readcal (calToken sep ys ms ds t) sep).code = 1 ↔
        firstOffending (decVal ms) (decVal ds) (timeVals t).1 (timeVals t).2.1
          (timeVals t).2.2 = none) := by
  have hs : isdigit sep = false := by
    rcases hsep with h | h | h <;> subst h <;> decide
  have h := readcal_token sep ys ms ds t hs hy hm hd0 ht
  refine ⟨?_, ?_, ?_, ?_⟩
  · intro f hf
    rw [hf] at h
    exact ⟨h, by rw [h]; rfl⟩
  · intro hf
    rw [hf] at h
    exact ⟨h, by rw [h]; rfl⟩
  · intro hf hlt
    rw [hf, min_eq_left (by omega), decide_eq_false (by omega)] at h
    exact h
  · cases hf : firstOffending (decVal ms) (decVal ds) (timeVals t).1 (timeVals t).2.1
        (timeVals t).2.2 with
    | none =>
      rw [hf] at h
      have h2 : readcal (calToken sep ys ms ds t) sep = .success
          { year := min (decVal ys) (2 ^ 64 - 1), month := decVal ms, day := decVal ds,
            hour := (timeVals t).1, min := (timeVals t).2.1, sec := (timeVals t).2.2 }
          (decide (2 ^ 64 ≤ decVal ys)) := h
      rw [h2]
      exact ⟨fun _ => rfl, fun _ => rfl⟩
    | some f =>
      rw [hf] at h
      have h2 : readcal (calToken sep ys ms ds t) sep = .outOfRange f := h
      rw [h2]
      exact ⟨fun hc => absurd (show (2 : Nat) = 1 from hc) (by decide),
        fun hc => Option.noConfusion hc⟩

theorem readcal_field_ranges_witness :
    calToken '-' "2023".toList "13".toList "01".toList none = "2023-13-01".toList
      ∧ (readcal (calToken '-' "2023".toList "13".toList "01".toList none) '-'
          = .outOfRange .month
        ∧ (readcal (calToken '-' "2023".toList "13".toList "01".toList none) '-').code = 2)
      ∧ calToken '-' "2023".toList "06".toList "15".toList none = "2023-06-15".toList
      ∧ readcal (calToken '-' "2023".toList "06".toList "15".toList none) '-' = .success
          { year := decVal "2023".toList, month := decVal "06".toList,
            day := decVal "15".toList, hour := (timeVals none).1, min := (timeVals none).2.1,
            sec := (timeVals none).2.2 } false :=
  ⟨by decide,
    (readcal_field_ranges '-' "2023".toList "13".toList "01".toList none (Or.inl rfl)
      ⟨by unfold Digits; decide, by decide⟩ ⟨by unfold Digits; decide, by decide⟩
      ⟨by unfold Digits; decide, by decide⟩ trivial).1 Diag.month (by decide),
    by decide,
    (readcal_field_ranges '-' "2023".toList "06".toList "15".toList none (Or.inl rfl)
      ⟨by unfold Digits; decide, by decide⟩ ⟨by unfold Digits; decide, by decide⟩
      ⟨by unfold Digits; decide, by decide⟩ trivial).2.2.1 (by decide) (by decide)⟩

/-- C9, counterexample to the claim as stated: in `18446744073709551616-06-15` no field is
out of range and the year read is 2^64, but `readcal` returns 1 with the year 2^64-1 and
`errno` set, not with the fields read. -/
theorem readcal_field_ranges_counterexample :
    calToken '-' "18446744073709551616".toList "06".toList "15".toList none
        = "18446744073709551616-06-15".toList
      ∧ firstOffending (decVal "06".toList) (decVal "15".toList) (timeVals none).1
          (timeVals none).2.1 (timeVals none).2.2 = none
      ∧ decVal "18446744073709551616".toList = 2 ^ 64
      ∧ readcal "18446744073709551616-06-15".toList '-' = .success
          { year := 2 ^ 64 - 1, month := 6, day := 15, hour := 0, min := 0, sec := 0 } true
      ∧ ∀ e, readcal "18446744073709551616-06-15".toList '-' ≠ .success
          { year := decVal "18446744073709551616".toList, month := decVal "06".toList,
            day := decVal "15".toList, hour := (timeVals none).1, min := (timeVals none).2.1,
            sec := (timeVals none).2.2 } e :=
  ⟨by decide, by decide, by decide, by decide, by intro e; cases e <;> decide⟩

theorem leapRule_eq (gp : Bool) (y : Nat) : leapRule gp y = isLeap gp y := by
  cases gp
  · rw [Bool.eq_iff_iff, isLeap_false, jleapyear_iff]; simp [leapRule]
  · rw [Bool.eq_iff_iff, isLeap_true, gleapyear_iff]; simp [leapRule]

theorem isLeap_mod (gp : Bool) (y : Nat) : isLeap gp (u32 (y % 400)) = isLeap gp y := by
  rw [u32_of_lt _ (by omega)]
  cases gp
  · rw [isLeap_false, isLeap_false]; exact jleapyear_congr _ _ (by omega)
  · rw [isLeap_true, isLeap_true]; exact gleapyear_congr _ _ (by omega)

/-- The day check of `calin` after a successful `readcal`. -/
theorem calin_day_check (date : List Char) (gp : Bool) (Y M D h mi s : Nat) (e : Bool)
    (hrc : readcal date (calSep gp) =
      .success { year := Y, month := M, day := D, hour := h, min := mi, sec := s } e) :
    (D > idx (mdays (leapRule gp Y)) (M - 1) → calin date gp = .outOfRange .day)
      ∧ (D ≤ idx (mdays (leapRule gp Y)) (M - 1) → ∃ dt, calin date gp = .success dt e) := by
  unfold calSep at hrc
  rw [leapRule_eq]
  constructor
  · intro hgt
    simp only [calin, hrc, xdays_eq, isLeap_mod, hgt, if_true]
  · intro hle
    simp only [calin, hrc, xdays_eq, isLeap_mod, not_lt.2 hle, if_false]
    exact ⟨_, rfl⟩

/-- C8 (as amended). Leap-year validation of the day field: on a calendar token whose year is
below 2^64, whose month is 1..12, whose day is at least 1 and whose time of day is in range,
`calin` returns 2 naming the day exactly when the day exceeds the length of the month in a
year that is leap by the rule of the calendar (Gregorian: divisible by 4 and not by 100, or by
400; Julian: divisible by 4), and returns 1 otherwise; so `Y-02-29` is accepted iff `Y` is a
Gregorian leap year and `Y=02=29` iff `Y` is divisible by 4. -/
theorem leap_day_validation (gp : Bool) (ys ms ds : List Char)
    (t : Option (List Char × List Char × Option (List Char)))
    (hy : Digits1 ys) (hm : Digits1 ms) (hd0 : Digits1 ds) (ht : TimeDigits t)
    (hY : decVal ys < 2 ^ 64) (hM : 1 ≤ decVal ms ∧ decVal ms ≤ 12) (hD : 1 ≤ decVal ds)
    (hT : (timeVals t).1 ≤ 23 ∧ (timeVals t).2.1 ≤ 59 ∧ (timeVals t).2.2 ≤ 59) :
    (decVal ds > idx (mdays (leapRule gp (decVal ys))) (decVal ms - 1) →
        calin (calToken (calSep gp) ys ms ds t) gp = .outOfRange .day)
      ∧ (decVal ds ≤ idx (mdays (leapRule gp (decVal ys))) (decVal ms - 1) →
        (calin (calToken (calSep gp) ys ms ds t) gp).code = 1)
      ∧ (decVal ms = 2 → decVal ds = 29 →
        ((calin (calToken (calSep gp) ys ms ds t) gp).code = 1
          ↔ leapRule gp (decVal ys) = true)) := by
  have hs : isdigit (calSep gp) = false := by cases gp <;> decide
  have hlen := idx_mdays_le (leapRule gp (decVal ys)) (decVal ms - 1)
  have hchk := calin_day_check (calToken (calSep gp) ys ms ds t) gp
    (min (decVal ys) (2 ^ 64 - 1)) (decVal ms) (decVal ds) (timeVals t).1 (timeVals t).2.1
    (timeVals t).2.2 (decide (2 ^ 64 ≤ decVal ys))
  rw [min_eq_left (by omega)] at hchk
  have hgt : decVal ds > idx (mdays (leapRule gp (decVal ys))) (decVal ms - 1) →
      calin (calToken (calSep gp) ys ms ds t) gp = .outOfRange .day := by
    intro hgt
    by_cases h31 : decVal ds > 31
    · have hoff : firstOffending (decVal ms) (decVal ds) (timeVals t).1 (timeVals t).2.1
          (timeVals t).2.2 = some .day := by
        unfold firstOffending
        rw [if_neg (by omega), if_pos (Or.inr h31)]
      have hrc := readcal_token (calSep gp) ys ms ds t hs hy hm hd0 ht
      rw [hoff] at hrc
      have hsepeq : (if gp = true then '-' else '=') = calSep gp := rfl
      simp only [calin, hsepeq, hrc]
    · have hoff : firstOffending (decVal ms) (decVal ds) (timeVals t).1 (timeVals t).2.1
          (timeVals t).2.2 = none := by
        unfold firstOffending
        rw [if_neg (by omega), if_neg (by omega), if_neg (by omega), if_neg (by omega),
          if_neg (by omega)]
      have hrc := readcal_token (calSep gp) ys ms ds t hs hy hm hd0 ht
      rw [hoff, min_eq_left (by omega)] at hrc
      exact (hchk hrc).1 hgt
  have hle : decVal ds ≤ idx (mdays (leapRule gp (decVal ys))) (decVal ms - 1) →
      (calin (calToken (calSep gp) ys ms ds t) gp).code = 1 := by
    intro hle
    have hoff : firstOffending (decVal ms) (decVal ds) (timeVals t).1 (timeVals t).2.1
        (timeVals t).2.2 = none := by
      unfold firstOffending
      rw [if_neg (by omega), if_neg (by omega), if_neg (by omega), if_neg (by omega),
        if_neg (by omega)]
    have hrc := readcal_token (calSep gp) ys ms ds t hs hy hm hd0 ht
    rw [hoff, min_eq_left (by omega)] at hrc
    obtain ⟨dt, hdt⟩ := (hchk hrc).2 hle
    rw [hdt]; rfl
  refine ⟨hgt, hle, ?_⟩
  intro hm2 hd29
  rw [hm2, hd29] at hgt hle
  cases hl : leapRule gp (decVal ys)
  · rw [hl] at hgt
    have := hgt (by decide)
    rw [this]
    simp [Outcome.code]
  · rw [hl] at hle
    have := hle (by decide)
    simp [this]

theorem leap_day_validation_witness :
    calToken (calSep true) "2000".toList "02".toList "29".toList none = "2000-02-29".toList
      ∧ ((gregin "2000-02-29".toList).code = 1 ↔ leapRule true 2000 = true)
      ∧ leapRule true 2000 = true
      ∧ gregin "1900-02-29".toList = .outOfRange .day
      ∧ (julin "1900=02=29".toList).code = 1 :=
  ⟨by decide,
    (leap_day_validation true "2000".toList "02".toList "29".toList none
      ⟨by unfold Digits; decide, by decide⟩ ⟨by unfold Digits; decide, by decide⟩
      ⟨by unfold Digits; decide, by decide⟩ trivial (by decide) (by decide) (by decide)
      (by decide)).2.2 (by decide) (by decide),
    by decide, by decide, by decide⟩

/-- C8, counterexample to the claim as stated: the year 2^64 is a leap year by both rules, but
`18446744073709551616-02-29` and `18446744073709551616=02=29` are refused with the day
named, the year being read as 2^64-1; and day 0, which exceeds no month length, is refused
with the day named as well. -/
theorem leap_day_validation_counterexample :
    leapRule true (2 ^ 64) = true
      ∧ gregin "18446744073709551616-02-29".toList = .outOfRange .day
      ∧ leapRule false (2 ^ 64) = true
      ∧ julin "18446744073709551616=02=29".toList = .outOfRange .day
      ∧ ¬ (0 > idx (mdays (leapRule true 2023)) (1 - 1))
      ∧ gregin "2023-01-00".toList = .outOfRange .day :=
  ⟨by decide, by decide, by decide, by decide, by decide, by decide⟩

/-! ## Stardate tokens -/

theorem fillFrac_snd_digits (buf f : List Char) (hf : Digits f) :
    Digits (fillFrac buf f).2 := by
  induction buf generalizing f with
  | nil => exact hf
  | cons b bs ih =>
    cases f with
    | nil => simp only [fillFrac, hd_nil]; exact hf
    | cons c cs =>
      have hc : isdigit c = true := hf c (List.mem_cons_self _ _)
      simp only [fillFrac, hd_cons, hc, if_true, tl_cons]
      exact ih cs (fun x hx => hf x (List.mem_cons_of_mem _ hx))

theorem dropWhile_all_digits (f : List Char) (hf : Digits f) : f.dropWhile isdigit = [] := by
  have := dropWhile_digits f [] hf (by decide)
  rwa [List.append_nil] at this

/-- What `sdin` returns on any stardate token, by the values of its fields. -/
theorem sdin_token (g : List Char) (neg : Bool) (is ns : List Char) (fs : Option (List Char))
    (hi : Digits1 is) (hn : Digits1 ns) (hf : ∀ f, fs = some f → Digits f) :
    sdin g (sdToken neg is ns fs) =
      if (decide (2 ^ 64 ≤ decVal is) || decide (2 ^ 64 ≤ decVal ns)) = true
          ∨ u32 (min (decVal ns) (2 ^ 64 - 1)) > 99999
          ∨ ((!neg) = true ∧ min (decVal is) (2 ^ 64 - 1) = 20
            ∧ u32 (min (decVal ns) (2 ^ 64 - 1)) > 5005)
          ∨ ((neg = true ∨ min (decVal is) (2 ^ 64 - 1) < 20)
            ∧ u32 (min (decVal ns) (2 ^ 64 - 1)) > 9999)
      then .outOfRange .integerPart
      else .success (sdinTime neg (min (decVal is) (2 ^ 64 - 1))
        (u32 (min (decVal ns) (2 ^ 64 - 1))) (u32 (strtoul (fracDigits g fs) 10).1))
        (decide (2 ^ 64 ≤ decVal is)) := by
  have hbr : isdigit ']' = false := by decide
  have hdot : isdigit '.' = false := by decide
  have hnil : isdigit (hd []) = false := by decide
  have hb1 : ¬ ('[' ≠ '[') := by decide
  have hdotn : ¬ ('.' = Char.ofNat 0) := by decide
  have hndot : ¬ (Char.ofNat 0 = '.') := by decide
  have hminus : isdigit '-' = false := by decide
  have hpre : ∀ R1 : List Char, hd R1 ≠ '-' →
      sdin g ('[' :: ((if neg then ['-'] else []) ++ R1)) = sdinFields g neg R1 := by
    intro R1 e5
    cases neg
    · simp only [List.nil_append, Bool.false_eq_true, if_false]
      simp only [sdin, hd_cons, tl_cons, hb1, if_false, e5, decide_False, Bool.false_eq_true]
    · simp only [List.singleton_append, if_true]
      simp only [sdin, hd_cons, tl_cons, hb1, if_false, decide_True, if_true]
  cases fs with
  | none =>
    have e1 := hd_digits_append is (']' :: ns) hi
    have e2 := strtoull_digits is (']' :: ns) hi.1 hi.2 hbr
    have e3 := hd_digits_append ns [] hn
    have e4 := strtoul_digits ns [] hn hnil
    have e5 := hd_digits_ne is (']' :: ns) hi '-' hminus
    simp only [List.append_nil] at e3 e4
    simp only [sdToken, List.append_nil]
    rw [hpre _ e5]
    generalize is ++ ']' :: ns = R1 at *
    unfold sdinFields
    simp only [hd_cons, tl_cons, if_false, e1, e2, e3, e4, hd_nil, ne_eq,
      not_true_eq_false, Bool.not_true, Bool.false_eq_true, false_or,
      not_false_eq_true, hndot, fracDigits, if_true, Bool.decide_eq_true]
  | some f =>
    have hfd := hf f rfl
    have e1 := hd_digits_append is (']' :: (ns ++ '.' :: f)) hi
    have e2 := strtoull_digits is (']' :: (ns ++ '.' :: f)) hi.1 hi.2 hbr
    have e3 := hd_digits_append ns ('.' :: f) hn
    have e4 := strtoul_digits ns ('.' :: f) hn hdot
    have e5 := hd_digits_ne is (']' :: (ns ++ '.' :: f)) hi '-' hminus
    have e6 := dropWhile_all_digits _ (fillFrac_snd_digits "000000".toList f hfd)
    simp only [sdToken]
    rw [hpre _ e5]
    generalize is ++ ']' :: (ns ++ '.' :: f) = R1 at *
    unfold sdinFields
    simp only [hd_cons, tl_cons, if_false, e1, e2, e3, e4, e6, hd_nil, ne_eq,
      not_true_eq_false, Bool.not_true, Bool.false_eq_true, false_or,
      not_false_eq_true, fracDigits, if_true, Bool.decide_eq_true]

/-! ## Stardate arithmetic: decoding -/

theorem shl32 (a : Nat) : a <<< 32 = a * 2 ^ 32 := Nat.shiftLeft_eq a 32

theorem shr32 (a : Nat) : a >>> 32 = a / 2 ^ 32 := Nat.shiftRight_eq_div_pow a 32

theorem shl_or (a b : Nat) (hb : b < 2 ^ 32) : a <<< 32 ||| b = a * 2 ^ 32 + b := by
  rw [Nat.shiftLeft_eq, Nat.mul_comm, ← Nat.mul_add_lt_is_or hb]

/-- The fraction of a second that `sdin` adds for `frac` millionths of an early unit:
`54 * frac / 3125` seconds in units of `2^-32` s, rounded up. -/
theorem sdin_frac_bound (frac : Nat) (h : frac ≤ 999999) :
    (frac * 2 ^ 32 * 54 + 3124) / 3125 / 2 ^ 32 ≤ 17279 := by
  omega

theorem sdinTime_tng (n I F : Nat) (hn : 21 ≤ n) (hI : I ≤ 99999) (hF : F ≤ 999999)
    (hn2 : tngepoch + (n - 21) * 3155695200 + (I * 1000000 + F) * 3944619 / 125000000 < 2 ^ 64) :
    sdinTime false n I F =
      ⟨tngepoch + (n - 21) * 3155695200 + (I * 1000000 + F) * 3944619 / 125000000,
        ((I * 1000000 + F) * 3944619 % 125000000 * 2 ^ 32 + 124999999) / 125000000⟩ := by
  have hc : ¬ ((false : Bool) = true ∨ n ≤ 20) := by simp; omega
  unfold sdinTime
  rw [if_neg hc]
  simp only [shl32, tngepoch] at hn2 ⊢
  norm_num only at hn2 ⊢
  simp (disch := omega) only [sub64_of_le, mul64_of_lt, add64_of_lt, u32_of_lt, Nat.mod_eq_of_lt]

theorem tng_issue_bound (n I F : Nat) (hn2 : n ≤ 10 ^ 9) (hI : I ≤ 99999) (hF : F ≤ 999999) :
    tngepoch + (n - 21) * 3155695200 + (I * 1000000 + F) * 3944619 / 125000000 < 2 ^ 64 := by
  have h9 : (10 : Nat) ^ 9 = 1000000000 := by norm_num
  simp only [tngepoch]
  omega

theorem sdinFiddle_eq (J F : Nat) (hJ : 7340 ≤ J) (hJ2 : J ≤ 15005) (hF : F ≤ 999999) :
    sdinFiddle J F =
      if 7840 ≤ J then
        (32340 + 10 * (J - 7840) + F / 20000 / 5,
          (F % 20000) * 10 + (F / 20000 % 5) * 200000)
      else (7340 + 50 * (J - 7340) + F / 20000, (F % 20000) * 50) := by
  unfold sdinFiddle
  norm_num only
  simp (disch := omega) only [sub64_of_le, mul64_of_lt, add64_of_lt, u32_of_lt,
    Nat.mod_eq_of_lt]
  by_cases h : 7840 ≤ J
  · rw [if_pos h, if_pos (by omega)]
    simp only [Prod.mk.injEq]
    constructor <;> omega
  · rw [if_neg h, if_neg (by omega)]
    simp only [Prod.mk.injEq]
    constructor <;> omega

/-- The common end of the pre-TNG branch of `sdin`: the time of `integer` early units and
`frac` millionths after `base`. -/
theorem sdinTime_early (n I F : Nat) (hn : n ≤ 19) (hI : I ≤ 9999)
    (hb : n < 19 ∨ I < 7340) (hF : F ≤ 999999) :
    sdinTime false n I F =
      ⟨ufpepoch + n * 172800000 + 17280 * I + efrac F / 2 ^ 32, efrac F % 2 ^ 32⟩ := by
  have hfb := sdin_frac_bound F hF
  have hc : ((false : Bool) = true ∨ n ≤ 20) := Or.inr (by omega)
  have h20 : ¬ n = 20 := by omega
  have h19 : ¬ (n = 19 ∧ I ≥ 7340) := by omega
  unfold sdinTime
  rw [if_pos hc]
  simp only [shl32, shr32, ufpepoch, Bool.not_false, if_true, h20, h19, if_false,
    Bool.false_eq_true, efrac] at hfb ⊢
  norm_num only at hfb ⊢
  simp (disch := omega) only [mul64_of_lt, add64_of_lt, Nat.mod_eq_of_lt, u32_of_lt]
  unfold u32
  norm_num only

/-- A negative stardate: the issue is counted back from the epoch. -/
theorem sdinTime_neg (n I F : Nat) (hn : 1 ≤ n) (hn2 : n ≤ 395) (hI : I ≤ 9999)
    (hF : F ≤ 999999) (hpos : n * 172800000 ≤ ufpepoch + 17280 * I + efrac F / 2 ^ 32) :
    sdinTime true n I F =
      ⟨ufpepoch + 17280 * I + efrac F / 2 ^ 32 - n * 172800000, efrac F % 2 ^ 32⟩ := by
  have hfb := sdin_frac_bound F hF
  have hc : ((true : Bool) = true ∨ n ≤ 20) := Or.inl rfl
  unfold sdinTime
  rw [if_pos hc]
  simp only [shl32, shr32, ufpepoch, Bool.not_true, if_true, if_false,
    Bool.false_eq_true, efrac] at hfb hpos ⊢
  norm_num only at hfb hpos ⊢
  simp (disch := omega) only [mul64_of_lt, add64_of_lt, Nat.mod_eq_of_lt, u32_of_lt,
    sub64_of_le]
  unfold u32
  norm_num only
  rw [intdate.mk.injEq]
  exact ⟨by omega, rfl⟩

/-- A stardate of the film era, [19]7340 up to [20]5005, with `J` the integer part counted
from [19]0000. -/
theorem sdinTime_film (n I J F : Nat) (hJ : 7340 ≤ J) (hJ2 : J ≤ 15005) (hF : F ≤ 999999)
    (hnI : (n = 19 ∧ I ≤ 9999 ∧ J = I) ∨ (n = 20 ∧ I ≤ 5005 ∧ J = I + 10000)) :
    sdinTime false n I F =
      ⟨ufpepoch + 19 * 172800000 + 17280 * (sdinFiddle J F).1
          + efrac (sdinFiddle J F).2 / 2 ^ 32,
        efrac (sdinFiddle J F).2 % 2 ^ 32⟩ := by
  have hfid := sdinFiddle_eq J F hJ hJ2 hF
  have hI1 : (sdinFiddle J F).1 ≤ 104000 := by
    rw [hfid]; split_ifs <;> simp only <;> omega
  have hF1 : (sdinFiddle J F).2 ≤ 999999 := by
    rw [hfid]; split_ifs <;> simp only <;> omega
  have hfb := sdin_frac_bound _ hF1
  have hc : ((false : Bool) = true ∨ n ≤ 20) := Or.inr (by omega)
  have hr : (if n = 20 then (19, sdinFiddle (u32 (I + 10000)) F)
      else if n = 19 ∧ I ≥ 7340 then (n, sdinFiddle I F) else (n, I, F))
      = (19, sdinFiddle J F) := by
    rcases hnI with ⟨h1, h2, h3⟩ | ⟨h1, h2, h3⟩
    · subst h1 h3
      rw [if_neg (by omega), if_pos ⟨rfl, hJ⟩]
    · subst h1 h3
      rw [if_pos rfl, u32_of_lt _ (by omega)]
  unfold sdinTime
  rw [if_pos hc]
  simp only [Bool.not_false, if_true, hr]
  generalize (sdinFiddle J F).1 = I1 at *
  generalize (sdinFiddle J F).2 = F1 at *
  simp only [shl32, shr32, ufpepoch, if_false, Bool.false_eq_true, efrac] at hfb ⊢
  norm_num only at hfb ⊢
  simp (disch := omega) only [mul64_of_lt, add64_of_lt, Nat.mod_eq_of_lt, u32_of_lt]
  unfold u32
  norm_num only

/-! ## Stardate arithmetic: encoding -/

/-- `sdoutFields` before the stardate epoch. -/
theorem sdoutFields_neg (sec frac : Nat) (h : sec < ufpepoch) (hf : frac < 2 ^ 32) :
    sdoutFields ⟨sec, frac⟩ =
      (true, 1 + (ufpepoch - sec - 1) / 172800000,
        (172800000 - 1 - (ufpepoch - sec - 1) % 172800000) / 17280,
        ((172800000 - 1 - (ufpepoch - sec - 1) % 172800000) % 17280 * 2 ^ 32 + frac) * 50) := by
  unfold sdoutFields
  simp only [ufpepoch] at *
  rw [if_pos h]
  simp (disch := omega) only [sub64_of_le, u32_of_lt, mul64_of_lt, shl_or]

/-- `sdoutFields` from the stardate epoch up to [19]7340. -/
theorem sdoutFields_tos (sec frac : Nat) (h1 : ufpepoch ≤ sec) (h2 : sec < 71605036800)
    (hf : frac < 2 ^ 32) :
    sdoutFields ⟨sec, frac⟩ =
      (false, (sec - ufpepoch) / 172800000, (sec - ufpepoch) % 172800000 / 17280,
        ((sec - ufpepoch) % 172800000 % 17280 * 2 ^ 32 + frac) * 50) := by
  unfold sdoutFields
  simp only [ufpepoch] at *
  rw [if_neg (by omega)]
  simp (disch := omega) only [sub64_of_le, u32_of_lt, mul64_of_lt, shl_or]
  rw [if_pos (by omega)]

/-- `sdoutFields` from [19]7340 up to [19]7840. -/
theorem sdoutFields_film1 (sec frac : Nat) (h1 : 71605036800 ≤ sec) (h2 : sec < 72037036800)
    (hf : frac < 2 ^ 32) :
    sdoutFields ⟨sec, frac⟩ =
      (false, 19, 7340 + (sec - 71605036800) / 864000,
        (sec - 71605036800) % 864000 * 2 ^ 32 + frac) := by
  unfold sdoutFields
  simp only [ufpepoch] at *
  rw [if_neg (by omega)]
  simp (disch := omega) only [sub64_of_le, u32_of_lt, mul64_of_lt, shl_or]
  rw [if_neg (by omega)]
  have e2 : u32 ((sec - 68195001600) % (2000 * 86400)
      + ((sec - 68195001600) / (2000 * 86400) - 19) * 2000 * 86400
      + 2 ^ 32 - 7340 * (86400 / 5)) = sec - 71605036800 := by unfold u32; omega
  rw [e2, if_neg (by omega)]

/-- `sdoutFields` from [19]7840 up to the TNG epoch. -/
theorem sdoutFields_film2 (sec frac : Nat) (h1 : 72037036800 ≤ sec) (h2 : sec < tngepoch)
    (hf : frac < 2 ^ 32) :
    sdoutFields ⟨sec, frac⟩ =
      (false, if 7840 + (sec - 72037036800) / 172800 ≥ 10000 then 20 else 19,
        if 7840 + (sec - 72037036800) / 172800 ≥ 10000
          then 7840 + (sec - 72037036800) / 172800 - 10000
          else 7840 + (sec - 72037036800) / 172800,
        ((sec - 72037036800) % 172800 * 2 ^ 32 + frac) * 5) := by
  unfold sdoutFields
  simp only [ufpepoch, tngepoch] at *
  rw [if_neg (by omega)]
  simp (disch := omega) only [sub64_of_le, u32_of_lt, mul64_of_lt, shl_or]
  rw [if_neg (by omega)]
  have e2 : u32 ((sec - 68195001600) % (2000 * 86400)
      + ((sec - 68195001600) / (2000 * 86400) - 19) * 2000 * 86400
      + 2 ^ 32 - 7340 * (86400 / 5)) = sec - 71605036800 := by unfold u32; omega
  rw [e2, if_pos (by omega)]
  have e3 : sec - 71605036800 - 5000 * 86400 = sec - 72037036800 := by omega
  rw [e3]
  simp (disch := omega) only [u32_of_lt, shl_or, mul64_of_lt]
  split_ifs <;> rfl

/-- `tngFields` from the TNG epoch on. -/
theorem tngFields_eq (sec frac : Nat) (h1 : tngepoch ≤ sec) (h2 : sec < 2 ^ 64)
    (hf : frac < 2 ^ 32) :
    tngFields ⟨sec, frac⟩ =
      (21 + (sec - tngepoch) / 3155695200,
        ((sec - tngepoch) % 3155695200 * 125000000 + frac * 125000000 / 2 ^ 32) / 3944619) := by
  unfold tngFields
  simp only [tngepoch, shr32] at *
  simp (disch := omega) only [sub64_of_le, u32_of_lt, mul64_of_lt, add64_of_lt]

/-! ## Stardate arithmetic: encoding what was decoded -/

theorem efrac_lt (F : Nat) (hF : F ≤ 999999) : efrac F / 2 ^ 32 ≤ 17279 := by
  unfold efrac; omega

/-- The six fraction digits that `sdout` prints for `efrac F` into an early unit are `F`. -/
theorem efrac_digits (F : Nat) : efrac F * 50 * 125 / 108 / 2 ^ 32 = F := by
  unfold efrac; omega

theorem sdout_sdin_tos (n I F : Nat) (hn : n ≤ 19) (hI : I ≤ 9999)
    (hb : n < 19 ∨ I < 7340) (hF : F ≤ 999999) :
    (sdinTime false n I F).sec < tngepoch ∧
    sdoutFields (sdinTime false n I F) = (false, n, I, efrac F * 50) := by
  rw [sdinTime_early n I F hn hI hb hF]
  have he := efrac_lt F hF
  generalize efrac F = e at *
  have hlt : e % 2 ^ 32 < 2 ^ 32 := Nat.mod_lt _ (by norm_num)
  constructor
  · simp only [ufpepoch, tngepoch]; omega
  rw [sdoutFields_tos _ _ (by simp only [ufpepoch]; omega) (by simp only [ufpepoch]; omega) hlt]
  simp only [ufpepoch, Prod.mk.injEq, true_and]
  refine ⟨by omega, by omega, by omega⟩

theorem sdout_sdin_neg (n I F : Nat) (hn : 1 ≤ n) (hn2 : n ≤ 394) (hI : I ≤ 9999)
    (hF : F ≤ 999999) :
    (sdinTime true n I F).sec < tngepoch ∧
    sdoutFields (sdinTime true n I F) = (true, n, I, efrac F * 50) := by
  have he := efrac_lt F hF
  rw [sdinTime_neg n I F hn (by omega) hI hF (by simp only [ufpepoch]; omega)]
  generalize efrac F = e at *
  have hlt : e % 2 ^ 32 < 2 ^ 32 := Nat.mod_lt _ (by norm_num)
  constructor
  · simp only [ufpepoch, tngepoch]; omega
  rw [sdoutFields_neg _ _ (by simp only [ufpepoch]; omega) hlt]
  simp only [ufpepoch, Prod.mk.injEq, true_and]
  refine ⟨by omega, by omega, by omega⟩

theorem sdout_sdin_film1 (I F : Nat) (hI : 7340 ≤ I) (hI2 : I < 7840) (hF : F ≤ 999999) :
    (sdinTime false 19 I F).sec < tngepoch ∧
    sdoutFields (sdinTime false 19 I F)
      = (false, 19, I, 17280 * (F / 20000) * 2 ^ 32 + efrac (F % 20000 * 50)) := by
  rw [sdinTime_film 19 I I F hI (by omega) hF (Or.inl ⟨rfl, by omega, rfl⟩),
    sdinFiddle_eq I F hI (by omega) hF, if_neg (by omega)]
  simp only []
  have he := efrac_lt (F % 20000 * 50) (by omega)
  generalize efrac (F % 20000 * 50) = e at *
  have hlt : e % 2 ^ 32 < 2 ^ 32 := Nat.mod_lt _ (by norm_num)
  constructor
  · simp only [ufpepoch, tngepoch]; omega
  rw [sdoutFields_film1 _ _ (by simp only [ufpepoch]; omega) (by simp only [ufpepoch]; omega) hlt]
  simp only [ufpepoch, Prod.mk.injEq, true_and]
  refine ⟨by omega, by omega⟩

theorem film1_digits (F : Nat) :
    (17280 * (F / 20000) * 2 ^ 32 + efrac (F % 20000 * 50)) * 125 / 108 / 2 ^ 32 = F := by
  unfold efrac; omega

theorem sdout_sdin_film2 (n I J F : Nat) (hJ : 7840 ≤ J) (hJ2 : J ≤ 15005) (hF : F ≤ 999999)
    (hnI : (n = 19 ∧ I ≤ 9999 ∧ J = I) ∨ (n = 20 ∧ I ≤ 5005 ∧ J = I + 10000)) :
    (sdinTime false n I F).sec < tngepoch ∧
    sdoutFields (sdinTime false n I F)
      = (false, n, I, (17280 * (F / 20000 / 5) * 2 ^ 32
          + efrac (F % 20000 * 10 + F / 20000 % 5 * 200000)) * 5) := by
  rw [sdinTime_film n I J F (by omega) hJ2 hF hnI,
    sdinFiddle_eq J F (by omega) hJ2 hF, if_pos hJ]
  simp only []
  have he := efrac_lt (F % 20000 * 10 + F / 20000 % 5 * 200000) (by omega)
  generalize efrac (F % 20000 * 10 + F / 20000 % 5 * 200000) = e at *
  have hlt : e % 2 ^ 32 < 2 ^ 32 := Nat.mod_lt _ (by norm_num)
  have hsec : ufpepoch + 19 * 172800000 + 17280 * (32340 + 10 * (J - 7840) + F / 20000 / 5)
      + e / 2 ^ 32 = 72037036800 + 172800 * (J - 7840) + 17280 * (F / 20000 / 5) + e / 2 ^ 32 := by
    simp only [ufpepoch]; omega
  rw [hsec]
  constructor
  · simp only [tngepoch]; omega
  rw [sdoutFields_film2 _ _ (by omega) (by simp only [tngepoch]; omega) hlt]
  have hq : (72037036800 + 172800 * (J - 7840) + 17280 * (F / 20000 / 5) + e / 2 ^ 32
      - 72037036800) / 172800 = J - 7840 := by omega
  have hr : (72037036800 + 172800 * (J - 7840) + 17280 * (F / 20000 / 5) + e / 2 ^ 32
      - 72037036800) % 172800 = 17280 * (F / 20000 / 5) + e / 2 ^ 32 := by omega
  rw [hq, hr]
  have hX : (17280 * (F / 20000 / 5) + e / 2 ^ 32) * 2 ^ 32 + e % 2 ^ 32
      = 17280 * (F / 20000 / 5) * 2 ^ 32 + e := by omega
  rw [hX]
  rcases hnI with ⟨h1, h2, h3⟩ | ⟨h1, h2, h3⟩
  · subst h1 h3
    rw [if_neg (by omega), if_neg (by omega)]
    simp only [Prod.mk.injEq, true_and, and_true]
    omega
  · subst h1 h3
    rw [if_pos (by omega), if_pos (by omega)]
    simp only [Prod.mk.injEq, true_and, and_true]
    omega

theorem film2_digits (F : Nat) :
    (17280 * (F / 20000 / 5) * 2 ^ 32 + efrac (F % 20000 * 10 + F / 20000 % 5 * 200000)) * 5
      * 125 / 108 / 2 ^ 32 = F := by
  unfold efrac; omega

theorem sdout_sdin_tng (n I F : Nat) (hn : 21 ≤ n) (hn2 : n ≤ 10 ^ 9) (hI : I ≤ 99999)
    (hF : F ≤ 999999) :
    tngepoch ≤ (sdinTime false n I F).sec ∧ (sdinTime false n I F).sec < 2 ^ 64 ∧
    tngFields (sdinTime false n I F) = (n, I * 1000000 + F) := by
  have h9 : (10 : Nat) ^ 9 = 1000000000 := by norm_num
  rw [sdinTime_tng n I F hn hI hF (tng_issue_bound n I F hn2 hI hF)]
  generalize hU : I * 1000000 + F = U
  have hUb : U ≤ 99999999999 := by omega
  refine ⟨by simp only [tngepoch]; omega, by simp only [tngepoch]; omega, ?_⟩
  rw [tngFields_eq _ _ (by simp only [tngepoch]; omega) (by simp only [tngepoch]; omega)
    (by omega)]
  simp only [tngepoch, Prod.mk.injEq]
  constructor
  · omega
  · have hq : (73275321600 + (n - 21) * 3155695200 + U * 3944619 / 125000000 - 73275321600)
        % 3155695200 = U * 3944619 / 125000000 := by omega
    rw [hq]
    have hr : (U * 3944619 % 125000000 * 2 ^ 32 + 124999999) / 125000000 * 125000000 / 2 ^ 32
        = U * 3944619 % 125000000 := by omega
    rw [hr]
    omega

/-! ## Stardate texts -/

theorem fillFrac_full (buf ds : List Char) (hds : Digits ds) (hlen : buf.length = ds.length) :
    (fillFrac buf ds).1 = ds := by
  induction buf generalizing ds with
  | nil =>
    cases ds with
    | nil => rfl
    | cons c cs => simp at hlen
  | cons b bs ih =>
    cases ds with
    | nil => simp at hlen
    | cons c cs =>
      have hc : isdigit c = true := hds c (List.mem_cons_self _ _)
      simp only [fillFrac, hd_cons, hc, if_true, tl_cons]
      rw [ih cs (fun x hx => hds x (List.mem_cons_of_mem _ hx)) (by simpa using hlen)]

theorem fmtlu_six (F : Nat) (hF : F ≤ 999999) : (fmtlu 6 F).length = 6 :=
  (uint64str_spec F 6 (by omega)).2.2.2 (by omega)

theorem fracfmt_six (F : Nat) (hF : F ≤ 999999) : fracfmt 6 F = '.' :: fmtlu 6 F := by
  have h := fmtlu_six F hF
  simp only [fracfmt, ne_eq, OfNat.ofNat_ne_zero, not_false_eq_true, if_true,
    List.take_succ_cons]
  rw [List.take_of_length_le (by omega)]

/-- The six fraction digits of a canonical text are read back as their value. -/
theorem frac_canonical (g : List Char) (F : Nat) (hF : F ≤ 999999) :
    u32 (strtoul (fracDigits g (some (fmtlu 6 F))) 10).1 = F := by
  have hd6 := fmtlu_digits1 6 F (by omega)
  have h := strtoul_digits (fmtlu 6 F) [] hd6 (by decide)
  rw [List.append_nil] at h
  simp only [fracDigits]
  rw [fillFrac_full _ _ hd6.1 (by rw [fmtlu_six F hF]; rfl), h, fmtlu_decVal 6 F (by omega)]
  simp only [min_eq_left (show F ≤ 2 ^ 64 - 1 by omega)]
  exact u32_of_lt _ (by omega)

/-- `sdin` on a text with canonical fields within the caps of the issue. -/
theorem sdin_canonical (g : List Char) (neg : Bool) (w n I F : Nat) (hn : n < 2 ^ 64)
    (hI : I ≤ 99999) (h20 : neg = false → n = 20 → I ≤ 5005)
    (h9999 : (neg = true ∨ n < 20) → I ≤ 9999) (hF : F ≤ 999999) :
    sdin g (sdToken neg (fmtlu 0 n) (fmtlu w I) (some (fmtlu 6 F)))
      = .success (sdinTime neg n I F) false := by
  rw [sdin_token g neg _ _ _ (fmtlu_digits1 0 n hn) (fmtlu_digits1 w I (by omega))
    (fun f hf => by
      rw [Option.some.injEq] at hf
      rw [← hf]; exact (fmtlu_digits1 6 F (by omega)).1)]
  rw [fmtlu_decVal 0 n hn, fmtlu_decVal w I (by omega), frac_canonical g F hF,
    min_eq_left (show n ≤ 2 ^ 64 - 1 by omega), min_eq_left (show I ≤ 2 ^ 64 - 1 by omega),
    u32_of_lt I (by omega)]
  have e1 : decide (2 ^ 64 ≤ n) = false := by rw [decide_eq_false_iff_not]; omega
  have e2 : decide (2 ^ 64 ≤ I) = false := by rw [decide_eq_false_iff_not]; omega
  rw [e1, e2, if_neg]
  simp only [Bool.or_self, Bool.false_eq_true, false_or, not_or, not_and, not_lt,
    Bool.not_eq_true', gt_iff_lt]
  refine ⟨hI, fun h1 h2 => h20 h1 h2, fun h => h9999 h⟩

/-- What `sdout` prints with six digits before the TNG epoch, from the fields it computes. -/
theorem sdout_text_pre (dt : intdate) (neg : Bool) (n I X F : Nat) (hsec : dt.sec < tngepoch)
    (hf : sdoutFields dt = (neg, n, I, X)) (hX : X * 125 < 2 ^ 64)
    (hd : X * 125 / 108 / 2 ^ 32 = F) (hF : F ≤ 999999) :
    sdout 6 dt = sdToken neg (fmtlu 0 n) (fmtlu 4 I) (some (fmtlu 6 F)) := by
  unfold sdout
  rw [if_neg (by omega), hf]
  simp only [shr32, mul64_of_lt _ _ hX, hd, u32_of_lt F (by omega), fracfmt_six F hF, sdToken]

/-- What `sdout` prints with six digits from the TNG epoch on. -/
theorem sdout_text_tng (dt : intdate) (n U : Nat) (hsec : tngepoch ≤ dt.sec)
    (hf : tngFields dt = (n, U)) (hU : U ≤ 99999999999) :
    sdout 6 dt
      = sdToken false (fmtlu 0 n) (fmtlu 5 (U / 1000000)) (some (fmtlu 6 (U % 1000000))) := by
  unfold sdout
  rw [if_pos hsec]
  unfold tngsdout
  rw [hf]
  simp only [u32_of_lt (U / 1000000) (by omega), u32_of_lt (U % 1000000) (by omega),
    fracfmt_six (U % 1000000) (by omega), sdToken, Bool.false_eq_true, if_false,
    List.nil_append]
  rfl

/-- `sdin` on the canonical text of a valid stardate. -/
theorem sdin_sdText (g : List Char) (neg : Bool) (n I F : Nat)
    (hv : ValidStardate neg n I) (hF : F ≤ 999999) :
    sdin g (sdText neg n I F) = .success (sdinTime neg n I F) false := by
  have h9 : (10 : Nat) ^ 9 = 1000000000 := by norm_num
  unfold sdText
  rcases hv with ⟨h1, h2, h3, h4⟩ | ⟨h1, h2, h3⟩ | ⟨h1, h2, h3⟩ | ⟨h1, h2, h3, h4⟩ <;>
    subst h1 <;>
    exact sdin_canonical g _ _ n I F (by omega) (by omega)
      (by intro h; first | exact absurd h (by decide) | (intros; omega))
      (by intro h; rcases h with h | h <;> first | omega | exact absurd h (by decide)) hF

/-- `sdout` at precision 6 prints the time decoded from a valid stardate as its canonical
text. -/
theorem sdout_sdinTime (neg : Bool) (n I F : Nat)
    (hv : ValidStardate neg n I) (hF : F ≤ 999999) :
    sdout 6 (sdinTime neg n I F) = sdText neg n I F := by
  have h9 : (10 : Nat) ^ 9 = 1000000000 := by norm_num
  unfold sdText
  rcases hv with ⟨h1, h2, h3, h4⟩ | ⟨h1, h2, h3⟩ | ⟨h1, h2, h3⟩ | ⟨h1, h2, h3, h4⟩
  · subst h1
    obtain ⟨hs, hfl⟩ := sdout_sdin_neg n I F h2 h3 h4 hF
    have he := efrac_lt F hF
    rw [if_neg (by simp)]
    exact sdout_text_pre _ _ _ _ _ F hs hfl (by omega) (efrac_digits F) hF
  · subst h1
    by_cases hb : n < 19 ∨ I < 7340
    · obtain ⟨hs, hfl⟩ := sdout_sdin_tos n I F h2 h3 hb hF
      have he := efrac_lt F hF
      rw [if_neg (by omega)]
      exact sdout_text_pre _ _ _ _ _ F hs hfl (by omega) (efrac_digits F) hF
    · have hn : n = 19 := by omega
      subst hn
      rw [if_neg (by omega)]
      by_cases h78 : I < 7840
      · obtain ⟨hs, hfl⟩ := sdout_sdin_film1 I F (by omega) h78 hF
        have he := efrac_lt (F % 20000 * 50) (by omega)
        exact sdout_text_pre _ _ _ _ _ F hs hfl (by omega) (film1_digits F) hF
      · obtain ⟨hs, hfl⟩ := sdout_sdin_film2 19 I I F (by omega) (by omega) hF
          (Or.inl ⟨rfl, h3, rfl⟩)
        have he := efrac_lt (F % 20000 * 10 + F / 20000 % 5 * 200000) (by omega)
        exact sdout_text_pre _ _ _ _ _ F hs hfl (by omega) (film2_digits F) hF
  · subst h1 h2
    obtain ⟨hs, hfl⟩ := sdout_sdin_film2 20 I (I + 10000) F (by omega) (by omega) hF
      (Or.inr ⟨rfl, h3, rfl⟩)
    have he := efrac_lt (F % 20000 * 10 + F / 20000 % 5 * 200000) (by omega)
    rw [if_neg (by omega)]
    exact sdout_text_pre _ _ _ _ _ F hs hfl (by omega) (film2_digits F) hF
  · subst h1
    obtain ⟨hs, _, hfl⟩ := sdout_sdin_tng n I F h2 h3 h4 hF
    rw [if_pos ⟨rfl, h2⟩]
    have := sdout_text_tng _ n (I * 1000000 + F) hs hfl (by omega)
    rw [this]
    have e1 : (I * 1000000 + F) / 1000000 = I := by omega
    have e2 : (I * 1000000 + F) % 1000000 = F := by omega
    rw [e1, e2]

/-- C2. Stardate encode(decode(s)) = s at full precision: for every valid canonical stardate
text with six fraction digits (negative issue 1..394 or issue 0..19 with integer part
0000..9999, issue 20 with 0000..5005, issue 21..10^9 with 00000..99999), `sdin` succeeds and
`sdout` at precision 6 prints the decoded time as exactly the same text. -/
theorem stardate_encode_decode (g : List Char) (neg : Bool) (n I F : Nat)
    (hv : ValidStardate neg n I) (hF : F ≤ 999999) :
    ∃ dt, sdin g (sdText neg n I F) = .success dt false ∧ sdout 6 dt = sdText neg n I F :=
  ⟨sdinTime neg n I F, sdin_sdText g neg n I F hv hF, sdout_sdinTime neg n I F hv hF⟩

theorem stardate_encode_decode_witness :
    sdText false 19 7340 123456 = "[19]7340.123456".toList
      ∧ ∃ dt, sdin [] (sdText false 19 7340 123456) = .success dt false
        ∧ sdout 6 dt = sdText false 19 7340 123456 :=
  ⟨by decide, stardate_encode_decode [] false 19 7340 123456
    (Or.inr (Or.inl ⟨rfl, by decide, by decide⟩)) (by decide)⟩

/-! ## The stardate rates -/

/-- A time in ticks of `2^-32` s is `X` rounded up to a multiple of `2^-32` s, from the same
fact in integers: `num / den` seconds after `base`. -/
theorem toRat_round_up (dt : intdate) (base num den : Nat) (hden : 0 < den)
    (h1 : (base * 2 ^ 32) * den + num * 2 ^ 32 ≤ dt.ticks * den)
    (h2 : dt.ticks * den < (base * 2 ^ 32) * den + num * 2 ^ 32 + den) :
    (base : ℚ) + (num : ℚ) / den ≤ dt.toRat
      ∧ dt.toRat < (base : ℚ) + (num : ℚ) / den + 1 / 2 ^ 32 := by
  have hd : (0 : ℚ) < den := by exact_mod_cast hden
  have h1q : ((base : ℚ) * 2 ^ 32) * den + num * 2 ^ 32 ≤ ((dt.sec : ℚ) * 2 ^ 32 + dt.frac) * den := by
    have := h1
    unfold intdate.ticks at this
    exact_mod_cast this
  have h2q : ((dt.sec : ℚ) * 2 ^ 32 + dt.frac) * den
      < ((base : ℚ) * 2 ^ 32) * den + num * 2 ^ 32 + den := by
    have := h2
    unfold intdate.ticks at this
    exact_mod_cast this
  unfold intdate.toRat
  have e1 : (base : ℚ) + (num : ℚ) / den
      = (((base : ℚ) * 2 ^ 32) * den + num * 2 ^ 32) / (den * 2 ^ 32) := by
    field_simp
    ring
  have e2 : (dt.sec : ℚ) + (dt.frac : ℚ) / 2 ^ 32
      = (((dt.sec : ℚ) * 2 ^ 32 + dt.frac) * den) / (den * 2 ^ 32) := by
    field_simp
    ring
  have e3 : (base : ℚ) + (num : ℚ) / den + 1 / 2 ^ 32
      = (((base : ℚ) * 2 ^ 32) * den + num * 2 ^ 32 + den) / (den * 2 ^ 32) := by
    field_simp
    ring
  rw [e3, e1, e2]
  have hpos : (0 : ℚ) < den * 2 ^ 32 := by positivity
  exact ⟨div_le_div_of_nonneg_right h1q hpos.le, div_lt_div_of_pos_right h2q hpos⟩

/-- C6. TNG-era stardate decode uses the exact rational rate: for issue 21..10^9, integer part
0..99999 and six-digit fraction `F`, `sdin` yields the time `tngepoch + (n-21)*3155695200 +
(I*10^6 + F)*(27*146097)/125000000` seconds rounded up to the next multiple of 2^-32 s, with
a fraction below 2^32; one issue of 100000 units is 86400*146097/4 = 3155695200 seconds. -/
theorem tng_stardate_rate (g : List Char) (n I F : Nat) (hn : 21 ≤ n ∧ n ≤ 10 ^ 9)
    (hI : I ≤ 99999) (hF : F ≤ 999999) :
    ∃ dt, sdin g (sdText false n I F) = .success dt false ∧ dt.frac < 2 ^ 32
      ∧ (tngepoch : ℚ) + ((n : ℚ) - 21) * 3155695200
          + ((I : ℚ) * 10 ^ 6 + F) * (27 * 146097) / 125000000 ≤ dt.toRat
      ∧ dt.toRat < (tngepoch : ℚ) + ((n : ℚ) - 21) * 3155695200
          + ((I : ℚ) * 10 ^ 6 + F) * (27 * 146097) / 125000000 + 1 / 2 ^ 32
      ∧ (100000 : ℚ) * ((27 * 146097) / 125) = 3155695200
      ∧ 86400 * 146097 / 4 = 3155695200 := by
  have h9 : (10 : Nat) ^ 9 = 1000000000 := by norm_num
  have hcl := sdinTime_tng n I F hn.1 hI hF (tng_issue_bound n I F hn.2 hI hF)
  refine ⟨sdinTime false n I F, ?_, ?_, ?_⟩
  · exact sdin_sdText g false n I F (Or.inr (Or.inr (Or.inr ⟨rfl, hn.1, hn.2, hI⟩))) hF
  · rw [hcl]
    simp only []
    omega
  · have hr := toRat_round_up (sdinTime false n I F) (tngepoch + (n - 21) * 3155695200)
      ((I * 1000000 + F) * 3944619) 125000000 (by norm_num)
      (by rw [hcl]; simp only [intdate.ticks, tngepoch]; omega)
      (by rw [hcl]; simp only [intdate.ticks, tngepoch]; omega)
    have hc : ((tngepoch + (n - 21) * 3155695200 : ℕ) : ℚ)
        + (((I * 1000000 + F) * 3944619 : ℕ) : ℚ) / (125000000 : ℕ)
        = (tngepoch : ℚ) + ((n : ℚ) - 21) * 3155695200
          + ((I : ℚ) * 10 ^ 6 + F) * (27 * 146097) / 125000000 := by
      push_cast [Nat.cast_sub hn.1]
      ring
    rw [hc] at hr
    exact ⟨hr.1, hr.2, by norm_num, by norm_num⟩

theorem tng_stardate_rate_witness :
    sdText false 21 0 1 = "[21]00000.000001".toList
      ∧ ∃ dt, sdin [] (sdText false 21 0 1) = .success dt false ∧ dt.frac < 2 ^ 32
        ∧ (tngepoch : ℚ) + (((21 : ℕ) : ℚ) - 21) * 3155695200
            + ((((0 : ℕ) : ℚ)) * 10 ^ 6 + ((1 : ℕ) : ℚ)) * (27 * 146097) / 125000000 ≤ dt.toRat
        ∧ dt.toRat < (tngepoch : ℚ) + (((21 : ℕ) : ℚ) - 21) * 3155695200
            + ((((0 : ℕ) : ℚ)) * 10 ^ 6 + ((1 : ℕ) : ℚ)) * (27 * 146097) / 125000000 + 1 / 2 ^ 32
        ∧ (100000 : ℚ) * ((27 * 146097) / 125) = 3155695200
        ∧ 86400 * 146097 / 4 = 3155695200 :=
  ⟨by decide, tng_stardate_rate [] 21 0 1 (by decide) (by decide) (by decide)⟩

/-- C5. Pre-TNG stardate decode equals the piecewise-linear reference: for every valid
stardate with negative issue 1..394 or issue up to 20, integer part `I` and six-digit
fraction `F`, `sdin` yields `ufpepoch + R` rounded up to the next multiple of 2^-32 s, where
`R = refSeconds` is the reference at `u = I + F/10^6`; and the decoded times of [19]7339,
[19]7340 and [19]7341 are 17280 s and 864000 s apart, so the two rates meet at [19]7340. -/
theorem pre_tng_stardate_rate (g : List Char) (neg : Bool) (n I F : Nat)
    (hv : ValidStardate neg n I) (hpre : neg = true ∨ n ≤ 20) (hF : F ≤ 999999) :
    (∃ dt, sdin g (sdText neg n I F) = .success dt false ∧ dt.frac < 2 ^ 32
      ∧ (ufpepoch : ℚ) + refSeconds neg n I ((I : ℚ) + (F : ℚ) / 10 ^ 6) ≤ dt.toRat
      ∧ dt.toRat
          < (ufpepoch : ℚ) + refSeconds neg n I ((I : ℚ) + (F : ℚ) / 10 ^ 6) + 1 / 2 ^ 32)
    ∧ ∃ a b c, sdin g "[19]7339.000000".toList = .success a false
      ∧ sdin g "[19]7340.000000".toList = .success b false
      ∧ sdin g "[19]7341.000000".toList = .success c false
      ∧ a.frac = 0 ∧ b.frac = 0 ∧ c.frac = 0
      ∧ b.sec = a.sec + 17280 ∧ c.sec = b.sec + 864000 := by
  have hlt : ∀ e : Nat, e % 2 ^ 32 < 2 ^ 32 := fun e => Nat.mod_lt _ (by norm_num)
  refine ⟨⟨sdinTime neg n I F, ?_, ?_⟩,
    ⟨⟨71605019520, 0⟩, ⟨71605036800, 0⟩, ⟨71605900800, 0⟩, rfl, rfl, rfl, rfl, rfl, rfl, rfl,
      rfl⟩⟩
  · exact sdin_sdText g neg n I F hv hF
  · rcases hv with ⟨h1, h2, h3, h4⟩ | ⟨h1, h2, h3⟩ | ⟨h1, h2, h3⟩ | ⟨h1, h2, h3, h4⟩
    · subst h1
      have hcl := sdinTime_neg n I F h2 (by omega) h4 hF (by simp only [ufpepoch]; omega)
      have hr := toRat_round_up (sdinTime true n I F) (ufpepoch - n * 172800000 + 17280 * I)
        (17280 * F) 1000000 (by norm_num)
        (by rw [hcl]; simp only [intdate.ticks, ufpepoch, efrac]; omega)
        (by rw [hcl]; simp only [intdate.ticks, ufpepoch, efrac]; omega)
      have hc : ((ufpepoch - n * 172800000 + 17280 * I : ℕ) : ℚ)
          + ((17280 * F : ℕ) : ℚ) / (1000000 : ℕ)
          = (ufpepoch : ℚ) + refSeconds true n I ((I : ℚ) + (F : ℚ) / 10 ^ 6) := by
        have hle : n * 172800000 ≤ ufpepoch := by simp only [ufpepoch]; omega
        simp only [refSeconds, if_true]
        push_cast [Nat.cast_sub hle]
        ring
      rw [hc] at hr
      exact ⟨by rw [hcl]; exact hlt _, hr.1, hr.2⟩
    · subst h1
      by_cases hb : n < 19 ∨ (n = 19 ∧ I < 7340)
      · have hcl := sdinTime_early n I F h2 h3 (by omega) hF
        have hr := toRat_round_up (sdinTime false n I F) (ufpepoch + n * 172800000 + 17280 * I)
          (17280 * F) 1000000 (by norm_num)
          (by rw [hcl]; simp only [intdate.ticks, ufpepoch, efrac]; omega)
          (by rw [hcl]; simp only [intdate.ticks, ufpepoch, efrac]; omega)
        have hc : ((ufpepoch + n * 172800000 + 17280 * I : ℕ) : ℚ)
            + ((17280 * F : ℕ) : ℚ) / (1000000 : ℕ)
            = (ufpepoch : ℚ) + refSeconds false n I ((I : ℚ) + (F : ℚ) / 10 ^ 6) := by
          unfold refSeconds
          rw [if_neg (by decide), if_pos hb]
          push_cast
          ring
        rw [hc] at hr
        exact ⟨by rw [hcl]; exact hlt _, hr.1, hr.2⟩
      · have hn : n = 19 := by omega
        subst hn
        by_cases h78 : I < 7840
        · have hcl := sdinTime_film 19 I I F (by omega) (by omega) hF
            (Or.inl ⟨rfl, by omega, rfl⟩)
          rw [sdinFiddle_eq I F (by omega) (by omega) hF, if_neg (by omega)] at hcl
          simp only [] at hcl
          have hr := toRat_round_up (sdinTime false 19 I F)
            (ufpepoch + 19 * 172800000 + 7340 * 17280 + 864000 * (I - 7340))
            (864000 * F) 1000000 (by norm_num)
            (by rw [hcl]; simp only [intdate.ticks, ufpepoch, efrac]; omega)
            (by rw [hcl]; simp only [intdate.ticks, ufpepoch, efrac]; omega)
          have hc : ((ufpepoch + 19 * 172800000 + 7340 * 17280 + 864000 * (I - 7340) : ℕ) : ℚ)
              + ((864000 * F : ℕ) : ℚ) / (1000000 : ℕ)
              = (ufpepoch : ℚ) + refSeconds false 19 I ((I : ℚ) + (F : ℚ) / 10 ^ 6) := by
            have hle : 7340 ≤ I := by omega
            unfold refSeconds
            rw [if_neg (by decide), if_neg hb, if_pos ⟨rfl, h78⟩]
            push_cast [Nat.cast_sub hle]
            ring
          rw [hc] at hr
          exact ⟨by rw [hcl]; exact hlt _, hr.1, hr.2⟩
        · have hcl := sdinTime_film 19 I I F (by omega) (by omega) hF
            (Or.inl ⟨rfl, by omega, rfl⟩)
          rw [sdinFiddle_eq I F (by omega) (by omega) hF, if_pos (by omega)] at hcl
          simp only [] at hcl
          have hr := toRat_round_up (sdinTime false 19 I F)
            (ufpepoch + 19 * 172800000 + 7340 * 17280 + 500 * 864000 + 172800 * (I - 7840))
            (172800 * F) 1000000 (by norm_num)
            (by rw [hcl]; simp only [intdate.ticks, ufpepoch, efrac]; omega)
            (by rw [hcl]; simp only [intdate.ticks, ufpepoch, efrac]; omega)
          have hc : ((ufpepoch + 19 * 172800000 + 7340 * 17280 + 500 * 864000
                + 172800 * (I - 7840) : ℕ) : ℚ)
              + ((172800 * F : ℕ) : ℚ) / (1000000 : ℕ)
              = (ufpepoch : ℚ) + refSeconds false 19 I ((I : ℚ) + (F : ℚ) / 10 ^ 6) := by
            have hle : 7840 ≤ I := by omega
            unfold refSeconds
            rw [if_neg (by decide), if_neg hb, if_neg (by omega)]
            push_cast [Nat.cast_sub hle]
            ring
          rw [hc] at hr
          exact ⟨by rw [hcl]; exact hlt _, hr.1, hr.2⟩
    · subst h1 h2
      have hcl := sdinTime_film 20 I (I + 10000) F (by omega) (by omega) hF
        (Or.inr ⟨rfl, by omega, rfl⟩)
      rw [sdinFiddle_eq (I + 10000) F (by omega) (by omega) hF, if_pos (by omega)] at hcl
      simp only [] at hcl
      have hr := toRat_round_up (sdinTime false 20 I F)
        (ufpepoch + 19 * 172800000 + 7340 * 17280 + 500 * 864000 + 172800 * (I + 2160))
        (172800 * F) 1000000 (by norm_num)
        (by rw [hcl]; simp only [intdate.ticks, ufpepoch, efrac]; omega)
        (by rw [hcl]; simp only [intdate.ticks, ufpepoch, efrac]; omega)
      have hc : ((ufpepoch + 19 * 172800000 + 7340 * 17280 + 500 * 864000
            + 172800 * (I + 2160) : ℕ) : ℚ)
          + ((172800 * F : ℕ) : ℚ) / (1000000 : ℕ)
          = (ufpepoch : ℚ) + refSeconds false 20 I ((I : ℚ) + (F : ℚ) / 10 ^ 6) := by
        unfold refSeconds
        rw [if_neg (by decide), if_neg (by omega), if_neg (by omega)]
        push_cast
        ring
      rw [hc] at hr
      exact ⟨by rw [hcl]; exact hlt _, hr.1, hr.2⟩
    · subst h1
      rcases hpre with h | h
      · exact absurd h (by decide)
      · omega

theorem pre_tng_stardate_rate_witness :
    sdText false 19 7340 0 = "[19]7340.000000".toList
      ∧ ∃ dt, sdin [] (sdText false 19 7340 0) = .success dt false ∧ dt.frac < 2 ^ 32
        ∧ (ufpepoch : ℚ) + refSeconds false 19 7340 (((7340 : ℕ) : ℚ) + ((0 : ℕ) : ℚ) / 10 ^ 6)
            ≤ dt.toRat
        ∧ dt.toRat < (ufpepoch : ℚ)
            + refSeconds false 19 7340 (((7340 : ℕ) : ℚ) + ((0 : ℕ) : ℚ) / 10 ^ 6) + 1 / 2 ^ 32 :=
  ⟨by decide, (pre_tng_stardate_rate [] false 19 7340 0
    (Or.inr (Or.inl ⟨rfl, by decide, by decide⟩)) (Or.inr (by decide)) (by decide)).1⟩

/-- C10, the code at the failing inputs: the integer part 4294967296 is above 99999, but
`sdin` converts it to 32 bits before the comparison and decodes the token as [0]0000.0; an
issue that does not fit 64 bits leaves `errno` set for the comparison, so the token is refused
with the integer part named although the integer part is 0000; an integer part of 100000 is
refused. -/
theorem sdin_integer_cap_evaded (g : List Char) :
    sdin g "[0]4294967296.0".toList = .success ⟨ufpepoch, 0⟩ false
      ∧ sdin g "[0]0000.0".toList = .success ⟨ufpepoch, 0⟩ false
      ∧ sdin g "[18446744073709551616]0000.0".toList = .outOfRange .integerPart
      ∧ sdin g "[0]100000.0".toList = .outOfRange .integerPart :=
  ⟨rfl, rfl, rfl, rfl⟩

/-! ## Stardate arithmetic: decoding what was encoded -/

/-- Early units: the six digits printed for `X` ticks into a unit decode to at most `X`,
less than one millionth of 17280 s below. -/
theorem early_trunc (X : Nat) (hX : X < 17280 * 2 ^ 32) :
    X * 50 * 125 / 108 / 2 ^ 32 ≤ 999999
      ∧ efrac (X * 50 * 125 / 108 / 2 ^ 32) ≤ X
      ∧ (X - efrac (X * 50 * 125 / 108 / 2 ^ 32)) * 3125 < 54 * 2 ^ 32 := by
  unfold efrac; omega

/-- Units of 864000 s. -/
theorem film1_trunc (X F : Nat) (hX : X < 864000 * 2 ^ 32) (hF : F = X * 125 / 108 / 2 ^ 32) :
    F ≤ 999999
      ∧ 17280 * (F / 20000) * 2 ^ 32 + efrac (F % 20000 * 50) ≤ X
      ∧ (X - (17280 * (F / 20000) * 2 ^ 32 + efrac (F % 20000 * 50))) * 125 < 108 * 2 ^ 32 := by
  unfold efrac; omega

/-- Units of 172800 s. -/
theorem film2_trunc (X F : Nat) (hX : X < 172800 * 2 ^ 32)
    (hF : F = X * 5 * 125 / 108 / 2 ^ 32) :
    F ≤ 999999
      ∧ 17280 * (F / 20000 / 5) * 2 ^ 32
          + efrac (F % 20000 * 10 + F / 20000 % 5 * 200000) ≤ X
      ∧ (X - (17280 * (F / 20000 / 5) * 2 ^ 32
          + efrac (F % 20000 * 10 + F / 20000 % 5 * 200000))) * 625 < 108 * 2 ^ 32 := by
  unfold efrac; omega

/-- TNG units. -/
theorem tng_trunc (q frac U : Nat) (hq : q < 3155695200) (hf : frac < 2 ^ 32)
    (hU : U = (q * 125000000 + frac * 125000000 / 2 ^ 32) / 3944619) :
    U ≤ 99999999999
      ∧ U * 3944619 / 125000000 * 2 ^ 32
          + (U * 3944619 % 125000000 * 2 ^ 32 + 124999999) / 125000000 ≤ q * 2 ^ 32 + frac
      ∧ (q * 2 ^ 32 + frac - (U * 3944619 / 125000000 * 2 ^ 32
          + (U * 3944619 % 125000000 * 2 ^ 32 + 124999999) / 125000000)) * 125000000
          < 3944619 * 2 ^ 32 := by
  omega

theorem ticks_mk (sec frac : Nat) : (⟨sec, frac⟩ : intdate).ticks = sec * 2 ^ 32 + frac := rfl

/-- Decoding the six-digit output for a time from the stardate epoch up to [19]7340. -/
theorem sdin_sdout_tos (g : List Char) (sec frac : Nat) (h1 : ufpepoch ≤ sec)
    (h2 : sec < 71605036800) (hf : frac < 2 ^ 32) :
    ∃ t, sdin g (sdout 6 ⟨sec, frac⟩) = .success t false
      ∧ t.ticks ≤ sec * 2 ^ 32 + frac
      ∧ (sec * 2 ^ 32 + frac - t.ticks) * 3125 < 54 * 2 ^ 32 := by
  have hfl := sdoutFields_tos sec frac h1 h2 hf
  simp only [ufpepoch] at h1 hfl
  obtain ⟨d, hd⟩ : ∃ d, d = sec - 68195001600 := ⟨_, rfl⟩
  rw [← hd] at hfl
  obtain ⟨X, hX⟩ : ∃ X, X = d % 172800000 % 17280 * 2 ^ 32 + frac := ⟨_, rfl⟩
  rw [← hX] at hfl
  obtain ⟨hF, he1, he2⟩ := early_trunc X (by omega)
  obtain ⟨F, hFd⟩ : ∃ F, F = X * 50 * 125 / 108 / 2 ^ 32 := ⟨_, rfl⟩
  rw [← hFd] at hF he1 he2
  have hn : d / 172800000 ≤ 19 := by omega
  have hI : d % 172800000 / 17280 ≤ 9999 := by omega
  have hb : d / 172800000 < 19 ∨ d % 172800000 / 17280 < 7340 := by omega
  have htext := sdout_text_pre ⟨sec, frac⟩ false _ _ _ F (by simp only [tngepoch]; omega) hfl
    (by omega) hFd.symm hF
  have hin := sdin_canonical g false 4 (d / 172800000) (d % 172800000 / 17280) F (by omega)
    (by omega) (by intros; omega) (by intros; omega) hF
  rw [← htext] at hin
  rw [sdinTime_early _ _ F hn hI hb hF] at hin
  have hee := efrac_lt F hF
  generalize efrac F = e at *
  refine ⟨_, hin, ?_, ?_⟩
  · rw [ticks_mk]; simp only [ufpepoch]; omega
  · rw [ticks_mk]; simp only [ufpepoch]; omega

/-- Decoding the six-digit output for a time before the stardate epoch. -/
theorem sdin_sdout_neg (g : List Char) (sec frac : Nat) (h : sec < ufpepoch)
    (hf : frac < 2 ^ 32) :
    ∃ t, sdin g (sdout 6 ⟨sec, frac⟩) = .success t false
      ∧ t.ticks ≤ sec * 2 ^ 32 + frac
      ∧ (sec * 2 ^ 32 + frac - t.ticks) * 3125 < 54 * 2 ^ 32 := by
  have hfl := sdoutFields_neg sec frac h hf
  simp only [ufpepoch] at h hfl
  obtain ⟨d, hd⟩ : ∃ d, d = 68195001600 - sec - 1 := ⟨_, rfl⟩
  rw [← hd] at hfl
  obtain ⟨m, hm⟩ : ∃ m, m = 172800000 - 1 - d % 172800000 := ⟨_, rfl⟩
  rw [← hm] at hfl
  obtain ⟨X, hX⟩ : ∃ X, X = m % 17280 * 2 ^ 32 + frac := ⟨_, rfl⟩
  rw [← hX] at hfl
  obtain ⟨hF, he1, he2⟩ := early_trunc X (by omega)
  obtain ⟨F, hFd⟩ : ∃ F, F = X * 50 * 125 / 108 / 2 ^ 32 := ⟨_, rfl⟩
  rw [← hFd] at hF he1 he2
  have hn : 1 + d / 172800000 ≤ 395 := by omega
  have hI : m / 17280 ≤ 9999 := by omega
  have htext := sdout_text_pre ⟨sec, frac⟩ true _ _ _ F (by simp only [tngepoch]; omega) hfl
    (by omega) hFd.symm hF
  have hin := sdin_canonical g true 4 (1 + d / 172800000) (m / 17280) F (by omega)
    (by omega) (by intro h0; exact absurd h0 (by decide)) (by intros; omega) hF
  rw [← htext] at hin
  rw [sdinTime_neg _ _ F (by omega) hn hI hF (by simp only [ufpepoch]; omega)] at hin
  have hee := efrac_lt F hF
  generalize efrac F = e at *
  refine ⟨_, hin, ?_, ?_⟩
  · rw [ticks_mk]; simp only [ufpepoch]; omega
  · rw [ticks_mk]; simp only [ufpepoch]; omega

/-- Decoding the six-digit output for a time from [19]7340 up to [19]7840. -/
theorem sdin_sdout_film1 (g : List Char) (sec frac : Nat) (h1 : 71605036800 ≤ sec)
    (h2 : sec < 72037036800) (hf : frac < 2 ^ 32) :
    ∃ t, sdin g (sdout 6 ⟨sec, frac⟩) = .success t false
      ∧ t.ticks ≤ sec * 2 ^ 32 + frac
      ∧ (sec * 2 ^ 32 + frac - t.ticks) * 125 < 108 * 2 ^ 32 := by
  have hfl := sdoutFields_film1 sec frac h1 h2 hf
  obtain ⟨d, hd⟩ : ∃ d, d = sec - 71605036800 := ⟨_, rfl⟩
  rw [← hd] at hfl
  obtain ⟨X, hX⟩ : ∃ X, X = d % 864000 * 2 ^ 32 + frac := ⟨_, rfl⟩
  rw [← hX] at hfl
  obtain ⟨F, hFd⟩ : ∃ F, F = X * 125 / 108 / 2 ^ 32 := ⟨_, rfl⟩
  obtain ⟨hF, he1, he2⟩ := film1_trunc X F (by omega) hFd
  obtain ⟨I, hId⟩ : ∃ I, I = 7340 + d / 864000 := ⟨_, rfl⟩
  rw [← hId] at hfl
  have hI1 : 7340 ≤ I := by omega
  have hI2 : I < 7840 := by omega
  have htext := sdout_text_pre ⟨sec, frac⟩ false _ _ _ F (by simp only [tngepoch]; omega) hfl
    (by omega) hFd.symm hF
  have hin := sdin_canonical g false 4 19 I F (by omega)
    (by omega) (by intros; omega) (by intros; omega) hF
  rw [← htext] at hin
  rw [sdinTime_film 19 I I F hI1 (by omega) hF (Or.inl ⟨rfl, by omega, rfl⟩),
    sdinFiddle_eq I F hI1 (by omega) hF, if_neg (by omega)] at hin
  simp only [] at hin
  have hee := efrac_lt (F % 20000 * 50) (by omega)
  generalize efrac (F % 20000 * 50) = e at *
  refine ⟨_, hin, ?_, ?_⟩
  · rw [ticks_mk]; simp only [ufpepoch]; omega
  · rw [ticks_mk]; simp only [ufpepoch]; omega

/-- Decoding the six-digit output for a time from [19]7840 up to the TNG epoch. -/
theorem sdin_sdout_film2 (g : List Char) (sec frac : Nat) (h1 : 72037036800 ≤ sec)
    (h2 : sec < tngepoch) (hf : frac < 2 ^ 32) :
    ∃ t, sdin g (sdout 6 ⟨sec, frac⟩) = .success t false
      ∧ t.ticks ≤ sec * 2 ^ 32 + frac
      ∧ (sec * 2 ^ 32 + frac - t.ticks) * 625 < 108 * 2 ^ 32 := by
  have hfl := sdoutFields_film2 sec frac h1 h2 hf
  simp only [tngepoch] at h2
  obtain ⟨d, hd⟩ : ∃ d, d = sec - 72037036800 := ⟨_, rfl⟩
  rw [← hd] at hfl
  obtain ⟨X, hX⟩ : ∃ X, X = d % 172800 * 2 ^ 32 + frac := ⟨_, rfl⟩
  rw [← hX] at hfl
  obtain ⟨F, hFd⟩ : ∃ F, F = X * 5 * 125 / 108 / 2 ^ 32 := ⟨_, rfl⟩
  obtain ⟨hF, he1, he2⟩ := film2_trunc X F (by omega) hFd
  obtain ⟨J, hJd⟩ : ∃ J, J = 7840 + d / 172800 := ⟨_, rfl⟩
  rw [← hJd] at hfl
  have hJ1 : 7840 ≤ J := by omega
  have hJ2 : J ≤ 15005 := by omega
  have hee := efrac_lt (F % 20000 * 10 + F / 20000 % 5 * 200000) (by omega)
  have hfid := sdinFiddle_eq J F (by omega) hJ2 hF
  rw [if_pos hJ1] at hfid
  have htext := sdout_text_pre ⟨sec, frac⟩ false _ _ _ F (by simp only [tngepoch]; omega) hfl
    (by omega) hFd.symm hF
  by_cases hJ : J ≥ 10000
  · rw [if_pos hJ, if_pos hJ] at htext
    have hin := sdin_canonical g false 4 20 (J - 10000) F (by omega)
      (by omega) (by intros; omega) (by intros; omega) hF
    rw [← htext] at hin
    rw [sdinTime_film 20 (J - 10000) J F (by omega) hJ2 hF (Or.inr ⟨rfl, by omega, by omega⟩),
      hfid] at hin
    simp only [] at hin
    generalize efrac (F % 20000 * 10 + F / 20000 % 5 * 200000) = e at *
    refine ⟨_, hin, ?_, ?_⟩
    · rw [ticks_mk]; simp only [ufpepoch]; omega
    · rw [ticks_mk]; simp only [ufpepoch]; omega
  · rw [if_neg hJ, if_neg hJ] at htext
    have hin := sdin_canonical g false 4 19 J F (by omega)
      (by omega) (by intros; omega) (by intros; omega) hF
    rw [← htext] at hin
    rw [sdinTime_film 19 J J F (by omega) hJ2 hF (Or.inl ⟨rfl, by omega, rfl⟩), hfid] at hin
    simp only [] at hin
    generalize efrac (F % 20000 * 10 + F / 20000 % 5 * 200000) = e at *
    refine ⟨_, hin, ?_, ?_⟩
    · rw [ticks_mk]; simp only [ufpepoch]; omega
    · rw [ticks_mk]; simp only [ufpepoch]; omega

/-- Decoding the six-digit output for a time from the TNG epoch on. -/
theorem sdin_sdout_tng (g : List Char) (sec frac : Nat) (h1 : tngepoch ≤ sec)
    (h2 : sec < 2 ^ 64) (hf : frac < 2 ^ 32) :
    ∃ t, sdin g (sdout 6 ⟨sec, frac⟩) = .success t false
      ∧ t.ticks ≤ sec * 2 ^ 32 + frac
      ∧ (sec * 2 ^ 32 + frac - t.ticks) * 125000000 < 3944619 * 2 ^ 32 := by
  have hfl := tngFields_eq sec frac h1 h2 hf
  simp only [tngepoch] at h1 hfl
  obtain ⟨d, hd⟩ : ∃ d, d = sec - 73275321600 := ⟨_, rfl⟩
  rw [← hd] at hfl
  obtain ⟨q, hq⟩ : ∃ q, q = d % 3155695200 := ⟨_, rfl⟩
  rw [← hq] at hfl
  obtain ⟨U, hU⟩ : ∃ U, U = (q * 125000000 + frac * 125000000 / 2 ^ 32) / 3944619 := ⟨_, rfl⟩
  rw [← hU] at hfl
  obtain ⟨hUb, he1, he2⟩ := tng_trunc q frac U (by omega) hf hU
  obtain ⟨n, hn⟩ : ∃ n, n = 21 + d / 3155695200 := ⟨_, rfl⟩
  rw [← hn] at hfl
  have htext := sdout_text_tng ⟨sec, frac⟩ n U (by simp only [tngepoch]; omega) hfl hUb
  have hin := sdin_canonical g false 5 n (U / 1000000) (U % 1000000) (by omega)
    (by omega) (by intros; omega) (by intro h0; rcases h0 with h0 | h0
                                      · exact absurd h0 (by decide)
                                      · omega) (by omega)
  rw [← htext] at hin
  have hUU : U / 1000000 * 1000000 + U % 1000000 = U := by omega
  have hq2 : U * 3944619 / 125000000 ≤ q := by omega
  rw [sdinTime_tng n (U / 1000000) (U % 1000000) (by omega) (by omega) (by omega)
    (by rw [hUU]; simp only [tngepoch]; omega), hUU] at hin
  refine ⟨_, hin, ?_, ?_⟩
  · rw [ticks_mk]; simp only [tngepoch]; omega
  · rw [ticks_mk]; simp only [tngepoch]; omega

/-! ## Decoding the encoded time -/

/-- A gap counted in ticks of `2^-32` s, as a gap in seconds. -/
theorem toRat_gap (t u : intdate) (a b : Nat) (ha : 0 < a) (h1 : u.ticks ≤ t.ticks)
    (h2 : (t.ticks - u.ticks) * a < b * 2 ^ 32) :
    u.toRat ≤ t.toRat ∧ t.toRat - u.toRat < (b : ℚ) / a := by
  have haq : (0 : ℚ) < a := by exact_mod_cast ha
  have e : ∀ x : intdate, x.toRat = (x.ticks : ℚ) / 2 ^ 32 := by
    intro x
    unfold intdate.toRat intdate.ticks
    push_cast
    rw [add_div, mul_div_assoc]
    norm_num
  have h1q : (u.ticks : ℚ) ≤ t.ticks := by exact_mod_cast h1
  have h2q : ((t.ticks : ℚ) - u.ticks) * a < b * 2 ^ 32 := by
    have := h2
    have h3 : ((t.ticks - u.ticks : Nat) : ℚ) = (t.ticks : ℚ) - u.ticks := Nat.cast_sub h1
    rw [← h3]
    exact_mod_cast this
  rw [e t, e u]
  refine ⟨div_le_div_of_nonneg_right h1q (by positivity), ?_⟩
  rw [← sub_div, div_lt_div_iff₀ (by positivity) haq]
  exact h2q

/-- C3. Stardate decode(encode(t)) = t at the declared resolution: for every internal time
`t` (seconds below 2^64, fraction below 2^32) `sdin` succeeds on the precision-6 output of
`sdout`, and the decoded time `u` is at most `t` and less than one millionth of a stardate
unit of the era of `t` below it; when `t` is the decode of a valid six-digit stardate, the
decoded time is `t` itself. -/
theorem stardate_decode_encode (g : List Char) (t : intdate) (hs : t.sec < 2 ^ 64)
    (hf : t.frac < 2 ^ 32) :
    (∃ u, sdin g (sdout 6 t) = .success u false ∧ u.toRat ≤ t.toRat
        ∧ t.toRat - u.toRat < sdResolution t)
      ∧ ∀ neg n I F, ValidStardate neg n I → F ≤ 999999 →
          sdin g (sdText neg n I F) = .success t false →
          sdin g (sdout 6 t) = .success t false := by
  constructor
  · obtain ⟨sec, frac⟩ := t
    simp only at hs hf
    unfold sdResolution
    simp only
    by_cases c1 : sec < 71605036800
    · rw [if_pos c1]
      have key : ∃ u, sdin g (sdout 6 ⟨sec, frac⟩) = .success u false
          ∧ u.ticks ≤ sec * 2 ^ 32 + frac
          ∧ (sec * 2 ^ 32 + frac - u.ticks) * 3125 < 54 * 2 ^ 32 := by
        by_cases c0 : sec < ufpepoch
        · exact sdin_sdout_neg g sec frac c0 hf
        · exact sdin_sdout_tos g sec frac (by omega) c1 hf
      obtain ⟨u, hu, k1, k2⟩ := key
      have := toRat_gap ⟨sec, frac⟩ u 3125 54 (by norm_num) k1 k2
      refine ⟨u, hu, this.1, lt_of_lt_of_eq this.2 (by norm_num)⟩
    · rw [if_neg c1]
      by_cases c2 : sec < 72037036800
      · rw [if_pos c2]
        obtain ⟨u, hu, k1, k2⟩ := sdin_sdout_film1 g sec frac (by omega) c2 hf
        have := toRat_gap ⟨sec, frac⟩ u 125 108 (by norm_num) k1 k2
        refine ⟨u, hu, this.1, lt_of_lt_of_eq this.2 (by norm_num)⟩
      · rw [if_neg c2]
        by_cases c3 : sec < tngepoch
        · rw [if_pos c3]
          obtain ⟨u, hu, k1, k2⟩ := sdin_sdout_film2 g sec frac (by omega) c3 hf
          have := toRat_gap ⟨sec, frac⟩ u 625 108 (by norm_num) k1 k2
          refine ⟨u, hu, this.1, lt_of_lt_of_eq this.2 (by norm_num)⟩
        · rw [if_neg c3]
          obtain ⟨u, hu, k1, k2⟩ := sdin_sdout_tng g sec frac (by omega) hs hf
          have := toRat_gap ⟨sec, frac⟩ u 125000000 3944619 (by norm_num) k1 k2
          refine ⟨u, hu, this.1, lt_of_lt_of_eq this.2 (by norm_num)⟩
  · intro neg n I F hv hF hin
    have h1 := sdin_sdText g neg n I F hv hF
    rw [h1] at hin
    have ht : sdinTime neg n I F = t := by
      injection hin
    rw [← ht, sdout_sdinTime neg n I F hv hF]
    exact h1

theorem stardate_decode_encode_witness :
    (∃ u, sdin [] (sdout 6 ⟨71605036801, 1⟩) = .success u false
        ∧ u.toRat ≤ intdate.toRat ⟨71605036801, 1⟩
        ∧ intdate.toRat ⟨71605036801, 1⟩ - u.toRat < sdResolution ⟨71605036801, 1⟩)
      ∧ ∀ neg n I F, ValidStardate neg n I → F ≤ 999999 →
          sdin [] (sdText neg n I F) = .success ⟨71605036801, 1⟩ false →
          sdin [] (sdout 6 ⟨71605036801, 1⟩) = .success ⟨71605036801, 1⟩ false :=
  stardate_decode_encode [] ⟨71605036801, 1⟩ (by norm_num) (by norm_num)

/-! ## The Quadcent calendar -/

/-- The scaling of `qcin` from nominal seconds of a 365-day year to real seconds of a
Quadcent year, and the scaling back of `qcout`: `31556952 = 216 * 146097` and
`31536000 = 216 * 146000`. -/
theorem qc_scale (x q r f : Nat) (hx : x < 31536000) (hq : q = x * 31556952 / 31536000)
    (hr : r = x * 31556952 % 31536000) (hf : f = (r * 2 ^ 32 + 31535999) / 31536000) :
    f < 2 ^ 32 ∧ q < 31556952 ∧ (q * 146000 + f * 146000 / 2 ^ 32) / 146097 = x := by
  omega

theorem mdays_false : mdays false = nrmdays := rfl

/-- The time that `qcin` computes from the fields that `readcal` has read, for years up to
10^11 + 400. -/
theorem qcin_of_readcal_wide (date : List Char) (Y M D h mi s x : Nat) (e : Bool)
    (hrc : readcal date '*' =
      .success { year := Y, month := M, day := D, hour := h, min := mi, sec := s } e)
    (hY : 1 ≤ Y) (hY2 : Y ≤ 10 ^ 11 + 400) (hM : 1 ≤ M) (hM2 : M ≤ 12)
    (hD : 1 ≤ D) (hD2 : D ≤ idx (mdays false) (M - 1))
    (hh : h < 24) (hmi : mi < 60) (hs : s < 60)
    (hx : x = (cumDays false (M - 1) + (D - 1)) * 86400 + h * 3600 + mi * 60 + s) :
    qcin date = .success
      ⟨if Y < 323 then 10161417600 + (Y + 77) * 31556952 + x * 31556952 / 31536000 - 12622780800
        else 10161417600 + (Y - 323) * 31556952 + x * 31556952 / 31536000,
       (x * 31556952 % 31536000 * 2 ^ 32 + 31535999) / 31536000⟩ e := by
  have h10 : (10 : Nat) ^ 11 = 100000000000 := by norm_num
  have hD31 := idx_mdays_le false (M - 1)
  have hcum := cumDays_add_lt false (M - 1) (D - 1) (by omega) (by omega)
  have hlen : ylen false = 365 := rfl
  rw [hlen] at hcum
  have hx2 : x < 31536000 := by omega
  have hD1 : u32 (D - 1) = D - 1 := u32_of_lt (D - 1) (by omega)
  have hloop := monthLoop_eq false (M - 1) (D - 1) (by omega) (by omega)
  rw [mdays_false] at hloop
  rw [mdays_false] at hD2
  obtain ⟨hf, hq, -⟩ := qc_scale x _ _ _ hx2 rfl rfl rfl
  simp only [qcin, hrc, not_lt.2 hD2, if_false, hD1, hloop, QCYEAR, STDYEAR, qcepoch, quadcent,
    shl32]
  rw [Nat.add_comm (D - 1) (cumDays false (M - 1)), ← hx]
  generalize cumDays false (M - 1) = cd at *
  clear hloop hrc
  have hr : x * 31556952 % 31536000 < 31536000 := Nat.mod_lt _ (by norm_num)
  generalize hqd : x * 31556952 / 31536000 = q at *
  generalize hrd : x * 31556952 % 31536000 = r at *
  generalize hfd : (r * 2 ^ 32 + 31535999) / 31536000 = f at *
  have e1 : x % 2 ^ 64 = x := Nat.mod_eq_of_lt (by omega)
  have e2 : mul64 x 31556952 = x * 31556952 := mul64_of_lt _ _ (by omega)
  have e3 : r * 2 ^ 32 % 2 ^ 64 = r * 2 ^ 32 := Nat.mod_eq_of_lt (by omega)
  have e4 : add64 (r * 2 ^ 32) (31536000 - 1) = r * 2 ^ 32 + 31535999 :=
    add64_of_lt _ _ (by omega)
  rw [e1, e2, hqd, hrd, e3, e4, hfd, u32_of_lt f hf]
  by_cases hl : Y < 323
  · simp only [hl, decide_True, if_true]
    simp (disch := omega) only [sub64_of_le, mul64_of_lt, add64_of_lt]
  · simp only [hl, decide_False, if_false, Bool.false_eq_true]
    simp (disch := omega) only [sub64_of_le, mul64_of_lt, add64_of_lt]

/-- The time that `qcin` computes from the fields that `readcal` has read. -/
theorem qcin_of_readcal (date : List Char) (Y M D h mi s x : Nat) (e : Bool)
    (hrc : readcal date '*' =
      .success { year := Y, month := M, day := D, hour := h, min := mi, sec := s } e)
    (hY : 1 ≤ Y) (hY2 : Y ≤ 10 ^ 11) (hM : 1 ≤ M) (hM2 : M ≤ 12)
    (hD : 1 ≤ D) (hD2 : D ≤ idx (mdays false) (M - 1))
    (hh : h < 24) (hmi : mi < 60) (hs : s < 60)
    (hx : x = (cumDays false (M - 1) + (D - 1)) * 86400 + h * 3600 + mi * 60 + s) :
    qcin date = .success
      ⟨if Y < 323 then 10161417600 + (Y + 77) * 31556952 + x * 31556952 / 31536000 - 12622780800
        else 10161417600 + (Y - 323) * 31556952 + x * 31556952 / 31536000,
       (x * 31556952 % 31536000 * 2 ^ 32 + 31535999) / 31536000⟩ e :=
  qcin_of_readcal_wide date Y M D h mi s x e hrc hY (by omega) hM hM2 hD hD2 hh hmi hs hx

/-- The walk of `docalout` for a Quadcent date: every year has the months of cycle
year 1, which is not a leap year. -/
theorem qcout_walk (sep : Char) (Y M D h mi s x : Nat) (hM : 1 ≤ M) (hM2 : M ≤ 12)
    (hD : 1 ≤ D) (hD2 : D ≤ idx (mdays false) (M - 1))
    (hh : h < 24) (hmi : mi < 60) (hs : s < 60)
    (hx : x = (cumDays false (M - 1) + (D - 1)) * 86400 + h * 3600 + mi * 60 + s) :
    docalout sep false 1 Y (x / 86400) (x % 86400) = some (calfmt sep Y M D h mi s) := by
  have hl : isLeap false 1 = false := rfl
  have e1 : x / 86400 = cumDays false (M - 1) + (D - 1) := by omega
  have e2 : x % 86400 = 3600 * h + 60 * mi + s := by omega
  have hw := monthWalk_same false 1 Y (M - 1) (D - 1) (x / 86400) (by omega)
    (by rw [hl]; omega) (by rw [hl]; exact e1)
  have := docalout_of_walk sep false 1 Y (x / 86400) (x % 86400) Y (M - 1) (D - 1) h mi s hw e2
    hmi hs
  rw [Nat.sub_add_cancel hM, Nat.sub_add_cancel hD] at this
  exact this

/-- The text that `qcout` prints for the time that `qcin` computes. -/
theorem qcout_of_fields (Y M D h mi s x : Nat)
    (hY : 1 ≤ Y) (hY2 : Y ≤ 10 ^ 11) (hM : 1 ≤ M) (hM2 : M ≤ 12)
    (hD : 1 ≤ D) (hD2 : D ≤ idx (mdays false) (M - 1))
    (hh : h < 24) (hmi : mi < 60) (hs : s < 60)
    (hx : x = (cumDays false (M - 1) + (D - 1)) * 86400 + h * 3600 + mi * 60 + s) :
    qcout
      ⟨if Y < 323 then 10161417600 + (Y + 77) * 31556952 + x * 31556952 / 31536000 - 12622780800
        else 10161417600 + (Y - 323) * 31556952 + x * 31556952 / 31536000,
       (x * 31556952 % 31536000 * 2 ^ 32 + 31535999) / 31536000⟩
      = some (calfmt '*' Y M D h mi s) := by
  have h10 : (10 : Nat) ^ 11 = 100000000000 := by norm_num
  have hwalk := qcout_walk '*' Y M D h mi s x hM hM2 hD hD2 hh hmi hs hx
  have hcum := cumDays_add_lt false (M - 1) (D - 1) (by omega) (by omega)
  have hlen : ylen false = 365 := rfl
  rw [hlen] at hcum
  have hx2 : x < 31536000 := by omega
  clear hx hcum hlen hD2 hM hM2 hD hh hmi hs
  obtain ⟨hf, hq, hback⟩ := qc_scale x _ _ _ hx2 rfl rfl rfl
  generalize x * 31556952 / 31536000 = q at *
  generalize (x * 31556952 % 31536000 * 2 ^ 32 + 31535999) / 31536000 = f at *
  have hl146 : f * 146000 / 2 ^ 32 < 146000 := by omega
  generalize hld : f * 146000 / 2 ^ 32 = l at *
  unfold qcout
  simp only [qcepoch, quadcent, QCYEAR, shr32]
  by_cases hl : Y < 323
  · have c1 : 10161417600 + (Y + 77) * 31556952 + q - 12622780800 < 10161417600 := by omega
    have c2 : 10161417600 + (Y + 77) * 31556952 + q - 12622780800 + 12622780800 - 10161417600
        = (Y + 77) * 31556952 + q := by omega
    have c5 : Y + 77 - (400 - 323) = Y := by omega
    have c3 : ((Y + 77) * 31556952 + q) % 31556952 = q := by omega
    have c4 : ((Y + 77) * 31556952 + q) / 31556952 = Y + 77 := by omega
    simp only [hl, if_true, c1, decide_True]
    simp (disch := omega) only [sub64_of_le, mul64_of_lt, add64_of_lt, u32_of_lt, hld]
    rw [c2, c3, c4, c5, hback]
    exact hwalk
  · have c1 : ¬ (10161417600 + (Y - 323) * 31556952 + q < 10161417600) := by omega
    have c3 : ((Y - 323) * 31556952 + q) % 31556952 = q := by omega
    have c4 : ((Y - 323) * 31556952 + q) / 31556952 = Y - 323 := by omega
    have c2 : 10161417600 + (Y - 323) * 31556952 + q - 10161417600
        = (Y - 323) * 31556952 + q := by omega
    have c5 : Y - 323 + 323 = Y := by omega
    simp only [hl, if_false, c1, decide_False, Bool.false_eq_true]
    simp (disch := omega) only [sub64_of_le, mul64_of_lt, add64_of_lt, u32_of_lt, hld]
    rw [c2, c3, c4, c5, hback]
    exact hwalk

/-- C7. Quadcent decode-then-encode round trip: for every Quadcent date-time with year
1..10^11 (below 323, the cycle boundary 323 and beyond), month 1..12, day from 1 to the
length of the month in a non-leap year, hour 0..23, minute 0..59 and second 0..59, the
canonical text `YYYY*MM*DDThh:mm:ss` reads as these fields, and for every text that reads as
these fields `qcin` succeeds and `qcout` of the decoded time is the canonical text, with the
same year, month, day, hour, minute and second. -/
theorem quadcent_round_trip (Y M D h mi s : Nat) (hY : 1 ≤ Y ∧ Y ≤ 10 ^ 11)
    (hM : 1 ≤ M ∧ M ≤ 12) (hD : 1 ≤ D ∧ D ≤ idx nrmdays (M - 1)) (hh : h ≤ 23)
    (hmi : mi ≤ 59) (hs : s ≤ 59) :
    readcal (calfmt '*' Y M D h mi s) '*' =
        .success { year := Y, month := M, day := D, hour := h, min := mi, sec := s } false
      ∧ ∀ date, readcal date '*' =
          .success { year := Y, month := M, day := D, hour := h, min := mi, sec := s } false →
        ∃ dt, qcin date = .success dt false ∧ qcout dt = some (calfmt '*' Y M D h mi s) := by
  have h10 : (10 : Nat) ^ 11 = 100000000000 := by norm_num
  have hD2 : D ≤ idx (mdays false) (M - 1) := by rw [mdays_false]; exact hD.2
  have hD31 := idx_mdays_le false (M - 1)
  refine ⟨readcal_calfmt '*' Y M D h mi s (by decide) (by omega) hM ⟨hD.1, by omega⟩
    (by omega) (by omega) (by omega), ?_⟩
  intro date hrc
  exact ⟨_, qcin_of_readcal date Y M D h mi s _ false hrc hY.1 hY.2 hM.1 hM.2 hD.1 hD2
      (by omega) (by omega) (by omega) rfl,
    qcout_of_fields Y M D h mi s _ hY.1 hY.2 hM.1 hM.2 hD.1 hD2 (by omega) (by omega)
      (by omega) rfl⟩

theorem quadcent_round_trip_witness :
    calfmt '*' 323 12 31 23 59 59 = "0323*12*31T23:59:59".toList
      ∧ ∃ dt, qcin (calfmt '*' 323 12 31 23 59 59) = .success dt false
        ∧ qcout dt = some (calfmt '*' 323 12 31 23 59 59) :=
  ⟨by decide,
    (quadcent_round_trip 323 12 31 23 59 59 (by decide) (by decide) (by decide) (by decide)
      (by decide) (by decide)).2 _
      (quadcent_round_trip 323 12 31 23 59 59 (by decide) (by decide) (by decide) (by decide)
        (by decide) (by decide)).1⟩

/-! ## The grammars of the five formats -/

theorem matched_iff {α : Type} (o : Outcome α) : o.matched = true ↔ o ≠ .unmatched := by
  cases o <;> simp [Outcome.matched]

/-- A token that `sdin` does not return 0 for starts with `[`. -/
theorem sdin_matched (g s : List Char) (h : (sdin g s).matched = true) : hd s = '[' := by
  by_contra hc
  rw [sdin, if_pos hc] at h
  exact absurd h (by decide)

/-- A token that `readcal` does not return 0 for starts with a digit, and its first run of
digits is followed by the separator. -/
theorem readcal_matched (s : List Char) (sep : Char) (h : (readcal s sep).matched = true) :
    isdigit (hd s) = true ∧ hd ((tl s).dropWhile isdigit) = sep := by
  by_contra hc
  apply absurd h
  unfold readcal
  by_cases h1 : isdigit (hd s) = true
  · have h2 : hd ((tl s).dropWhile isdigit) ≠ sep := fun h2 => hc ⟨h1, h2⟩
    rw [if_neg (by simp [h1])]
    simp only []
    rw [if_pos (Or.inl h2)]
    decide
  · rw [if_pos (by simpa using h1)]
    decide

theorem calin_matched (s : List Char) (gp : Bool) (h : (calin s gp).matched = true) :
    (readcal s (if gp then '-' else '=')).matched = true := by
  unfold calin at h
  cases hr : readcal s (if gp then '-' else '=') with
  | unmatched => rw [hr] at h; exact h
  | outOfRange d => rfl
  | success c e => rfl

theorem qcin_matched (s : List Char) (h : (qcin s).matched = true) :
    (readcal s '*').matched = true := by
  unfold qcin at h
  cases hr : readcal s '*' with
  | unmatched => rw [hr] at h; exact h
  | outOfRange d => rfl
  | success c e => rfl

/-- A token that `unixin` does not return 0 for starts with `u` or `U`. -/
theorem unixin_matched (s : List Char) (h : (unixin s).matched = true) :
    hd s = 'u' ∨ hd s = 'U' := by
  by_contra hc
  have hc2 : hd s ≠ 'u' ∧ hd s ≠ 'U' := by
    constructor
    · exact fun h1 => hc (Or.inl h1)
    · exact fun h1 => hc (Or.inr h1)
  unfold unixin at h
  simp only [] at h
  rw [if_pos hc2] at h
  exact absurd h (by decide)

/-- The first character, and for a calendar token the separator after the year, that each
decoder asks for. -/
theorem decoder_starts (g s : List Char) :
    ((sdin g s).matched = true → hd s = '[')
      ∧ ((julin s).matched = true → isdigit (hd s) = true ∧ hd ((tl s).dropWhile isdigit) = '=')
      ∧ ((gregin s).matched = true → isdigit (hd s) = true ∧ hd ((tl s).dropWhile isdigit) = '-')
      ∧ ((qcin s).matched = true → isdigit (hd s) = true ∧ hd ((tl s).dropWhile isdigit) = '*')
      ∧ ((unixin s).matched = true → hd s = 'u' ∨ hd s = 'U') :=
  ⟨sdin_matched g s,
    fun h => readcal_matched s '=' (calin_matched s false h),
    fun h => readcal_matched s '-' (calin_matched s true h),
    fun h => readcal_matched s '*' (qcin_matched s h),
    unixin_matched s⟩

/-- No two of the five decoders match the same token. -/
theorem decoders_exclusive (g s : List Char) :
    ¬ ((sdin g s).matched = true ∧ (julin s).matched = true)
      ∧ ¬ ((sdin g s).matched = true ∧ (gregin s).matched = true)
      ∧ ¬ ((sdin g s).matched = true ∧ (qcin s).matched = true)
      ∧ ¬ ((sdin g s).matched = true ∧ (unixin s).matched = true)
      ∧ ¬ ((julin s).matched = true ∧ (gregin s).matched = true)
      ∧ ¬ ((julin s).matched = true ∧ (qcin s).matched = true)
      ∧ ¬ ((julin s).matched = true ∧ (unixin s).matched = true)
      ∧ ¬ ((gregin s).matched = true ∧ (qcin s).matched = true)
      ∧ ¬ ((gregin s).matched = true ∧ (unixin s).matched = true)
      ∧ ¬ ((qcin s).matched = true ∧ (unixin s).matched = true) := by
  obtain ⟨h1, h2, h3, h4, h5⟩ := decoder_starts g s
  have d1 : isdigit '[' = false := by decide
  have d2 : isdigit 'u' = false := by decide
  have d3 : isdigit 'U' = false := by decide
  have e1 : ('[' : Char) ≠ 'u' := by decide
  have e2 : ('[' : Char) ≠ 'U' := by decide
  have e3 : ('=' : Char) ≠ '-' := by decide
  have e4 : ('=' : Char) ≠ '*' := by decide
  have e5 : ('-' : Char) ≠ '*' := by decide
  refine ⟨?_, ?_, ?_, ?_, ?_, ?_, ?_, ?_, ?_, ?_⟩
  · rintro ⟨a, b⟩; have := (h2 b).1; rw [h1 a, d1] at this; exact absurd this (by decide)
  · rintro ⟨a, b⟩; have := (h3 b).1; rw [h1 a, d1] at this; exact absurd this (by decide)
  · rintro ⟨a, b⟩; have := (h4 b).1; rw [h1 a, d1] at this; exact absurd this (by decide)
  · rintro ⟨a, b⟩
    rcases h5 b with h | h
    · rw [h1 a] at h; exact e1 h
    · rw [h1 a] at h; exact e2 h
  · rintro ⟨a, b⟩; exact e3 ((h2 a).2.symm.trans (h3 b).2)
  · rintro ⟨a, b⟩; exact e4 ((h2 a).2.symm.trans (h4 b).2)
  · rintro ⟨a, b⟩
    have := (h2 a).1
    rcases h5 b with h | h
    · rw [h, d2] at this; exact absurd this (by decide)
    · rw [h, d3] at this; exact absurd this (by decide)
  · rintro ⟨a, b⟩; exact e5 ((h3 a).2.symm.trans (h4 b).2)
  · rintro ⟨a, b⟩
    have := (h3 a).1
    rcases h5 b with h | h
    · rw [h, d2] at this; exact absurd this (by decide)
    · rw [h, d3] at this; exact absurd this (by decide)
  · rintro ⟨a, b⟩
    have := (h4 a).1
    rcases h5 b with h | h
    · rw [h, d2] at this; exact absurd this (by decide)
    · rw [h, d3] at this; exact absurd this (by decide)

/-- The decoder loop returns the outcome of a decoder of the table that matches, when at
most one outcome other than Unmatched can come from the table. -/
theorem decodeLoop_perm (date : List Char) (l1 l2 : List (Option (List Char → Outcome intdate)))
    (hp : l1.Perm l2)
    (hex : ∀ f1 f2, some f1 ∈ l1 → some f2 ∈ l1 → (f1 date).matched = true →
      (f2 date).matched = true → f1 date = f2 date) :
    decodeLoop l1 date = decodeLoop l2 date := by
  induction hp with
  | nil => rfl
  | cons x _ ih =>
    have ih1 := ih (fun f1 f2 m1 m2 => hex f1 f2 (List.mem_cons_of_mem _ m1)
      (List.mem_cons_of_mem _ m2))
    cases x with
    | none => exact ih1
    | some f => simp only [decodeLoop]; rw [ih1]
  | swap x y l =>
    cases x with
    | none =>
      cases y with
      | none => rfl
      | some f => rfl
    | some f1 =>
      cases y with
      | none => rfl
      | some f2 =>
        have hh := hex f1 f2 (List.mem_cons_of_mem _ (List.mem_cons_self _ _))
          (List.mem_cons_self _ _)
        simp only [decodeLoop]
        cases h1 : f1 date with
        | unmatched => rfl
        | outOfRange d1 =>
          cases h2 : f2 date with
          | unmatched => rfl
          | outOfRange d2 =>
            have := hh (by rw [h1]; rfl) (by rw [h2]; rfl)
            rw [h1, h2] at this
            rw [this]
          | success t2 e2 =>
            have := hh (by rw [h1]; rfl) (by rw [h2]; rfl)
            rw [h1, h2] at this
            exact absurd this (by simp)
        | success t1 e1 =>
          cases h2 : f2 date with
          | unmatched => rfl
          | outOfRange d2 =>
            have := hh (by rw [h1]; rfl) (by rw [h2]; rfl)
            rw [h1, h2] at this
            exact absurd this (by simp)
          | success t2 e2 =>
            have := hh (by rw [h1]; rfl) (by rw [h2]; rfl)
            rw [h1, h2] at this
            rw [this]
  | trans p1 _ ih1 ih2 =>
    rw [ih1 hex]
    exact ih2 (fun f1 f2 m1 m2 => hex f1 f2 (p1.mem_iff.2 m1) (p1.mem_iff.2 m2))

theorem unmatched_of_not_matched {α : Type} (o : Outcome α) (h : ¬ o.matched = true) :
    o = .unmatched := by
  cases o with
  | unmatched => rfl
  | outOfRange d => exact absurd rfl h
  | success t e => exact absurd rfl h

/-- C11. The format grammars are mutually exclusive: for every input string (and whatever
the buffer of `sdin` holds) at most one of `sdin`, `julin`, `gregin`, `qcin`, `unixin`
returns an outcome other than Unmatched; the decoder loop of `main` gives the same result
over every reordering of the table of decoders; and a string whose first character is not
`[`, a digit, `u` or `U` is Unmatched by all five. -/
theorem grammars_mutually_exclusive (g s : List Char) :
    ([sdin g s, julin s, gregin s, qcin s, unixin s].map Outcome.matched).count true ≤ 1
      ∧ (∀ l, l.Perm (formats g) → decodeLoop l s = decodeLoop (formats g) s)
      ∧ (hd s ≠ '[' → isdigit (hd s) = false → hd s ≠ 'u' → hd s ≠ 'U' →
          sdin g s = .unmatched ∧ julin s = .unmatched ∧ gregin s = .unmatched
            ∧ qcin s = .unmatched ∧ unixin s = .unmatched) := by
  obtain ⟨x1, x2, x3, x4, x5, x6, x7, x8, x9, x10⟩ := decoders_exclusive g s
  obtain ⟨h1, h2, h3, h4, h5⟩ := decoder_starts g s
  refine ⟨?_, ?_, ?_⟩
  · simp only [List.map_cons, List.map_nil]
    generalize (sdin g s).matched = b1 at *
    generalize (julin s).matched = b2 at *
    generalize (gregin s).matched = b3 at *
    generalize (qcin s).matched = b4 at *
    generalize (unixin s).matched = b5 at *
    clear h1 h2 h3 h4 h5
    cases b1 <;> cases b2 <;> cases b3 <;> cases b4 <;> cases b5 <;>
      first
        | decide
        | exact absurd (by decide) x1
        | exact absurd (by decide) x2
        | exact absurd (by decide) x3
        | exact absurd (by decide) x4
        | exact absurd (by decide) x5
        | exact absurd (by decide) x6
        | exact absurd (by decide) x7
        | exact absurd (by decide) x8
        | exact absurd (by decide) x9
        | exact absurd (by decide) x10
  · intro l hl
    apply decodeLoop_perm s l (formats g) hl
    intro f1 f2 m1 m2 a1 a2
    have n1 := hl.mem_iff.1 m1
    have n2 := hl.mem_iff.1 m2
    simp only [formats, List.mem_cons, Option.some.injEq, List.mem_singleton, reduceCtorEq,
      or_false, List.not_mem_nil] at n1 n2
    rcases n1 with rfl | rfl | rfl | rfl | rfl <;> rcases n2 with rfl | rfl | rfl | rfl | rfl <;>
      first
        | rfl
        | exact absurd (And.intro a1 a2) (by assumption)
        | exact absurd (And.intro a2 a1) (by assumption)
  · intro n1 n2 n3 n4
    have nd : ¬ isdigit (hd s) = true := by rw [n2]; decide
    refine ⟨unmatched_of_not_matched _ (fun a => n1 (h1 a)),
      unmatched_of_not_matched _ (fun a => nd (h2 a).1),
      unmatched_of_not_matched _ (fun a => nd (h3 a).1),
      unmatched_of_not_matched _ (fun a => nd (h4 a).1),
      unmatched_of_not_matched _ (fun a => ?_)⟩
    rcases h5 a with h | h
    · exact n3 h
    · exact n4 h

theorem grammars_mutually_exclusive_witness :
    sdin [] "garbage".toList = .unmatched ∧ julin "garbage".toList = .unmatched
      ∧ gregin "garbage".toList = .unmatched ∧ qcin "garbage".toList = .unmatched
      ∧ unixin "garbage".toList = .unmatched :=
  (grammars_mutually_exclusive [] "garbage".toList).2.2 (by decide) (by decide) (by decide)
    (by decide)

/-! ## A stardate without a fraction -/

/-- C12, the code at the failing input: on a token without `.` the fraction that `sdin`
converts is whatever the array `fracbuf` holds on entry, since the array is filled with
`000000` only inside the branch for `.`: [19]7340 decodes to the time of [19]7340.000000
when the array holds `000000`, and to a time 432000 s later when it holds `500000`. -/
theorem sdin_fraction_uninitialised (g : List Char) :
    sdin g "[19]7340".toList = .success (sdinTime false 19 7340 (u32 (strtoul g 10).1)) false
      ∧ sdin g "[19]7340.000000".toList = .success ⟨71605036800, 0⟩ false
      ∧ sdin "000000".toList "[19]7340".toList = .success ⟨71605036800, 0⟩ false
      ∧ sdin "500000".toList "[19]7340".toList = .success ⟨71605468800, 0⟩ false :=
  ⟨rfl, rfl, rfl, rfl⟩

/-! ## Unix time in two radices -/

theorem ishex_iff (c : Char) : ishex c = true ↔
    (48 ≤ c.toNat ∧ c.toNat ≤ 57) ∨ (97 ≤ c.toNat ∧ c.toNat ≤ 102)
      ∨ (65 ≤ c.toNat ∧ c.toNat ≤ 70) := by
  simp [ishex, isdigit, or_assoc]

theorem digitVal_of_ishex (c : Char) (h : ishex c = true) :
    digitVal c = hexDigit c ∧ hexDigit c < 16 := by
  rw [ishex_iff] at h
  unfold digitVal hexDigit
  by_cases hd : isdigit c = true
  · rw [if_pos hd, if_pos hd]
    have := (isdigit_iff c).1 hd
    exact ⟨rfl, by omega⟩
  · have hd2 : ¬ (48 ≤ c.toNat ∧ c.toNat ≤ 57) := fun h1 => hd ((isdigit_iff c).2 h1)
    rw [if_neg hd, if_neg hd]
    by_cases hl : 97 ≤ c.toNat
    · have hl2 : c.toNat ≤ 122 := by omega
      simp only [hl, hl2, decide_True, Bool.and_self, if_true]
      omega
    · have hu1 : 65 ≤ c.toNat := by omega
      have hu2 : c.toNat ≤ 90 := by omega
      simp only [hl, hu1, hu2, decide_False, decide_True, Bool.false_and, Bool.and_self, if_true,
        if_false, Bool.false_eq_true]
      omega

theorem ishex_not_digit_radix (c : Char) (h : ishex c = false) : ¬ digitVal c < 16 := by
  intro hlt
  have hn : ¬ ishex c = true := by rw [h]; decide
  rw [ishex_iff] at hn
  unfold digitVal at hlt
  by_cases hd : isdigit c = true
  · exact hn (Or.inl ((isdigit_iff c).1 hd))
  · rw [if_neg hd] at hlt
    split_ifs at hlt with h1 h2
    · simp only [Bool.and_eq_true, decide_eq_true_eq] at h1; omega
    · simp only [Bool.and_eq_true, decide_eq_true_eq] at h2; omega
    · omega

/-- The digits that `strtoull` reads in radix 16. -/
theorem scanDigits_hex (hs rest : List Char) (acc : Nat) (hhs : HexDigits hs)
    (hrest : ishex (hd rest) = false) :
    scanDigits 16 (hs ++ rest) acc = (hs.length, hexFold hs acc, rest) := by
  induction hs generalizing acc with
  | nil =>
    cases rest with
    | nil => rfl
    | cons c cs =>
      have : ¬ digitVal c < 16 := ishex_not_digit_radix c (by simpa [hd] using hrest)
      simp [scanDigits, this, hexFold]
  | cons d ds ih =>
    have hd1 : ishex d = true := hhs d (List.mem_cons_self _ _)
    obtain ⟨hv, hlt⟩ := digitVal_of_ishex d hd1
    have hds1 : HexDigits ds := fun c hc => hhs c (List.mem_cons_of_mem _ hc)
    rw [List.cons_append, scanDigits, if_pos (by rw [hv]; exact hlt), ih _ hds1, hv]
    rfl

theorem hd_hex_ne (ds : List Char) (hds : HexDigits ds) (c : Char) (hc : ishex c = false)
    (hc0 : c ≠ Char.ofNat 0) : hd ds ≠ c := by
  cases ds with
  | nil => exact fun h => hc0 h.symm
  | cons d ds1 =>
    have h1 : ishex d = true := hds d (List.mem_cons_self _ _)
    rw [hd_cons]
    rintro rfl
    rw [h1] at hc
    exact absurd hc (by decide)

/-- `strtoull` in radix 16 at a non-empty string of hexadecimal digits. -/
theorem strtoull_hex (hs : List Char) (hhs : HexDigits hs) (hne : hs ≠ []) :
    strtoull hs 16 = (min (hexVal hs) (2 ^ 64 - 1), [], decide (2 ^ 64 ≤ hexVal hs)) := by
  obtain ⟨d, ds1, rfl⟩ := List.exists_cons_of_ne_nil hne
  have hd1 : ishex d = true := hhs d (List.mem_cons_self _ _)
  have hr := (ishex_iff d).1 hd1
  have hsp : isspace d = false := by
    simp only [isspace, Bool.or_eq_false_iff, decide_eq_false_iff_not, Bool.and_eq_false_iff]
    omega
  have hm : d ≠ '-' := char_ne_of_toNat_ne (by
    have : ('-' : Char).toNat = 45 := by decide
    omega)
  have hp : d ≠ '+' := char_ne_of_toNat_ne (by
    have : ('+' : Char).toNat = 43 := by decide
    omega)
  have hds1 : HexDigits ds1 := fun c hc => hhs c (List.mem_cons_of_mem _ hc)
  have hx := hd_hex_ne ds1 hds1 'x' (by decide) (by decide)
  have hX := hd_hex_ne ds1 hds1 'X' (by decide) (by decide)
  have hscan := scanDigits_hex (d :: ds1) [] 0 hhs (by decide)
  rw [List.append_nil] at hscan
  simp only [strtoull, List.dropWhile_cons, hsp, hd_cons, tl_cons, hm, hp, false_or,
    if_false, hscan, List.length_cons, Nat.add_one_ne_zero, hexVal, Bool.false_eq_true,
    hx, hX, false_and, and_false]
  by_cases hbig : 2 ^ 64 ≤ hexFold (d :: ds1) 0
  · rw [if_pos hbig, min_eq_right (by omega)]; simp; omega
  · rw [if_neg hbig, min_eq_left (by omega)]; simp; omega

theorem hd_dec_ne (ds : List Char) (hds : Digits ds) (c : Char) (hc : isdigit c = false)
    (hc0 : c ≠ Char.ofNat 0) : hd ds ≠ c := by
  cases ds with
  | nil => exact fun h => hc0 h.symm
  | cons d ds1 =>
    have h1 : isdigit d = true := hds d (List.mem_cons_self _ _)
    rw [hd_cons]
    rintro rfl
    rw [h1] at hc
    exact absurd hc (by decide)

/-- `unixin` on a decimal token. -/
theorem unixin_dec (u : Char) (neg : Bool) (ds : List Char) (hu : u = 'u' ∨ u = 'U')
    (hds : Digits1 ds) :
    unixin (unixToken u neg [] ds) =
      .success ⟨if neg then sub64 unixepoch (min (decVal ds) (2 ^ 64 - 1))
          else add64 unixepoch (min (decVal ds) (2 ^ 64 - 1)), 0⟩
        (decide (2 ^ 64 ≤ decVal ds)) := by
  obtain ⟨hd0, hne⟩ := hds
  obtain ⟨d, ds1, rfl⟩ := List.exists_cons_of_ne_nil hne
  have hd1 : isdigit d = true := hd0 d (List.mem_cons_self _ _)
  have hd2 := (isdigit_iff d).1 hd1
  have hm : d ≠ '-' := char_ne_of_toNat_ne (by
    have : ('-' : Char).toNat = 45 := by decide
    omega)
  have hal : isalnum d = true := by simp [isalnum, hd1]
  have hstr := strtoull_digits (d :: ds1) [] hd0 hne (by decide)
  rw [List.append_nil] at hstr
  have hds1 : Digits ds1 := fun c hc => hd0 c (List.mem_cons_of_mem _ hc)
  have hx : hd ds1 ≠ 'x' := hd_dec_ne ds1 hds1 'x' (by decide) (by decide)
  have hX : hd ds1 ≠ 'X' := hd_dec_ne ds1 hds1 'X' (by decide) (by decide)
  have hu2 : ¬ (u ≠ 'u' ∧ u ≠ 'U') := by
    rcases hu with h | h
    · exact fun h2 => h2.1 h
    · exact fun h2 => h2.2 h
  cases neg
  · simp only [unixin, unixToken, Bool.false_eq_true, if_false, List.nil_append, hd_cons,
      tl_cons, hu2, hm, decide_False, hx, hX, Bool.or_self, Bool.and_false, hal,
      Bool.not_true, hstr, hd_nil, ne_eq, not_true_eq_false]
  · simp only [unixin, unixToken, if_true, List.nil_append, hd_cons, List.cons_append,
      tl_cons, hu2, decide_True, hx, hX, decide_False, Bool.or_self, Bool.and_false, hal,
      Bool.not_true, hstr, hd_nil, ne_eq, not_true_eq_false, if_false, Bool.false_eq_true]

/-- `unixin` on a hexadecimal token. -/
theorem unixin_hex (u x : Char) (neg : Bool) (hs : List Char) (hu : u = 'u' ∨ u = 'U')
    (hx : x = 'x' ∨ x = 'X') (hhs : HexDigits hs) (hne : hs ≠ []) :
    unixin (unixToken u neg ['0', x] hs) =
      .success ⟨if neg then sub64 unixepoch (min (hexVal hs) (2 ^ 64 - 1))
          else add64 unixepoch (min (hexVal hs) (2 ^ 64 - 1)), 0⟩
        (decide (2 ^ 64 ≤ hexVal hs)) := by
  have hstr := strtoull_hex hs hhs hne
  obtain ⟨d, ds1, rfl⟩ := List.exists_cons_of_ne_nil hne
  have hd1 : ishex d = true := hhs d (List.mem_cons_self _ _)
  have hr := (ishex_iff d).1 hd1
  have hal : isalnum d = true := by
    simp only [isalnum, isdigit, Bool.or_eq_true, Bool.and_eq_true, decide_eq_true_eq]
    omega
  have hu2 : ¬ (u ≠ 'u' ∧ u ≠ 'U') := by
    rcases hu with h | h
    · exact fun h2 => h2.1 h
    · exact fun h2 => h2.2 h
  have hx2 : (decide (x = 'x') || decide (x = 'X')) = true := by
    rcases hx with h | h <;> simp [h]
  have h0 : ('0' : Char) ≠ '-' := by decide
  cases neg
  · simp only [unixin, unixToken, Bool.false_eq_true, if_false, List.nil_append, hd_cons,
      tl_cons, hu2, h0, decide_False, decide_True, hx2, Bool.and_self, if_true,
      List.cons_append, hal, Bool.not_true, hstr, hd_nil, ne_eq, not_true_eq_false]
  · simp only [unixin, unixToken, if_true, List.nil_append, hd_cons, List.cons_append,
      tl_cons, hu2, decide_True, hx2, h0, decide_False, Bool.and_self, hal,
      Bool.not_true, hstr, hd_nil, ne_eq, not_true_eq_false, if_false, Bool.false_eq_true]

/-- C13. Unix radix equivalence: for every number below 2^64 and either sign, `unixin` of
`U`, an optional `-` and decimal digits of the number, and `unixin` of `U`, an optional `-`,
`0x` or `0X` and hexadecimal digits of the number, of either letter case, both succeed with
`errno` clear and give the same time, the epoch plus or minus the number modulo 2^64 with
fraction 0. -/
theorem unix_radix_equivalence (u x : Char) (neg : Bool) (ds hs : List Char) (m : Nat)
    (hu : u = 'u' ∨ u = 'U') (hx : x = 'x' ∨ x = 'X') (hds : Digits1 ds)
    (hhs : HexDigits hs ∧ hs ≠ []) (hd : decVal ds = m) (hh : hexVal hs = m) (hm : m < 2 ^ 64) :
    unixin (unixToken u neg [] ds)
        = .success ⟨if neg then sub64 unixepoch m else add64 unixepoch m, 0⟩ false
      ∧ unixin (unixToken u neg ['0', x] hs)
        = .success ⟨if neg then sub64 unixepoch m else add64 unixepoch m, 0⟩ false := by
  have e1 : min m (2 ^ 64 - 1) = m := clamp_eq m hm
  have e2 : decide (2 ^ 64 ≤ m) = false := by simp only [decide_eq_false_iff_not]; omega
  constructor
  · rw [unixin_dec u neg ds hu hds, hd, e1, e2]
  · rw [unixin_hex u x neg hs hu hx hhs.1 hhs.2, hh, e1, e2]

theorem unix_radix_equivalence_witness :
    unixToken 'U' false [] "255".toList = "U255".toList
      ∧ unixToken 'U' false ['0', 'x'] "ff".toList = "U0xff".toList
      ∧ unixin (unixToken 'U' false [] "255".toList)
        = .success ⟨if false then sub64 unixepoch 255 else add64 unixepoch 255, 0⟩ false
      ∧ unixin (unixToken 'U' false ['0', 'x'] "ff".toList)
        = .success ⟨if false then sub64 unixepoch 255 else add64 unixepoch 255, 0⟩ false :=
  ⟨by decide, by decide,
    unix_radix_equivalence 'U' 'x' false "255".toList "ff".toList 255 (Or.inr rfl) (Or.inl rfl)
      ⟨by unfold Digits; decide, by decide⟩ ⟨by unfold HexDigits; decide, by decide⟩ (by decide)
      (by decide) (by decide)⟩

/-! ## Numerals without leading zeros -/

theorem uint64strLoop_zero (r fuel : Nat) (acc : List Char) :
    uint64strLoop r fuel 0 acc = acc := by
  cases fuel with
  | zero => rfl
  | succ f => rw [uint64strLoop, if_pos rfl]

/-- The first digit that `uint64str` writes for a number that is not zero is not `0`. -/
theorem uint64strLoop_head (r : Nat) (hr : 2 ≤ r) (fuel n : Nat) (acc : List Char)
    (h : n < r ^ fuel) (hn : n ≠ 0) :
    ∃ d rest, uint64strLoop r fuel n acc = digitChar d :: rest ∧ 0 < d ∧ d < r := by
  induction fuel generalizing n acc with
  | zero =>
    have : n = 0 := by simpa using h
    exact absurd this hn
  | succ fuel ih =>
    rw [uint64strLoop, if_neg hn]
    by_cases hq : n / r = 0
    · rw [hq, uint64strLoop_zero]
      have hlt : n < r := (Nat.div_eq_zero_iff (by omega)).1 hq
      exact ⟨n % r, acc, rfl, by rw [Nat.mod_eq_of_lt hlt]; omega, Nat.mod_lt _ (by omega)⟩
    · have hq2 : n / r < r ^ fuel := by
        rw [Nat.div_lt_iff_lt_mul (by omega)]
        rw [pow_succ] at h
        exact h
      exact ih (n / r) (digitChar (n % r) :: acc) hq2 hq

theorem digitChar_ne_zero (d : Nat) (h0 : 0 < d) (h : d < 16) : digitChar d ≠ '0' := by
  interval_cases d <;> decide

theorem digitChar_ishex (d : Nat) (h : d < 16) :
    ishex (digitChar d) = true ∧ hexDigit (digitChar d) = d := by
  interval_cases d <;> exact ⟨by decide, by decide⟩

theorem hexFold_append (xs ys : List Char) (acc : Nat) :
    hexFold (xs ++ ys) acc = hexFold ys (hexFold xs acc) := by
  simp [hexFold, List.foldl_append]

/-- The digit loop of `uint64str` in radix 16 writes the hexadecimal digits of `n`. -/
theorem uint64strLoop_hex (fuel n : Nat) (acc : List Char) (h : n < 16 ^ fuel) :
    ∃ ds, uint64strLoop 16 fuel n acc = ds ++ acc ∧ HexDigits ds ∧ hexVal ds = n
      ∧ (n ≠ 0 → ds ≠ []) := by
  induction fuel generalizing n acc with
  | zero =>
    have hn : n = 0 := by simpa using h
    subst hn
    exact ⟨[], rfl, fun _ hc => absurd hc (List.not_mem_nil _), rfl, fun h0 => absurd rfl h0⟩
  | succ fuel ih =>
    by_cases hn : n = 0
    · subst hn
      exact ⟨[], rfl, fun _ hc => absurd hc (List.not_mem_nil _), rfl, fun h0 => absurd rfl h0⟩
    · have hq : n / 16 < 16 ^ fuel := by
        rw [pow_succ] at h; omega
      obtain ⟨ds, hloop, hds, hval, _⟩ := ih (n / 16) (digitChar (n % 16) :: acc) hq
      have hm : n % 16 < 16 := Nat.mod_lt _ (by decide)
      obtain ⟨hx1, hx2⟩ := digitChar_ishex (n % 16) hm
      refine ⟨ds ++ [digitChar (n % 16)], ?_, ?_, ?_, ?_⟩
      · rw [uint64strLoop, if_neg hn, hloop]; simp
      · intro c hc
        rcases List.mem_append.1 hc with h1 | h1
        · exact hds c h1
        · rw [List.mem_singleton.1 h1]; exact hx1
      · unfold hexVal at hval ⊢
        rw [hexFold_append, hval]
        show n / 16 * 16 + hexDigit (digitChar (n % 16)) = n
        rw [hx2]; omega
      · intro _; simp

/-- The decimal numeral that `uint64str` writes with at least one digit: decimal digits of
`n` without a leading zero. -/
theorem uint64str_decimal (n : Nat) (h : n < 2 ^ 64) :
    Digits1 (uint64str n 10 1) ∧ decVal (uint64str n 10 1) = n
      ∧ (n ≠ 0 → hd (uint64str n 10 1) ≠ '0') := by
  obtain ⟨h1, h2, h3, _⟩ := uint64str_spec n 1 h
  refine ⟨⟨h1, h3 (le_refl 1)⟩, h2, ?_⟩
  intro hn
  obtain ⟨d, rest, hl, hd0, hd10⟩ := uint64strLoop_head 10 (by decide) 64 n []
    (lt_trans h (by norm_num)) hn
  simp only [uint64str, hl, List.length_cons]
  rw [show 1 - (rest.length + 1) = 0 by omega]
  exact digitChar_ne_zero d hd0 (by omega)

/-- The hexadecimal numeral that `uint64str` writes with at least one digit: hexadecimal
digits of `n` without a leading zero. -/
theorem uint64str_hexadecimal (n : Nat) (h : n < 2 ^ 64) :
    (HexDigits (uint64str n 16 1) ∧ uint64str n 16 1 ≠ []) ∧ hexVal (uint64str n 16 1) = n
      ∧ (n ≠ 0 → hd (uint64str n 16 1) ≠ '0') := by
  obtain ⟨ds, hloop, hds, hval, hne⟩ := uint64strLoop_hex 64 n [] (lt_trans h (by norm_num))
  rw [List.append_nil] at hloop
  by_cases hn : n = 0
  · subst hn
    exact ⟨⟨by unfold HexDigits; decide, by decide⟩, by decide, fun h0 => absurd rfl h0⟩
  · obtain ⟨d, rest, hl, hd0, hd16⟩ := uint64strLoop_head 16 (by decide) 64 n []
      (lt_trans h (by norm_num)) hn
    have e : uint64str n 16 1 = ds := by
      simp only [uint64str, hloop]
      rw [hloop] at hl
      rw [hl, List.length_cons, show 1 - (rest.length + 1) = 0 by omega]
      rfl
    rw [e]
    refine ⟨⟨hds, hne hn⟩, hval, fun _ => ?_⟩
    rw [← hloop, hl]
    exact digitChar_ne_zero d hd0 hd16

/-- What `unixout` prints for a time from the Unix epoch on. -/
theorem unixout_pos (sec m radix : Nat) (pfx : List Char) (hs : sec = unixepoch + m)
    (hsec : sec < 2 ^ 64) :
    unixout ⟨sec, 0⟩ radix pfx = unixToken 'U' false pfx (uint64str m radix 1) := by
  have h1 : unixepoch ≤ sec := by omega
  have h2 : sub64 sec unixepoch = m := by rw [sub64_of_le _ _ h1 hsec]; omega
  simp only [unixout, h1, if_true, h2, unixToken, Bool.false_eq_true, if_false,
    List.nil_append, List.cons_append]

/-- What `unixout` prints for a time before the Unix epoch. -/
theorem unixout_neg (sec m radix : Nat) (pfx : List Char) (hs : sec + m = unixepoch)
    (hm : 0 < m) :
    unixout ⟨sec, 0⟩ radix pfx = unixToken 'U' true pfx (uint64str m radix 1) := by
  have h1 : ¬ unixepoch ≤ sec := by omega
  have h2 : sub64 unixepoch sec = m := by
    rw [sub64_of_le _ _ (by omega) (by simp only [unixepoch]; omega)]; omega
  simp only [unixout, h1, if_false, h2, unixToken, if_true, List.cons_append,
    List.nil_append, List.append_assoc, List.singleton_append]

/-- C14 as amended. Unix time round-trips as a signed offset as far as the time is not
before the internal epoch: for every magnitude `m` below 2^63 without a sign, and for every
`m` from 1 to 62135769600 (the Unix epoch in internal seconds) with the sign `-`, `unixin`
succeeds on `U`, the sign and the decimal digits of `m` without leading zeros, `unixdout`
of the decoded time is that same text, and `unixxout` of it has the same sign, the prefix
`0x` and the hexadecimal digits of `m` without leading zeros. -/
theorem unix_round_trip (m : Nat) (neg : Bool) (hpos : neg = false → m < 2 ^ 63)
    (hneg : neg = true → 0 < m ∧ m ≤ unixepoch) :
    (Digits1 (uint64str m 10 1) ∧ decVal (uint64str m 10 1) = m
        ∧ (m ≠ 0 → hd (uint64str m 10 1) ≠ '0'))
      ∧ ((HexDigits (uint64str m 16 1) ∧ uint64str m 16 1 ≠ []) ∧ hexVal (uint64str m 16 1) = m
        ∧ (m ≠ 0 → hd (uint64str m 16 1) ≠ '0'))
      ∧ ∃ t, unixin (unixToken 'U' neg [] (uint64str m 10 1)) = .success t false
        ∧ unixdout t = unixToken 'U' neg [] (uint64str m 10 1)
        ∧ unixxout t = unixToken 'U' neg "0x".toList (uint64str m 16 1) := by
  have hm : m < 2 ^ 64 := by
    cases neg
    · have := hpos rfl; omega
    · have := (hneg rfl).2; simp only [unixepoch] at this; omega
  have hdec := uint64str_decimal m hm
  refine ⟨hdec, uint64str_hexadecimal m hm, ?_⟩
  have hin := unixin_dec 'U' neg (uint64str m 10 1) (Or.inr rfl) hdec.1
  rw [hdec.2.1, clamp_eq m hm, show decide (2 ^ 64 ≤ m) = false by
    simp only [decide_eq_false_iff_not]; omega] at hin
  refine ⟨_, hin, ?_, ?_⟩
  · cases neg
    · have := hpos rfl
      rw [if_neg (by decide), add64_of_lt _ _ (by simp only [unixepoch]; omega)]
      exact unixout_pos _ m 10 [] rfl (by simp only [unixepoch]; omega)
    · obtain ⟨h0, h1⟩ := hneg rfl
      rw [if_pos rfl, sub64_of_le _ _ h1 (by simp only [unixepoch]; omega)]
      exact unixout_neg _ m 10 [] (by omega) h0
  · cases neg
    · have := hpos rfl
      rw [if_neg (by decide), add64_of_lt _ _ (by simp only [unixepoch]; omega)]
      exact unixout_pos _ m 16 _ rfl (by simp only [unixepoch]; omega)
    · obtain ⟨h0, h1⟩ := hneg rfl
      rw [if_pos rfl, sub64_of_le _ _ h1 (by simp only [unixepoch]; omega)]
      exact unixout_neg _ m 16 _ (by omega) h0

theorem unix_round_trip_witness :
    unixToken 'U' true [] (uint64str 62135769600 10 1) = "U-62135769600".toList
      ∧ unixToken 'U' true "0x".toList (uint64str 62135769600 16 1) = "U-0xe77949a00".toList
      ∧ ∃ t, unixin (unixToken 'U' true [] (uint64str 62135769600 10 1)) = .success t false
        ∧ unixdout t = unixToken 'U' true [] (uint64str 62135769600 10 1)
        ∧ unixxout t = unixToken 'U' true "0x".toList (uint64str 62135769600 16 1) :=
  ⟨by decide, by decide,
    (unix_round_trip 62135769600 true (fun h => absurd h (by decide))
      (fun _ => ⟨by decide, by decide⟩)).2.2⟩

/-- C14 as stated fails at `U-62135769601`, one second before the internal epoch: the
magnitude is below 2^63, `unixin` succeeds with the seconds wrapped to 2^64 - 1, and
`unixdout` prints that time as `U18446744011573782015`. -/
theorem unix_round_trip_counterexample :
    62135769601 < 2 ^ 63
      ∧ unixToken 'U' true [] (uint64str 62135769601 10 1) = "U-62135769601".toList
      ∧ unixin "U-62135769601".toList = .success ⟨18446744073709551615, 0⟩ false
      ∧ unixdout ⟨18446744073709551615, 0⟩ = "U18446744011573782015".toList
      ∧ unixdout ⟨18446744073709551615, 0⟩ ≠ "U-62135769601".toList := by
  refine ⟨by norm_num, by decide, by rfl, by rfl, by decide⟩

/-! ## The output precision -/

/-- The fields that `sdout` computes before the TNG epoch are in range: the integer part has
at most four digits and the fraction at most six. -/
theorem sdoutFields_range (sec frac : Nat) (hs : sec < tngepoch) (hf : frac < 2 ^ 32) :
    ∃ neg n I X F, sdoutFields ⟨sec, frac⟩ = (neg, n, I, X) ∧ X * 125 < 2 ^ 64
      ∧ X * 125 / 108 / 2 ^ 32 = F ∧ F ≤ 999999 ∧ I ≤ 9999 ∧ n < 2 ^ 64 := by
  by_cases c0 : sec < ufpepoch
  · have hfl := sdoutFields_neg sec frac c0 hf
    simp only [ufpepoch] at c0 hfl
    obtain ⟨d, hd⟩ : ∃ d, d = 68195001600 - sec - 1 := ⟨_, rfl⟩
    rw [← hd] at hfl
    obtain ⟨m, hm⟩ : ∃ m, m = 172800000 - 1 - d % 172800000 := ⟨_, rfl⟩
    rw [← hm] at hfl
    obtain ⟨X, hX⟩ : ∃ X, X = m % 17280 * 2 ^ 32 + frac := ⟨_, rfl⟩
    rw [← hX] at hfl
    obtain ⟨hF, -, -⟩ := early_trunc X (by omega)
    exact ⟨_, _, _, _, _, hfl, by omega, rfl, hF, by omega, by omega⟩
  · by_cases c1 : sec < 71605036800
    · have hfl := sdoutFields_tos sec frac (by omega) c1 hf
      simp only [ufpepoch] at c0 hfl
      obtain ⟨d, hd⟩ : ∃ d, d = sec - 68195001600 := ⟨_, rfl⟩
      rw [← hd] at hfl
      obtain ⟨X, hX⟩ : ∃ X, X = d % 172800000 % 17280 * 2 ^ 32 + frac := ⟨_, rfl⟩
      rw [← hX] at hfl
      obtain ⟨hF, -, -⟩ := early_trunc X (by omega)
      exact ⟨_, _, _, _, _, hfl, by omega, rfl, hF, by omega, by omega⟩
    · by_cases c2 : sec < 72037036800
      · have hfl := sdoutFields_film1 sec frac (by omega) c2 hf
        obtain ⟨d, hd⟩ : ∃ d, d = sec - 71605036800 := ⟨_, rfl⟩
        rw [← hd] at hfl
        obtain ⟨X, hX⟩ : ∃ X, X = d % 864000 * 2 ^ 32 + frac := ⟨_, rfl⟩
        rw [← hX] at hfl
        obtain ⟨hF, -, -⟩ := film1_trunc X _ (by omega) rfl
        exact ⟨_, _, _, _, _, hfl, by omega, rfl, hF, by omega, by omega⟩
      · have hfl := sdoutFields_film2 sec frac (by omega) hs hf
        simp only [tngepoch] at hs
        obtain ⟨d, hd⟩ : ∃ d, d = sec - 72037036800 := ⟨_, rfl⟩
        rw [← hd] at hfl
        obtain ⟨X, hX⟩ : ∃ X, X = d % 172800 * 2 ^ 32 + frac := ⟨_, rfl⟩
        rw [← hX] at hfl
        obtain ⟨hF, -, -⟩ := film2_trunc X _ (by omega) rfl
        refine ⟨_, _, _, _, _, hfl, by omega, rfl, hF, ?_, ?_⟩
        · split_ifs <;> omega
        · split_ifs <;> omega

theorem fracfmt_take (p F : Nat) :
    fracfmt p F = if p = 0 then [] else '.' :: (fmtlu 6 F).take p := by
  by_cases h : p = 0
  · simp [fracfmt, h]
  · simp [fracfmt, h, List.take_succ_cons]

theorem sdToken_frac (neg : Bool) (is ns : List Char) (p : Nat) (D : List Char) :
    '[' :: ((if neg then ['-'] else []) ++ (is ++ ']' :: (ns
        ++ if p = 0 then [] else '.' :: D.take p)))
      = sdToken neg is ns (if p = 0 then none else some (D.take p)) := by
  by_cases h : p = 0
  · simp [sdToken, h]
  · simp [sdToken, h]

theorem fmtlu_width (w I : Nat) (hw : 1 ≤ w) (hI : I < 10 ^ w) (h64 : I < 2 ^ 64) :
    (fmtlu w I).length = w := by
  have := (uint64str_spec I (max w 1) h64).2.2.2
  rw [max_eq_left hw] at this
  unfold fmtlu
  rw [max_eq_left hw]
  exact this hI

/-- C15. Stardate output precision truncates, never rounds: for every internal time `t`
there are a sign, an issue, an integer part `I` and a six-digit fraction value `F` such that
`sdout` at precision 0 prints the stardate without `.` and fraction, and at every precision
`p` in 1..6 prints it with the first `p` of the six digits of `F` after the `.`; the integer
part is printed with exactly 4 digits before the TNG epoch and exactly 5 from it on. -/
theorem sdout_precision_truncates (t : intdate) (hs : t.sec < 2 ^ 64) (hf : t.frac < 2 ^ 32) :
    ∃ neg n I F, (fmtlu (intWidth t) I).length = intWidth t ∧ (fmtlu 6 F).length = 6
      ∧ sdout 0 t = sdToken neg (fmtlu 0 n) (fmtlu (intWidth t) I) none
      ∧ sdout 6 t = sdToken neg (fmtlu 0 n) (fmtlu (intWidth t) I) (some (fmtlu 6 F))
      ∧ ∀ p, 1 ≤ p → p ≤ 6 →
          sdout p t = sdToken neg (fmtlu 0 n) (fmtlu (intWidth t) I) (some ((fmtlu 6 F).take p))
          ∧ ((fmtlu 6 F).take p).length = p := by
  obtain ⟨sec, frac⟩ := t
  simp only at hs hf
  by_cases c : sec < tngepoch
  · obtain ⟨neg, n, I, X, F, hfl, hX, hd, hF, hI, hn⟩ := sdoutFields_range sec frac c hf
    have hw : intWidth ⟨sec, frac⟩ = 4 := by simp only [intWidth, c, if_true]
    have h6 := fmtlu_six F hF
    have hall : ∀ p, sdout p ⟨sec, frac⟩
        = sdToken neg (fmtlu 0 n) (fmtlu 4 I)
            (if p = 0 then none else some ((fmtlu 6 F).take p)) := by
      intro p
      unfold sdout
      rw [if_neg (by simp only; omega), hfl]
      simp only [shr32, mul64_of_lt _ _ hX, hd, u32_of_lt F (by omega), fracfmt_take]
      exact sdToken_frac neg _ _ p _
    rw [hw]
    refine ⟨neg, n, I, F, fmtlu_width 4 I (by norm_num) (by omega) (by omega), h6, ?_, ?_, ?_⟩
    · rw [hall 0, if_pos rfl]
    · rw [hall 6, if_neg (by norm_num), List.take_of_length_le (by omega)]
    · intro p h1 h2
      rw [hall p, if_neg (by omega), List.length_take, h6]
      exact ⟨rfl, by omega⟩
  · have hfl := tngFields_eq sec frac (by omega) hs hf
    have c2 : tngepoch ≤ sec := by omega
    simp only [tngepoch] at c2 hfl
    obtain ⟨d, hd⟩ : ∃ d, d = sec - 73275321600 := ⟨_, rfl⟩
    rw [← hd] at hfl
    obtain ⟨q, hq⟩ : ∃ q, q = d % 3155695200 := ⟨_, rfl⟩
    rw [← hq] at hfl
    obtain ⟨U, hU⟩ : ∃ U, U = (q * 125000000 + frac * 125000000 / 2 ^ 32) / 3944619 := ⟨_, rfl⟩
    rw [← hU] at hfl
    obtain ⟨hUb, -, -⟩ := tng_trunc q frac U (by omega) hf hU
    obtain ⟨n, hn⟩ : ∃ n, n = 21 + d / 3155695200 := ⟨_, rfl⟩
    rw [← hn] at hfl
    have hw : intWidth ⟨sec, frac⟩ = 5 := by simp only [intWidth, c, if_false]
    have hF : U % 1000000 ≤ 999999 := by omega
    have h6 := fmtlu_six (U % 1000000) hF
    have hall : ∀ p, sdout p ⟨sec, frac⟩
        = sdToken false (fmtlu 0 n) (fmtlu 5 (U / 1000000))
            (if p = 0 then none else some ((fmtlu 6 (U % 1000000)).take p)) := by
      intro p
      unfold sdout
      rw [if_pos (by simp only [tngepoch]; omega)]
      unfold tngsdout
      rw [hfl]
      simp only [u32_of_lt (U / 1000000) (by omega), u32_of_lt (U % 1000000) (by omega),
        fracfmt_take]
      exact sdToken_frac false _ _ p _
    rw [hw]
    refine ⟨false, n, U / 1000000, U % 1000000,
      fmtlu_width 5 _ (by norm_num) (by omega) (by omega), h6, ?_, ?_, ?_⟩
    · rw [hall 0, if_pos rfl]
    · rw [hall 6, if_neg (by norm_num), List.take_of_length_le (by omega)]
    · intro p h1 h2
      rw [hall p, if_neg (by omega), List.length_take, h6]
      exact ⟨rfl, by omega⟩

theorem sdout_precision_truncates_witness :
    ∃ neg n I F, (fmtlu (intWidth ⟨73275321600, 4294967295⟩) I).length
          = intWidth ⟨73275321600, 4294967295⟩
      ∧ (fmtlu 6 F).length = 6
      ∧ sdout 0 ⟨73275321600, 4294967295⟩
          = sdToken neg (fmtlu 0 n) (fmtlu (intWidth ⟨73275321600, 4294967295⟩) I) none
      ∧ sdout 6 ⟨73275321600, 4294967295⟩
          = sdToken neg (fmtlu 0 n) (fmtlu (intWidth ⟨73275321600, 4294967295⟩) I)
              (some (fmtlu 6 F))
      ∧ ∀ p, 1 ≤ p → p ≤ 6 →
          sdout p ⟨73275321600, 4294967295⟩
            = sdToken neg (fmtlu 0 n) (fmtlu (intWidth ⟨73275321600, 4294967295⟩) I)
                (some ((fmtlu 6 F).take p))
          ∧ ((fmtlu 6 F).take p).length = p :=
  sdout_precision_truncates ⟨73275321600, 4294967295⟩ (by norm_num) (by norm_num)

/-! ## The Julian calendar -/

theorem calin_jul_of_readcal (date : List Char) (Y M D h mi s : Nat) (e : Bool)
    (hrc : readcal date '=' =
      .success { year := Y, month := M, day := D, hour := h, min := mi, sec := s } e)
    (hY : 1 ≤ Y) (hY2 : Y ≤ 10 ^ 11) (hM : 1 ≤ M) (hM2 : M ≤ 12)
    (hD : 1 ≤ D) (hD2 : D ≤ idx (mdays (jleapyear Y)) (M - 1))
    (hh : h < 24) (hmi : mi < 60) (hs : s < 60) :
    julin date = .success ⟨julSecs Y M D h mi s, 0⟩ e := by
  have hcyc : u32 (Y % 400) = Y % 400 := u32_of_lt _ (by omega)
  have hleap : jleapyear (Y % 400) = jleapyear Y :=
    jleapyear_congr _ _ (by omega)
  have hD31 := idx_mdays_le (jleapyear Y) (M - 1)
  have hcum := cumDays_add_lt (jleapyear Y) (M - 1) (D - 1) (by omega)
  have hlen : ylen (jleapyear Y) ≤ 366 := by unfold ylen; split_ifs <;> omega
  have hn : u32 (2 * 0 + D - 1) = D - 1 := by unfold u32; omega
  simp only [julin, calin, hrc, if_false, hcyc, xdays_eq, isLeap, hleap, Bool.false_and,
    Bool.false_eq_true, not_lt.2 hD2, hn]
  rw [monthLoop_eq _ _ _ (by omega) (by omega)]
  have hcum1 := hcum (by omega)
  unfold julSecs jdaysBefore
  generalize cumDays (jleapyear Y) (M - 1) = cd at *
  have h10 : (10 : Nat) ^ 11 = 100000000000 := by norm_num
  simp (disch := omega) only [sub64_of_le, mul64_of_lt, add64_of_lt, u32_of_lt]
  rw [Outcome.success.injEq, intdate.mk.injEq]
  exact ⟨⟨by omega, rfl⟩, rfl⟩

/-- The year estimate of `calout` for the Julian calendar is at most two short. -/
theorem jul_estimate (z doy t e : Nat) (ht : t = 365 * z + z / 4 + doy) (hdoy : doy ≤ 365)
    (he : e = t / 366 + t / (366 * 487)) : e ≤ z ∧ z ≤ e + 2 := by
  omega

theorem ylen_jleap_cases (y : Nat) :
    (ylen (jleapyear y) = 366 ∧ y % 4 = 0) ∨ (ylen (jleapyear y) = 365 ∧ ¬ y % 4 = 0) := by
  by_cases h : jleapyear y = true
  · left; exact ⟨by simp [ylen, h], (jleapyear_iff y).1 h⟩
  · right; exact ⟨by simp [ylen, h], fun h1 => h ((jleapyear_iff y).2 h1)⟩

theorem jul_resid1 (e doy r L1 : Nat)
    (h1 : (L1 = 366 ∧ (e + 1) % 4 = 0) ∨ (L1 = 365 ∧ ¬ (e + 1) % 4 = 0))
    (hr : r = 365 * (e + 1) + (e + 1) / 4 + doy - (e * 365 + e / 4)) :
    r = L1 + doy := by omega

theorem jul_resid2 (e doy r L1 L2 : Nat)
    (h1 : (L1 = 366 ∧ (e + 1) % 4 = 0) ∨ (L1 = 365 ∧ ¬ (e + 1) % 4 = 0))
    (h2 : (L2 = 366 ∧ (e + 2) % 4 = 0) ∨ (L2 = 365 ∧ ¬ (e + 2) % 4 = 0))
    (hr : r = 365 * (e + 2) + (e + 2) / 4 + doy - (e * 365 + e / 4)) :
    r = L1 + (L2 + doy) := by omega

/-- The month walk of `calout` from the estimated Julian year reaches the date. -/
theorem jul_walk (Y M D e r doy : Nat) (hY : 1 ≤ Y) (hebig : e < 2 ^ 50)
    (hm : M - 1 < 12) (hdm : D - 1 < idx (mdays (jleapyear Y)) (M - 1))
    (hdoydef : cumDays (jleapyear Y) (M - 1) + (D - 1) = doy)
    (hcase : Y - 1 = e ∨ Y - 1 = e + 1 ∨ Y - 1 = e + 2)
    (hr : r = 365 * (Y - 1) + (Y - 1) / 4 + doy - (e * 365 + e / 4)) :
    monthWalk false (r + 1) ((e + 1) % 400) (e + 1) 0 r = some (Y, M - 1, D - 1) := by
  have hc32 : (e + 1) % 400 + 2 < 2 ^ 32 := by clear hr; omega
  rcases hcase with hc | hc | hc
  · rw [hc] at hr
    have hr0 : r = doy := by omega
    clear hr
    have hl : isLeap false ((e + 1) % 400) = jleapyear Y := by
      rw [isLeap_false]; exact jleapyear_congr _ _ (by omega)
    have hyear : e + 1 = Y := by omega
    rw [hyear] at hl ⊢
    exact monthWalk_same false _ Y (M - 1) (D - 1) r hm (by rw [hl]; exact hdm)
      (by rw [hl, hdoydef]; exact hr0)
  · rw [hc] at hr
    have hr1 := jul_resid1 e doy r _ (ylen_jleap_cases (e + 1)) hr
    clear hr
    have hl : isLeap false ((e + 1) % 400 + 1) = jleapyear Y := by
      rw [isLeap_false]; exact jleapyear_congr _ _ (by omega)
    have hl1 : isLeap false ((e + 1) % 400) = jleapyear (e + 1) := by
      rw [isLeap_false]; exact jleapyear_congr _ _ (by omega)
    have hyear : add64 (e + 1) 1 = Y := by rw [add64_of_lt (e + 1) 1 (by omega)]; omega
    have := monthWalk_next false ((e + 1) % 400) (e + 1) (M - 1) (D - 1) r hm
      (by omega) (by rw [hl]; exact hdm) (by rw [hl, hl1, hdoydef]; exact hr1)
    rw [hyear] at this
    exact this
  · rw [hc] at hr
    have hr2 := jul_resid2 e doy r _ _ (ylen_jleap_cases (e + 1)) (ylen_jleap_cases (e + 2)) hr
    clear hr
    have hl : isLeap false ((e + 1) % 400 + 1 + 1) = jleapyear Y := by
      rw [isLeap_false]; exact jleapyear_congr _ _ (by omega)
    have hl1 : isLeap false ((e + 1) % 400 + 1) = jleapyear (e + 2) := by
      rw [isLeap_false]; exact jleapyear_congr _ _ (by omega)
    have hl2 : isLeap false ((e + 1) % 400) = jleapyear (e + 1) := by
      rw [isLeap_false]; exact jleapyear_congr _ _ (by omega)
    have hyear : add64 (add64 (e + 1) 1) 1 = Y := by
      rw [add64_of_lt (e + 1) 1 (by omega), add64_of_lt (e + 1 + 1) 1 (by omega)]; omega
    have := monthWalk_next2 false ((e + 1) % 400) (e + 1) (M - 1) (D - 1) r hm
      hc32 (by rw [hl]; exact hdm) (by rw [hl, hl1, hl2, hdoydef]; exact hr2)
    rw [hyear] at this
    exact this

theorem jul_walk_bound (e t z doy : Nat) (ht : t = 365 * z + z / 4 + doy)
    (hest : e ≤ z ∧ z ≤ e + 2) (hdoy : doy ≤ 365) :
    t - (e * 365 + e / 4) < 2 ^ 32 ∧ e * 365 + e / 4 ≤ t := by
  rcases three_cases _ _ hest with h | h | h <;> subst h <;> omega

theorem julout_julSecs (Y M D h mi s : Nat) (hY : 1 ≤ Y) (hY2 : Y ≤ 10 ^ 11)
    (hM : 1 ≤ M) (hM2 : M ≤ 12) (hD : 1 ≤ D) (hD2 : D ≤ idx (mdays (jleapyear Y)) (M - 1))
    (hh : h < 24) (hmi : mi < 60) (hs : s < 60) :
    julout ⟨julSecs Y M D h mi s, 0⟩ = some (calfmt '=' Y M D h mi s) := by
  have h10 : (10 : Nat) ^ 11 = 100000000000 := by norm_num
  have hm11 : M - 1 < 12 := by omega
  have hdm : D - 1 < idx (mdays (jleapyear Y)) (M - 1) := by omega
  have hdoy := cumDays_add_lt (jleapyear Y) (M - 1) (D - 1) hm11 hdm
  have hlen : ylen (jleapyear Y) ≤ 366 := by unfold ylen; split_ifs <;> omega
  have hfmt : calfmt '=' Y M D h mi s = calfmt '=' Y (M - 1 + 1) (D - 1 + 1) h mi s := by
    rw [Nat.sub_add_cancel hM, Nat.sub_add_cancel hD]
  rw [hfmt]
  unfold julSecs jdaysBefore at *
  generalize hdoydef : cumDays (jleapyear Y) (M - 1) + (D - 1) = doy at *
  have hd365 : doy ≤ 365 := by omega
  have hY3 : Y ≤ 100000000000 := by omega
  clear hlen hdoy hD2 hM2 hM hD h10 hY2
  obtain ⟨tod, htod⟩ : ∃ tod, tod = 3600 * h + 60 * mi + s := ⟨_, rfl⟩
  rw [← htod]
  have htod2 : tod < 86400 := by omega
  obtain ⟨t, ht⟩ : ∃ t, t = 365 * (Y - 1) + (Y - 1) / 4 + doy := ⟨_, rfl⟩
  rw [← ht]
  obtain ⟨e, he⟩ : ∃ e, e = t / 366 + t / (366 * 487) := ⟨_, rfl⟩
  have hest := jul_estimate (Y - 1) doy t e ht hd365 he
  have hcase := three_cases _ _ hest
  have hbig : t < 2 ^ 50 := by omega
  have hebig : e < 2 ^ 50 := by
    have := hest.1
    clear ht he hbig htod hest hcase
    omega
  obtain ⟨hr, hle⟩ := jul_walk_bound e t (Y - 1) doy ht hest hd365
  have hwalk := jul_walk Y M D e (t - (e * 365 + e / 4)) doy hY hebig hm11 hdm hdoydef hcase
    (by rw [ht])
  clear ht hest
  have e1 : (86400 * t + tod) / 86400 = t := by omega
  have e2 : (86400 * t + tod) % 86400 = tod := by omega
  unfold julout calout
  simp only [if_false, Bool.false_eq_true, e1, e2]
  clear e1 e2
  simp (disch := omega) only [u32_of_lt, add64_of_lt, mul64_of_lt]
  rw [← he]
  clear he
  simp (disch := omega) only [u32_of_lt, add64_of_lt, mul64_of_lt, sub64_of_le]
  exact docalout_of_walk '=' false ((e + 1) % 400) (e + 1)
    (t - (e * 365 + e / 4)) tod Y (M - 1) (D - 1) h mi s hwalk htod hmi hs

/-- C16. Julian decode-then-encode round trip: for every Julian date-time with year
1..10^11, month 1..12, day from 1 to the length of the month under the Julian leap rule,
hour 0..23, minute 0..59 and second 0..59, `julin` accepts the canonical text
`YYYY=MM=DDThh:mm:ss` and `julout` of the decoded time is that same text. -/
theorem julian_round_trip (Y M D h mi s : Nat) (hY : 1 ≤ Y ∧ Y ≤ 10 ^ 11)
    (hM : 1 ≤ M ∧ M ≤ 12) (hD : 1 ≤ D ∧ D ≤ idx (xdays false Y) (M - 1)) (hh : h ≤ 23)
    (hmi : mi ≤ 59) (hs : s ≤ 59) :
    ∃ dt, julin (calfmt '=' Y M D h mi s) = .success dt false
      ∧ julout dt = some (calfmt '=' Y M D h mi s) := by
  have h10 : (10 : Nat) ^ 11 = 100000000000 := by norm_num
  rw [xdays_eq, isLeap_false] at hD
  have hD31 := idx_mdays_le (jleapyear Y) (M - 1)
  have hrc := readcal_calfmt '=' Y M D h mi s (by decide) (by omega) hM ⟨hD.1, by omega⟩
    (by omega) (by omega) (by omega)
  refine ⟨⟨julSecs Y M D h mi s, 0⟩, ?_, ?_⟩
  · exact calin_jul_of_readcal _ Y M D h mi s false hrc hY.1 hY.2 hM.1 hM.2 hD.1 hD.2 (by omega)
      (by omega) (by omega)
  · exact julout_julSecs Y M D h mi s hY.1 hY.2 hM.1 hM.2 hD.1 hD.2 (by omega) (by omega)
      (by omega)

theorem julian_round_trip_witness :
    calfmt '=' 1900 2 29 23 59 59 = "1900=02=29T23:59:59".toList
      ∧ ∃ dt, julin (calfmt '=' 1900 2 29 23 59 59) = .success dt false
        ∧ julout dt = some (calfmt '=' 1900 2 29 23 59 59) :=
  ⟨by decide, julian_round_trip 1900 2 29 23 59 59 (by decide) (by decide) (by decide)
    (by decide) (by decide) (by decide)⟩

/-! ## The closed-form day count -/

theorem naiveYearDays_greg (y : Nat) :
    naiveYearDays true y = 365 * y + y / 4 - y / 100 + y / 400 := by
  induction y with
  | zero => rfl
  | succ y ih =>
    rw [naiveYearDays, ih]
    by_cases h : leapRule true (y + 1) = true
    · rw [if_pos h]
      simp only [leapRule, if_true, decide_eq_true_eq] at h
      omega
    · rw [if_neg h]
      simp only [leapRule, if_true, decide_eq_true_eq] at h
      omega

theorem naiveYearDays_jul (y : Nat) : naiveYearDays false y = 365 * y + y / 4 := by
  induction y with
  | zero => rfl
  | succ y ih =>
    rw [naiveYearDays, ih]
    by_cases h : leapRule false (y + 1) = true
    · rw [if_pos h]
      simp only [leapRule, Bool.false_eq_true, if_false, decide_eq_true_eq] at h
      omega
    · rw [if_neg h]
      simp only [leapRule, Bool.false_eq_true, if_false, decide_eq_true_eq] at h
      omega

theorem naiveMonthDays_eq (leap : Bool) (M : Nat) (h1 : 1 ≤ M) (h2 : M ≤ 12) :
    naiveMonthDays leap M = cumDays leap (M - 1) := by
  interval_cases M <;> cases leap <;> rfl

/-- C20. The closed-form day count of `calin` equals the naive per-year count: for every
valid date-time with year 1..10^11 in either calendar, the canonical text reads as its
fields, and on every text that reads as these fields `calin` returns the seconds
`86400 * N + 3600 * hour + 60 * minute + second` with fraction 0, where `N` is the sum of the
lengths of the years 1..Y-1 taken one by one, plus the lengths of the months before the
month, plus the day minus 1, plus 2 for the Gregorian calendar. -/
theorem calin_naive_day_count (gp : Bool) (Y M D h mi s : Nat) (hY : 1 ≤ Y ∧ Y ≤ 10 ^ 11)
    (hM : 1 ≤ M ∧ M ≤ 12)
    (hD : 1 ≤ D ∧ D ≤ idx (if leapRule gp Y then lyrdays else nrmdays) (M - 1))
    (hh : h ≤ 23) (hmi : mi ≤ 59) (hs : s ≤ 59) :
    readcal (calfmt (calSep gp) Y M D h mi s) (calSep gp) =
        .success { year := Y, month := M, day := D, hour := h, min := mi, sec := s } false
      ∧ ∀ date e, readcal date (calSep gp) =
          .success { year := Y, month := M, day := D, hour := h, min := mi, sec := s } e →
        calin date gp =
          .success ⟨86400 * naiveDays gp Y M D + 3600 * h + 60 * mi + s, 0⟩ e := by
  have h10 : (10 : Nat) ^ 11 = 100000000000 := by norm_num
  have hD2 : D ≤ idx (mdays (isLeap gp Y)) (M - 1) := by
    rw [← leapRule_eq]; exact hD.2
  have hD31 := idx_mdays_le (isLeap gp Y) (M - 1)
  have hsep : isdigit (calSep gp) = false := by cases gp <;> decide
  refine ⟨readcal_calfmt (calSep gp) Y M D h mi s hsep (by omega) hM ⟨hD.1, by omega⟩
    (by omega) (by omega) (by omega), ?_⟩
  intro date e hrc
  have hmon := naiveMonthDays_eq (leapRule gp Y) M hM.1 hM.2
  cases gp
  · have := calin_jul_of_readcal date Y M D h mi s e hrc hY.1 hY.2 hM.1 hM.2 hD.1 hD2
      (by omega) (by omega) (by omega)
    unfold julin at this
    rw [this, Outcome.success.injEq, intdate.mk.injEq]
    refine ⟨⟨?_, rfl⟩, rfl⟩
    unfold julSecs jdaysBefore naiveDays
    rw [naiveYearDays_jul, hmon, leapRule_eq, isLeap_false]
    simp only [Bool.false_eq_true, if_false]
    omega
  · have := calin_greg_of_readcal date Y M D h mi s e hrc hY.1 hY.2 hM.1 hM.2 hD.1 hD2
      (by omega) (by omega) (by omega)
    unfold gregin at this
    rw [this, Outcome.success.injEq, intdate.mk.injEq]
    refine ⟨⟨?_, rfl⟩, rfl⟩
    unfold gregSecs gdaysBefore naiveDays
    rw [naiveYearDays_greg, hmon, leapRule_eq, isLeap_true]
    simp only [if_true]
    omega

theorem calin_naive_day_count_witness :
    calfmt (calSep true) 5 3 1 0 0 0 = "0005-03-01T00:00:00".toList
      ∧ naiveDays true 5 3 1 = 365 + 365 + 365 + 366 + (31 + 28) + 0 + 2
      ∧ calin (calfmt (calSep true) 5 3 1 0 0 0) true =
          .success ⟨86400 * naiveDays true 5 3 1 + 3600 * 0 + 60 * 0 + 0, 0⟩ false :=
  ⟨by decide, by decide,
    (calin_naive_day_count true 5 3 1 0 0 0 (by decide) (by decide) (by decide) (by decide)
      (by decide) (by decide)).2 _ false
      (calin_naive_day_count true 5 3 1 0 0 0 (by decide) (by decide) (by decide) (by decide)
        (by decide) (by decide)).1⟩

/-! ## Year 0 -/

/-- `gregin` on a text that reads as a day of December of year 0. -/
theorem gregin_year_zero (date : List Char) (D h mi s : Nat) (e : Bool)
    (hrc : readcal date '-' =
      .success { year := 0, month := 12, day := D, hour := h, min := mi, sec := s } e)
    (hD : D = 30 ∨ D = 31) (hh : h < 24) (hmi : mi < 60) (hs : s < 60) :
    gregin date = .success ⟨86400 * (D - 30) + (3600 * h + 60 * mi + s), 0⟩ e := by
  rcases hD with rfl | rfl
  · have e1 : gregin date
        = .success ⟨add64 (mul64 0 86400) (h * 3600 + mi * 60 + s), 0⟩ e := by
      simp only [gregin, calin, hrc, if_true]
      rfl
    rw [e1, Outcome.success.injEq, intdate.mk.injEq]
    refine ⟨⟨?_, rfl⟩, rfl⟩
    rw [show mul64 0 86400 = 0 from rfl, add64_of_lt _ _ (by omega)]
    omega
  · have e1 : gregin date
        = .success ⟨add64 (mul64 1 86400) (h * 3600 + mi * 60 + s), 0⟩ e := by
      simp only [gregin, calin, hrc, if_true]
      rfl
    rw [e1, Outcome.success.injEq, intdate.mk.injEq]
    refine ⟨⟨?_, rfl⟩, rfl⟩
    rw [show mul64 1 86400 = 86400 from rfl, add64_of_lt _ _ (by omega)]
    omega

/-- `gregout` on a time of the first two days from the internal epoch. -/
theorem gregout_year_zero (D h mi s : Nat) (hD : D = 30 ∨ D = 31) (hh : h < 24)
    (hmi : mi < 60) (hs : s < 60) :
    gregout ⟨86400 * (D - 30) + (3600 * h + 60 * mi + s), 0⟩
      = some (calfmt '-' 0 12 D h mi s) := by
  obtain ⟨tod, htod⟩ : ∃ tod, tod = 3600 * h + 60 * mi + s := ⟨_, rfl⟩
  rw [← htod]
  have htod2 : tod < 86400 := by omega
  rcases hD with rfl | rfl
  · have e1 : (86400 * (30 - 30) + tod) / 86400 = 0 := by omega
    have e2 : (86400 * (30 - 30) + tod) % 86400 = tod := by omega
    unfold gregout calout
    simp only [if_true, e1, e2, u32_of_lt tod (by omega)]
    exact docalout_of_walk '-' true _ _ _ tod 0 11 29 h mi s (by rfl) htod hmi hs
  · have e1 : (86400 * (31 - 30) + tod) / 86400 = 1 := by omega
    have e2 : (86400 * (31 - 30) + tod) % 86400 = tod := by omega
    unfold gregout calout
    simp only [if_true, e1, e2, u32_of_lt tod (by omega)]
    exact docalout_of_walk '-' true _ _ _ tod 0 11 30 h mi s (by rfl) htod hmi hs

/-- C17 as amended. Year 0 is supported from the internal epoch on: for the two days
0000-12-30 and 0000-12-31 of the Gregorian calendar, with any valid time of day, `gregin`
succeeds on the canonical text, the decoded time is the seconds since 0000-12-30T00:00:00,
and `gregout` of it is the same text, with year 0 and the same month, day, hour, minute and
second. -/
theorem year_zero_from_epoch (D h mi s : Nat) (hD : D = 30 ∨ D = 31) (hh : h ≤ 23)
    (hmi : mi ≤ 59) (hs : s ≤ 59) :
    ∃ dt, gregin (calfmt '-' 0 12 D h mi s) = .success dt false
      ∧ dt = ⟨86400 * (D - 30) + (3600 * h + 60 * mi + s), 0⟩
      ∧ gregout dt = some (calfmt '-' 0 12 D h mi s) := by
  have hrc := readcal_calfmt '-' 0 12 D h mi s (by decide) (by norm_num) (by decide)
    (by omega) (by omega) (by omega) (by omega)
  exact ⟨_, gregin_year_zero _ D h mi s false hrc hD (by omega) (by omega) (by omega), rfl,
    gregout_year_zero D h mi s hD (by omega) (by omega) (by omega)⟩

theorem year_zero_from_epoch_witness :
    calfmt '-' 0 12 31 23 59 59 = "0000-12-31T23:59:59".toList
      ∧ ∃ dt, gregin (calfmt '-' 0 12 31 23 59 59) = .success dt false
        ∧ dt = ⟨86400 * (31 - 30) + (3600 * 23 + 60 * 59 + 59), 0⟩
        ∧ gregout dt = some (calfmt '-' 0 12 31 23 59 59) :=
  ⟨by decide, year_zero_from_epoch 31 23 59 59 (Or.inr rfl) (by decide) (by decide)
    (by decide)⟩

/-- C17 as stated fails at the first day of year 0 in both calendars: the decoders succeed
with seconds wrapped modulo 2^64, and the encoders print these times as dates of the years
584542046090 and 584554049253. -/
theorem year_zero_counterexample :
    calfmt '=' 0 1 1 0 0 0 = "0000=01=01T00:00:00".toList
      ∧ julin "0000=01=01T00:00:00".toList = .success ⟨18446744073677929216, 0⟩ false
      ∧ julout ⟨18446744073677929216, 0⟩ = some "584542046090=08=17T07:00:16".toList
      ∧ julout ⟨18446744073677929216, 0⟩ ≠ some (calfmt '=' 0 1 1 0 0 0)
      ∧ calfmt '-' 0 1 1 0 0 0 = "0000-01-01T00:00:00".toList
      ∧ gregin "0000-01-01T00:00:00".toList = .success ⟨18446744073678102016, 0⟩ false
      ∧ gregout ⟨18446744073678102016, 0⟩ = some "584554049253-11-08T07:00:16".toList
      ∧ gregout ⟨18446744073678102016, 0⟩ ≠ some (calfmt '-' 0 1 1 0 0 0) := by
  have hj : julout ⟨18446744073677929216, 0⟩ = some "584542046090=08=17T07:00:16".toList :=
    rfl
  have hg : gregout ⟨18446744073678102016, 0⟩ = some "584554049253-11-08T07:00:16".toList :=
    rfl
  refine ⟨by decide, by rfl, hj, ?_, by decide, by rfl, hg, ?_⟩
  · rw [hj]; decide
  · rw [hg]; decide

/-! ## The length of a Quadcent year -/

/-- The seconds of `qcin` as one expression on both sides of year 323. -/
theorem qc_secs_add (Y k q : Nat) (hY : 1 ≤ Y) (hq : q < 31556952) :
    (if Y + k < 323 then 10161417600 + (Y + k + 77) * 31556952 + q - 12622780800
      else 10161417600 + (Y + k - 323) * 31556952 + q)
      = (if Y < 323 then 10161417600 + (Y + 77) * 31556952 + q - 12622780800
          else 10161417600 + (Y - 323) * 31556952 + q) + k * 31556952 := by
  split_ifs <;> omega

/-- `qcin` refuses the 29th of February in every year. -/
theorem qcin_leap_day (ys : List Char) (hy : Digits1 ys) :
    qcin (calToken '*' ys "02".toList "29".toList none) = .outOfRange .day := by
  have hrc := readcal_token '*' ys "02".toList "29".toList none (by decide) hy
    ⟨by unfold Digits; decide, by decide⟩ ⟨by unfold Digits; decide, by decide⟩ trivial
  have e1 : decVal "02".toList = 2 := by decide
  have e2 : decVal "29".toList = 29 := by decide
  have e3 : firstOffending 2 29 0 0 0 = none := by decide
  simp only [timeVals, e1, e2, e3] at hrc
  simp only [qcin, hrc]
  rfl

/-- C18. Every Quadcent year has the same length, the average Gregorian year: for every
Quadcent date-time with year 1..10^11, `qcin` of the same month, day and time of day one
year later is exactly 31556952 seconds later with the same fraction, on both sides of and
across year 323, and 400 years later it is 146097 days of 86400 seconds later; and `qcin`
refuses the 29th of February, naming the day, whatever the digits of the year. -/
theorem quadcent_year_length (Y M D h mi s : Nat) (hY : 1 ≤ Y ∧ Y ≤ 10 ^ 11)
    (hM : 1 ≤ M ∧ M ≤ 12) (hD : 1 ≤ D ∧ D ≤ idx nrmdays (M - 1)) (hh : h ≤ 23)
    (hmi : mi ≤ 59) (hs : s ≤ 59) :
    (∃ sec frac, qcin (calfmt '*' Y M D h mi s) = .success ⟨sec, frac⟩ false
        ∧ qcin (calfmt '*' (Y + 1) M D h mi s) = .success ⟨sec + 31556952, frac⟩ false
        ∧ qcin (calfmt '*' (Y + 400) M D h mi s) = .success ⟨sec + 146097 * 86400, frac⟩ false)
      ∧ ∀ ys, Digits1 ys →
          qcin (calToken '*' ys "02".toList "29".toList none) = .outOfRange .day := by
  have h10 : (10 : Nat) ^ 11 = 100000000000 := by norm_num
  have hD2 : D ≤ idx (mdays false) (M - 1) := by rw [mdays_false]; exact hD.2
  have hD31 := idx_mdays_le false (M - 1)
  have hcum := cumDays_add_lt false (M - 1) (D - 1) (by omega) (by omega)
  have hlen : ylen false = 365 := rfl
  rw [hlen] at hcum
  obtain ⟨x, hx⟩ : ∃ x, x = (cumDays false (M - 1) + (D - 1)) * 86400 + h * 3600 + mi * 60 + s :=
    ⟨_, rfl⟩
  have hx2 : x < 31536000 := by omega
  obtain ⟨-, hq, -⟩ := qc_scale x _ _ _ hx2 rfl rfl rfl
  have hin : ∀ k, k ≤ 400 → qcin (calfmt '*' (Y + k) M D h mi s) = .success
      ⟨(if Y < 323
          then 10161417600 + (Y + 77) * 31556952 + x * 31556952 / 31536000 - 12622780800
          else 10161417600 + (Y - 323) * 31556952 + x * 31556952 / 31536000) + k * 31556952,
       (x * 31556952 % 31536000 * 2 ^ 32 + 31535999) / 31536000⟩ false := by
    intro k hk
    have hrc := readcal_calfmt '*' (Y + k) M D h mi s (by decide) (by omega) hM
      ⟨hD.1, by omega⟩ (by omega) (by omega) (by omega)
    rw [qcin_of_readcal_wide _ (Y + k) M D h mi s x false hrc (by omega) (by omega) hM.1 hM.2
      hD.1 hD2 (by omega) (by omega) (by omega) hx, qc_secs_add Y k _ hY.1 hq]
  refine ⟨⟨_, _, hin 0 (by omega), ?_, ?_⟩, qcin_leap_day⟩
  · rw [hin 1 (by omega)]
  · rw [hin 400 (by omega)]

theorem quadcent_year_length_witness :
    calfmt '*' 322 12 31 23 59 59 = "0322*12*31T23:59:59".toList
      ∧ calfmt '*' (322 + 1) 12 31 23 59 59 = "0323*12*31T23:59:59".toList
      ∧ ∃ sec frac, qcin (calfmt '*' 322 12 31 23 59 59) = .success ⟨sec, frac⟩ false
        ∧ qcin (calfmt '*' (322 + 1) 12 31 23 59 59) = .success ⟨sec + 31556952, frac⟩ false
        ∧ qcin (calfmt '*' (322 + 400) 12 31 23 59 59)
            = .success ⟨sec + 146097 * 86400, frac⟩ false :=
  ⟨by decide, by decide,
    (quadcent_year_length 322 12 31 23 59 59 (by decide) (by decide) (by decide) (by decide)
      (by decide) (by decide)).1⟩

/-! ## The epochs -/

/-- C19. The documented epoch constants agree with the decoders: 0001=01=01 and 0000-12-30
decode to the time (0, 0); 0323-01-01 and 0323*01*01 to `qcepoch` = 117609 days;
1970-01-01 and U0 to `unixepoch` = 719164 days; 2162-01-04 and [0]0000.0 to `ufpepoch` =
789294 days; 2323-01-01 and [21]00000.0 to `tngepoch` = 848094 days; and `quadcent` is
146097 days, all of 86400 seconds. -/
theorem epoch_constants (g : List Char) :
    (julin "0001=01=01".toList = .success ⟨0, 0⟩ false
        ∧ gregin "0000-12-30".toList = .success ⟨0, 0⟩ false)
      ∧ (gregin "0323-01-01".toList = .success ⟨qcepoch, 0⟩ false
        ∧ qcin "0323*01*01".toList = .success ⟨qcepoch, 0⟩ false
        ∧ qcepoch = 117609 * 86400)
      ∧ (gregin "1970-01-01".toList = .success ⟨unixepoch, 0⟩ false
        ∧ unixin "U0".toList = .success ⟨unixepoch, 0⟩ false
        ∧ unixepoch = 719164 * 86400)
      ∧ (gregin "2162-01-04".toList = .success ⟨ufpepoch, 0⟩ false
        ∧ sdin g "[0]0000.0".toList = .success ⟨ufpepoch, 0⟩ false
        ∧ ufpepoch = 789294 * 86400)
      ∧ (gregin "2323-01-01".toList = .success ⟨tngepoch, 0⟩ false
        ∧ sdin g "[21]00000.0".toList = .success ⟨tngepoch, 0⟩ false
        ∧ tngepoch = 848094 * 86400)
      ∧ quadcent = 146097 * 86400 :=
  ⟨⟨rfl, rfl⟩, ⟨rfl, rfl, rfl⟩, ⟨rfl, rfl, rfl⟩, ⟨rfl, rfl, rfl⟩, ⟨rfl, rfl, rfl⟩, rfl⟩

/-! ## The year estimate of `calout` -/

theorem calout_eq (dt : intdate) (gp : Bool) :
    calout dt gp = docalout (if gp then '-' else '=') gp
      (u32 ((caloutEstimate dt gp).2.1 % 400)) (caloutEstimate dt gp).2.1
      (u32 (caloutEstimate dt gp).2.2) (u32 (dt.sec % 86400)) := rfl

theorem greg_year_step (z L : Nat)
    (h : (L = 366 ∧ ((z + 1) % 4 = 0 ∧ ((z + 1) % 100 ≠ 0 ∨ (z + 1) % 400 = 0)))
      ∨ (L = 365 ∧ ¬ ((z + 1) % 4 = 0 ∧ ((z + 1) % 100 ≠ 0 ∨ (z + 1) % 400 = 0)))) :
    365 * (z + 1) + (z + 1) / 4 - (z + 1) / 100 + (z + 1) / 400
      = 365 * z + z / 4 - z / 100 + z / 400 + L := by
  have a1 : z / 100 ≤ z / 4 := by omega
  have a2 : (z + 1) / 100 ≤ (z + 1) / 4 := by omega
  have b4 : (z + 1) / 4 = z / 4 + (if (z + 1) % 4 = 0 then 1 else 0) := by split_ifs <;> omega
  have b100 : (z + 1) / 100 = z / 100 + (if (z + 1) % 100 = 0 then 1 else 0) := by
    split_ifs <;> omega
  have b400 : (z + 1) / 400 = z / 400 + (if (z + 1) % 400 = 0 then 1 else 0) := by
    split_ifs <;> omega
  have c1 : (z + 1) % 100 = 0 → (z + 1) % 4 = 0 := by omega
  have c2 : (z + 1) % 400 = 0 → (z + 1) % 100 = 0 := by omega
  rw [b4, b100, b400]
  generalize z / 4 = q4 at *
  generalize z / 100 = q100 at *
  generalize z / 400 = q400 at *
  generalize (z + 1) % 4 = r4 at *
  generalize (z + 1) % 100 = r100 at *
  generalize (z + 1) % 400 = r400 at *
  split_ifs <;> omega

theorem yearDays_succ (gp : Bool) (z : Nat) :
    yearDays gp (z + 1) = yearDays gp z + ylen (isLeap gp (z + 1)) := by
  cases gp
  · have h := ylen_jleap_cases (z + 1)
    simp only [yearDays, jdaysBefore, isLeap_false, Bool.false_eq_true, if_false]
    generalize ylen (jleapyear (z + 1)) = L at *
    omega
  · simp only [yearDays, gdaysBefore, isLeap_true, if_true]
    exact greg_year_step z _ (ylen_gleap_cases (z + 1))

theorem ylen_bounds (b : Bool) : 365 ≤ ylen b ∧ ylen b ≤ 366 := by
  cases b <;> decide

/-- Every day count lies in exactly one year: the complete years elapsed. -/
theorem year_decomp (gp : Bool) (d : Nat) :
    ∃ z, yearDays gp z ≤ d ∧ d < yearDays gp (z + 1) := by
  induction d with
  | zero =>
    have h3 := yearDays_succ gp 0
    have h4 := ylen_bounds (isLeap gp (0 + 1))
    have h5 : yearDays gp 0 = 0 := by cases gp <;> rfl
    exact ⟨0, by omega, by omega⟩
  | succ d ih =>
    obtain ⟨z, h1, h2⟩ := ih
    by_cases h : d + 1 < yearDays gp (z + 1)
    · exact ⟨z, by omega, h⟩
    · have h3 := yearDays_succ gp (z + 1)
      have h4 := ylen_bounds (isLeap gp (z + 1 + 1))
      exact ⟨z + 1, by omega, by omega⟩

/-- A count of days below the sum of `j` months lies in one of them. -/
theorem span_decomp (tbl : List Nat) (j : Nat) :
    ∀ k n, n < span tbl k j →
      ∃ i d, i < j ∧ d < idx tbl (k + i) ∧ n = span tbl k i + d := by
  induction j with
  | zero => intro k n h; simp [span] at h
  | succ j ih =>
    intro k n h
    simp only [span] at h
    by_cases h0 : n < idx tbl k
    · exact ⟨0, n, by omega, by simpa using h0, by simp [span]⟩
    · obtain ⟨i, d, hi, hd, hn⟩ := ih (k + 1) (n - idx tbl k) (by omega)
      refine ⟨i + 1, d, by omega, ?_, ?_⟩
      · rw [show k + (i + 1) = k + 1 + i by omega]; exact hd
      · simp only [span]; omega

/-- Every day of a year lies in exactly one month. -/
theorem month_decomp (leap : Bool) (doy : Nat) (h : doy < ylen leap) :
    ∃ m d, m < 12 ∧ d < idx (mdays leap) m ∧ doy = cumDays leap m + d := by
  rw [← span_year] at h
  obtain ⟨i, d, hi, hd, hn⟩ := span_decomp (mdays leap) 12 0 doy h
  rw [Nat.zero_add] at hd
  exact ⟨i, d, hi, hd, hn⟩

/-- The month walk stops within 12, 24 or 36 turns when the year is right, one short or two
short. -/
theorem monthWalk_same36 (gp : Bool) (c y m d r : Nat) (hm : m < 12)
    (hd : d < idx (mdays (isLeap gp c)) m) (hr : r = cumDays (isLeap gp c) m + d) :
    monthWalk gp 36 c y 0 r = some (y, m, d) := by
  rw [hr]
  exact monthWalk_date gp c y m d 24 hm hd

theorem monthWalk_next36 (gp : Bool) (c y m d r : Nat) (hm : m < 12) (hc : c + 1 < 2 ^ 32)
    (hd : d < idx (mdays (isLeap gp (c + 1))) m)
    (hr : r = ylen (isLeap gp c) + (cumDays (isLeap gp (c + 1)) m + d)) :
    monthWalk gp 36 c y 0 r = some (add64 y 1, m, d) := by
  have h1 := monthWalk_year gp c y r 24 (by omega)
  rw [u32_of_lt _ hc] at h1
  have h2 := monthWalk_date gp (c + 1) (add64 y 1) m d 12 hm hd
  rw [show r - ylen (isLeap gp c) = cumDays (isLeap gp (c + 1)) m + d by omega] at h1
  rw [show (36 : Nat) = 24 + 12 from rfl, h1]
  exact h2

theorem monthWalk_next2_36 (gp : Bool) (c y m d r : Nat) (hm : m < 12) (hc : c + 2 < 2 ^ 32)
    (hd : d < idx (mdays (isLeap gp (c + 1 + 1))) m)
    (hr : r = ylen (isLeap gp c) + (ylen (isLeap gp (c + 1))
      + (cumDays (isLeap gp (c + 1 + 1)) m + d))) :
    monthWalk gp 36 c y 0 r = some (add64 (add64 y 1) 1, m, d) := by
  have h1 := monthWalk_year gp c y r 24 (by omega)
  rw [u32_of_lt _ (by omega)] at h1
  have h2 := monthWalk_year gp (c + 1) (add64 y 1) (r - ylen (isLeap gp c)) 12 (by omega)
  rw [u32_of_lt _ (by omega)] at h2
  have h3 := monthWalk_date gp (c + 1 + 1) (add64 (add64 y 1) 1) m d 0 hm hd
  rw [show r - ylen (isLeap gp c) - ylen (isLeap gp (c + 1))
    = cumDays (isLeap gp (c + 1 + 1)) m + d by omega] at h2
  rw [show (36 : Nat) = 24 + 12 from rfl, h1, show (24 : Nat) = 12 + 12 from rfl, h2]
  exact h3

/-- The month walk from a year that is `k` short, `k` at most 2: it reaches the date both
with the fuel of `docalout` and within 36 turns. -/
theorem monthWalk_upto2 (gp : Bool) (c y m d r k : Nat) (hm : m < 12) (hc : c + 2 < 2 ^ 32)
    (hy : y + 2 < 2 ^ 64) (hk : k ≤ 2) (hd : d < idx (mdays (isLeap gp (c + k))) m)
    (hr : r = (if 1 ≤ k then ylen (isLeap gp c) else 0)
      + ((if 2 ≤ k then ylen (isLeap gp (c + 1)) else 0)
        + (cumDays (isLeap gp (c + k)) m + d))) :
    monthWalk gp (r + 1) c y 0 r = some (y + k, m, d)
      ∧ monthWalk gp 36 c y 0 r = some (y + k, m, d) := by
  have e1 : add64 y 1 = y + 1 := add64_of_lt _ _ (by omega)
  have e2 : add64 (y + 1) 1 = y + 2 := add64_of_lt _ _ (by omega)
  interval_cases k
  · simp only [Nat.add_zero] at hd hr ⊢
    rw [if_neg (by omega), if_neg (by omega)] at hr
    exact ⟨monthWalk_same gp c y m d r hm hd (by omega),
      monthWalk_same36 gp c y m d r hm hd (by omega)⟩
  · rw [if_pos (by omega), if_neg (by omega)] at hr
    have h1 := monthWalk_next gp c y m d r hm (by omega) hd (by omega)
    have h2 := monthWalk_next36 gp c y m d r hm (by omega) hd (by omega)
    rw [e1] at h1 h2
    exact ⟨h1, h2⟩
  · rw [if_pos (by omega), if_pos (by omega)] at hr
    have h1 := monthWalk_next2 gp c y m d r hm (by omega) hd hr
    have h2 := monthWalk_next2_36 gp c y m d r hm (by omega) hd hr
    rw [e1, e2] at h1 h2
    exact ⟨h1, h2⟩

/-- The days that remain after the estimated Julian years. -/
theorem jul_resid (e z doy r k L1 L2 : Nat) (hk : z = e + k) (hk2 : k ≤ 2)
    (h1 : (L1 = 366 ∧ (e + 1) % 4 = 0) ∨ (L1 = 365 ∧ ¬ (e + 1) % 4 = 0))
    (h2 : (L2 = 366 ∧ (e + 2) % 4 = 0) ∨ (L2 = 365 ∧ ¬ (e + 2) % 4 = 0))
    (hr : r = 365 * z + z / 4 + doy - (e * 365 + e / 4)) :
    r = (if 1 ≤ k then L1 else 0) + ((if 2 ≤ k then L2 else 0) + doy) := by
  subst hk
  interval_cases k
  · simp only [Nat.add_zero] at hr
    rw [if_neg (by omega), if_neg (by omega)]; omega
  · rw [if_pos (by omega), if_neg (by omega)]; omega
  · rw [if_pos (by omega), if_pos (by omega)]; omega

/-- The days that remain after the estimated Gregorian years. -/
theorem greg_resid (e z doy r k L1 L2 : Nat) (hk : z = e + k) (hk2 : k ≤ 2)
    (h1 : (L1 = 366 ∧ ((e + 1) % 4 = 0 ∧ ((e + 1) % 100 ≠ 0 ∨ (e + 1) % 400 = 0)))
      ∨ (L1 = 365 ∧ ¬ ((e + 1) % 4 = 0 ∧ ((e + 1) % 100 ≠ 0 ∨ (e + 1) % 400 = 0))))
    (h2 : (L2 = 366 ∧ ((e + 2) % 4 = 0 ∧ ((e + 2) % 100 ≠ 0 ∨ (e + 2) % 400 = 0)))
      ∨ (L2 = 365 ∧ ¬ ((e + 2) % 4 = 0 ∧ ((e + 2) % 100 ≠ 0 ∨ (e + 2) % 400 = 0))))
    (hr : r = 365 * z + z / 4 - z / 100 + z / 400 + doy + e / 100 - e / 400
      - (e * 365 + e / 4)) :
    r = (if 1 ≤ k then L1 else 0) + ((if 2 ≤ k then L2 else 0) + doy) := by
  subst hk
  interval_cases k
  · simp only [Nat.add_zero] at hr
    rw [if_neg (by omega), if_neg (by omega)]
    have := greg_resid0 e doy r hr
    omega
  · rw [if_pos (by omega), if_neg (by omega)]
    have := greg_resid1 e doy r L1 h1 hr
    omega
  · rw [if_pos (by omega), if_pos (by omega)]
    exact greg_resid2 e doy r L1 L2 h1 h2 hr

theorem tod_split (tod : Nat) (h : tod < 86400) :
    tod = 3600 * (tod / 3600) + 60 * (tod % 3600 / 60) + tod % 60
      ∧ tod / 3600 < 24 ∧ tod % 3600 / 60 < 60 ∧ tod % 60 < 60 := by
  omega

/-- What `calout` computes for the Julian calendar, for any time whose day count is day `dd`
of month `m` (both from 0) in the year after `z` complete years. -/
theorem jul_calout (sec frac z m dd : Nat) (hs : sec < 2 ^ 64)
    (hz : sec / 86400 = jdaysBefore z + (cumDays (jleapyear (z + 1)) m + dd)) (hm : m < 12)
    (hd : dd < idx (mdays (jleapyear (z + 1))) m) :
    ∃ e r, e = sec / 86400 / 366 + sec / 86400 / (366 * 487)
      ∧ caloutEstimate ⟨sec, frac⟩ false = (e, e + 1, r)
      ∧ e ≤ z ∧ z ≤ e + 2 ∧ e * 365 + e / 4 ≤ sec / 86400
      ∧ r = sec / 86400 - (e * 365 + e / 4) ∧ r < 3 * 366
      ∧ monthWalk false 36 (u32 ((e + 1) % 400)) (e + 1) 0 (u32 r) = some (z + 1, m, dd)
      ∧ calout ⟨sec, frac⟩ false = some (calfmt '=' (z + 1) (m + 1) (dd + 1)
          (sec % 86400 / 3600) (sec % 86400 % 3600 / 60) (sec % 86400 % 60)) := by
  obtain ⟨t, ht⟩ : ∃ t, t = sec / 86400 := ⟨_, rfl⟩
  rw [← ht] at hz ⊢
  have htb : t < 2 ^ 48 := by omega
  have hdoy := cumDays_add_lt (jleapyear (z + 1)) m dd hm hd
  have hlen := ylen_bounds (jleapyear (z + 1))
  unfold jdaysBefore at hz
  generalize hdoydef : cumDays (jleapyear (z + 1)) m + dd = doy at *
  have hd365 : doy ≤ 365 := by omega
  obtain ⟨e, he⟩ : ∃ e, e = t / 366 + t / (366 * 487) := ⟨_, rfl⟩
  have hest := jul_estimate z doy t e hz hd365 he
  obtain ⟨hr32, hle⟩ := jul_walk_bound e t z doy hz hest hd365
  have hzb : z < 2 ^ 48 := by omega
  have hebig : e < 2 ^ 48 := by omega
  obtain ⟨k, hk⟩ : ∃ k, z = e + k := ⟨z - e, by omega⟩
  have hk2 : k ≤ 2 := by omega
  have hres := jul_resid e z doy (t - (e * 365 + e / 4)) k _ _ hk hk2
    (ylen_jleap_cases (e + 1)) (ylen_jleap_cases (e + 2)) (by rw [hz])
  have hL1 := ylen_bounds (jleapyear (e + 1))
  have hL2 := ylen_bounds (jleapyear (e + 2))
  have hr3 : t - (e * 365 + e / 4) < 3 * 366 := by
    rw [hres]; split_ifs <;> omega
  have hc1 : isLeap false ((e + 1) % 400) = jleapyear (e + 1) := by
    rw [isLeap_false]; exact jleapyear_congr _ _ (by omega)
  have hc2 : isLeap false ((e + 1) % 400 + 1) = jleapyear (e + 2) := by
    rw [isLeap_false]; exact jleapyear_congr _ _ (by omega)
  have hc3 : isLeap false ((e + 1) % 400 + k) = jleapyear (z + 1) := by
    rw [isLeap_false]; exact jleapyear_congr _ _ (by omega)
  have hwalk := monthWalk_upto2 false ((e + 1) % 400) (e + 1) m dd (t - (e * 365 + e / 4)) k hm
    (by omega) (by omega) hk2 (by rw [hc3]; exact hd)
    (by rw [hc1, hc2, hc3, hdoydef]; exact hres)
  rw [show e + 1 + k = z + 1 by omega] at hwalk
  have hest1 : caloutEstimate ⟨sec, frac⟩ false = (e, e + 1, t - (e * 365 + e / 4)) := by
    have ha : add64 (t / 366) (t / (366 * 487)) = e := by
      rw [he]; exact add64_of_lt _ _ (by omega)
    simp only [caloutEstimate, Bool.false_eq_true, if_false, ← ht, ha]
    simp (disch := omega) only [add64_of_lt, mul64_of_lt, sub64_of_le]
  have hu1 : u32 ((e + 1) % 400) = (e + 1) % 400 := u32_of_lt _ (by omega)
  have hu2 : u32 (t - (e * 365 + e / 4)) = t - (e * 365 + e / 4) := u32_of_lt _ (by omega)
  have htod := tod_split (sec % 86400) (Nat.mod_lt _ (by norm_num))
  have hu3 : u32 (sec % 86400) = sec % 86400 := u32_of_lt _ (by omega)
  refine ⟨e, _, he, hest1, hest.1, hest.2, hle, rfl, hr3, ?_, ?_⟩
  · rw [hu1, hu2]; exact hwalk.2
  · rw [calout_eq, hest1]
    simp only [Bool.false_eq_true, if_false]
    rw [hu1, hu2, hu3]
    exact docalout_of_walk '=' false _ _ _ _ (z + 1) m dd _ _ _ hwalk.1 htod.1 htod.2.2.1
      htod.2.2.2

theorem greg_est_lower (D e : Nat) (hD : 146095 ≤ D)
    (he : e = D / 146097 * 400 + D % 146097 / 366) : 399 ≤ e := by
  omega

/-- What `calout` computes for the Gregorian calendar, for any time whose day count, taken
from 400 years less 2 days before the internal epoch, is day `dd` of month `m` (both from
0) in the year after `z` complete years. -/
theorem greg_calout (sec frac z m dd : Nat) (hs : sec < 2 ^ 64)
    (hz : sec / 86400 + 146095 = gdaysBefore z + (cumDays (gleapyear (z + 1)) m + dd))
    (hm : m < 12) (hd : dd < idx (mdays (gleapyear (z + 1))) m) :
    ∃ e r, e = (sec / 86400 + 146095) / 146097 * 400 + (sec / 86400 + 146095) % 146097 / 366
      ∧ caloutEstimate ⟨sec, frac⟩ true = (e, e - 399, r)
      ∧ 399 ≤ e ∧ e ≤ z ∧ z ≤ e + 2
      ∧ e / 400 ≤ sec / 86400 + 146095 + e / 100
      ∧ e * 365 + e / 4 ≤ sec / 86400 + 146095 + e / 100 - e / 400
      ∧ r = sec / 86400 + 146095 + e / 100 - e / 400 - (e * 365 + e / 4) ∧ r < 3 * 366
      ∧ monthWalk true 36 (u32 ((e - 399) % 400)) (e - 399) 0 (u32 r) = some (z - 399, m, dd)
      ∧ calout ⟨sec, frac⟩ true = some (calfmt '-' (z - 399) (m + 1) (dd + 1)
          (sec % 86400 / 3600) (sec % 86400 % 3600 / 60) (sec % 86400 % 60)) := by
  obtain ⟨t, ht⟩ : ∃ t, t = sec / 86400 + 146095 := ⟨_, rfl⟩
  rw [← ht] at hz ⊢
  have htb : t < 2 ^ 48 := by omega
  have htl : 146095 ≤ t := by omega
  have hdoy := cumDays_add_lt (gleapyear (z + 1)) m dd hm hd
  have hL := ylen_gleap_cases (z + 1)
  unfold gdaysBefore at hz
  generalize hdoydef : cumDays (gleapyear (z + 1)) m + dd = doy at *
  have hd365 : doy ≤ 365 := by omega
  have hd366 : doy = 365 → ((z + 1) % 4 = 0 ∧ ((z + 1) % 100 ≠ 0 ∨ (z + 1) % 400 = 0)) := by
    omega
  clear hL hdoy
  obtain ⟨e, he⟩ : ∃ e, e = t / 146097 * 400 + t % 146097 / 366 := ⟨_, rfl⟩
  have hest := greg_estimate z doy t e hz hd365 hd366 he
  have he399 := greg_est_lower t e htl he
  obtain ⟨hr32, hle⟩ := greg_walk_bound e t z doy hz hest hd365
  have hebig : e < 2 ^ 48 := by
    have h1 : e ≤ t / 146097 * 400 + 399 := by omega
    clear hz hest hr32 hle hd366
    omega
  have hzb : z < 2 ^ 49 := by
    have := hest.2
    clear hz hr32 hle hd366 he
    omega
  obtain ⟨k, hk⟩ : ∃ k, z = e + k := ⟨z - e, by omega⟩
  have hk2 : k ≤ 2 := by omega
  have hres := greg_resid e z doy (t + e / 100 - e / 400 - (e * 365 + e / 4)) k _ _ hk hk2
    (ylen_gleap_cases (e + 1)) (ylen_gleap_cases (e + 2)) (by rw [hz])
  have hL1 := ylen_bounds (gleapyear (e + 1))
  have hL2 := ylen_bounds (gleapyear (e + 2))
  have hr3 : t + e / 100 - e / 400 - (e * 365 + e / 4) < 3 * 366 := by
    rw [hres]; split_ifs <;> omega
  have hc1 : isLeap true ((e - 399) % 400) = gleapyear (e + 1) := by
    rw [isLeap_true]; exact gleapyear_congr _ _ (by omega)
  have hc2 : isLeap true ((e - 399) % 400 + 1) = gleapyear (e + 2) := by
    rw [isLeap_true]; exact gleapyear_congr _ _ (by omega)
  have hc3 : isLeap true ((e - 399) % 400 + k) = gleapyear (z + 1) := by
    rw [isLeap_true]; exact gleapyear_congr _ _ (by omega)
  have hwalk := monthWalk_upto2 true ((e - 399) % 400) (e - 399) m dd
    (t + e / 100 - e / 400 - (e * 365 + e / 4)) k hm
    (by omega) (by omega) hk2 (by rw [hc3]; exact hd)
    (by rw [hc1, hc2, hc3, hdoydef]; exact hres)
  rw [show e - 399 + k = z - 399 by omega] at hwalk
  have hest1 : caloutEstimate ⟨sec, frac⟩ true
      = (e, e - 399, t + e / 100 - e / 400 - (e * 365 + e / 4)) := by
    have hb : add64 (sec / 86400) 146095 = t := by
      rw [ht]; exact add64_of_lt _ _ (by omega)
    have ha : add64 (mul64 (t / 146097) 400) (t % 146097 / 366) = e := by
      rw [he, mul64_of_lt _ _ (by omega)]; exact add64_of_lt _ _ (by omega)
    simp only [caloutEstimate, if_true, hb, ha]
    clear hz hest hres hwalk
    simp (disch := omega) only [add64_of_lt, mul64_of_lt, sub64_of_le]
  have hu1 : u32 ((e - 399) % 400) = (e - 399) % 400 := u32_of_lt _ (by omega)
  have hu2 : u32 (t + e / 100 - e / 400 - (e * 365 + e / 4))
      = t + e / 100 - e / 400 - (e * 365 + e / 4) := u32_of_lt _ hr32
  have htod := tod_split (sec % 86400) (Nat.mod_lt _ (by norm_num))
  have hu3 : u32 (sec % 86400) = sec % 86400 := u32_of_lt _ (by omega)
  refine ⟨e, _, he, hest1, he399, hest.1, hest.2, by omega, hle, rfl, hr3, ?_, ?_⟩
  · rw [hu1, hu2]; exact hwalk.2
  · rw [calout_eq, hest1]
    simp only [if_true]
    rw [hu1, hu2, hu3]
    exact docalout_of_walk '-' true _ _ _ _ (z - 399) m dd _ _ _ hwalk.1 htod.1 htod.2.2.1
      htod.2.2.2

/-- C21. The year estimate of `calout` never overshoots and is at most two years short: for
every internal time and both calendars there is the true count `z` of complete calendar
years elapsed (the day count lies in the year after `z` years); the estimate that `calout`
computes is the one of the specification, at most `z` and at least `z - 2`; the days of the
estimated years do not exceed the day count, so the subtraction does not wrap, and the days
that remain are below 3*366; the month walk of `docalout` stops within 36 turns of fuel,
that is after fewer than 36 steps, at a month 0..11 and a day below the length of that
month, and `calout` returns the text of that date. -/
theorem calout_year_estimate (gp : Bool) (t : intdate) (hs : t.sec < 2 ^ 64) :
    ∃ z Y m d, yearDays gp z ≤ caloutDays gp t.sec ∧ caloutDays gp t.sec < yearDays gp (z + 1)
      ∧ (caloutEstimate t gp).1 = yearEstimate gp (caloutDays gp t.sec)
      ∧ (caloutEstimate t gp).1 ≤ z ∧ z ≤ (caloutEstimate t gp).1 + 2
      ∧ yearDays gp (caloutEstimate t gp).1 ≤ caloutDays gp t.sec
      ∧ (caloutEstimate t gp).2.2
          = caloutDays gp t.sec - yearDays gp (caloutEstimate t gp).1
      ∧ (caloutEstimate t gp).2.2 < 3 * 366
      ∧ monthWalk gp 36 (u32 ((caloutEstimate t gp).2.1 % 400)) (caloutEstimate t gp).2.1 0
          (u32 (caloutEstimate t gp).2.2) = some (Y, m, d)
      ∧ m < 12 ∧ d < idx (xdays gp Y) m
      ∧ calout t gp = some (calfmt (calSep gp) Y (m + 1) (d + 1) (t.sec % 86400 / 3600)
          (t.sec % 86400 % 3600 / 60) (t.sec % 86400 % 60)) := by
  obtain ⟨sec, frac⟩ := t
  simp only at hs ⊢
  obtain ⟨z, hz1, hz2⟩ := year_decomp gp (caloutDays gp sec)
  have hsucc := yearDays_succ gp z
  obtain ⟨m, d, hm, hd, hdoy⟩ := month_decomp (isLeap gp (z + 1))
    (caloutDays gp sec - yearDays gp z) (by omega)
  cases gp
  · simp only [caloutDays, yearDays, Bool.false_eq_true, if_false, Nat.add_zero, isLeap_false,
      yearEstimate, calSep] at *
    obtain ⟨e, r, he, hest, h1, h2, h3, h4, h5, h6, h7⟩ := jul_calout sec frac z m d hs
      (by omega) hm hd
    rw [hest]
    simp only
    refine ⟨z, z + 1, m, d, hz1, hz2, he, h1, h2, ?_, ?_, h5, h6, hm, ?_, h7⟩
    · unfold jdaysBefore; omega
    · rw [h4]; unfold jdaysBefore; omega
    · rw [xdays_eq, isLeap_false]; exact hd
  · simp only [caloutDays, yearDays, if_true, isLeap_true, yearEstimate, calSep] at *
    obtain ⟨e, r, he, hest, h0, h1, h2, h3a, h3, h4, h5, h6, h7⟩ := greg_calout sec frac z m d hs
      (by omega) hm hd
    rw [hest]
    simp only
    refine ⟨z, z - 399, m, d, hz1, hz2, he, h1, h2, ?_, ?_, h5, h6, hm, ?_, h7⟩
    · unfold gdaysBefore; omega
    · rw [h4]; unfold gdaysBefore; omega
    · rw [xdays_eq, isLeap_true, gleapyear_congr (z - 399) (z + 1) (by omega)]; exact hd

theorem calout_year_estimate_witness :
    ∃ z Y m d, yearDays true z ≤ caloutDays true 0 ∧ caloutDays true 0 < yearDays true (z + 1)
      ∧ (caloutEstimate ⟨0, 0⟩ true).1 = yearEstimate true (caloutDays true 0)
      ∧ (caloutEstimate ⟨0, 0⟩ true).1 ≤ z ∧ z ≤ (caloutEstimate ⟨0, 0⟩ true).1 + 2
      ∧ yearDays true (caloutEstimate ⟨0, 0⟩ true).1 ≤ caloutDays true 0
      ∧ (caloutEstimate ⟨0, 0⟩ true).2.2
          = caloutDays true 0 - yearDays true (caloutEstimate ⟨0, 0⟩ true).1
      ∧ (caloutEstimate ⟨0, 0⟩ true).2.2 < 3 * 366
      ∧ monthWalk true 36 (u32 ((caloutEstimate ⟨0, 0⟩ true).2.1 % 400))
          (caloutEstimate ⟨0, 0⟩ true).2.1 0 (u32 (caloutEstimate ⟨0, 0⟩ true).2.2)
          = some (Y, m, d)
      ∧ m < 12 ∧ d < idx (xdays true Y) m
      ∧ calout ⟨0, 0⟩ true = some (calfmt (calSep true) Y (m + 1) (d + 1) (0 % 86400 / 3600)
          (0 % 86400 % 3600 / 60) (0 % 86400 % 60)) :=
  calout_year_estimate true ⟨0, 0⟩ (by decide)

/-! ## From the internal time to the calendar and back -/

/-- The Julian text of any time below 365 * 10^11 days is read back as the whole seconds. -/
theorem julout_julin (sec frac : Nat) (hs : sec < 86400 * 365 * 10 ^ 11) :
    ∃ Y M D h mi s, (Y ≤ 10 ^ 11 ∧ 1 ≤ M ∧ M ≤ 12 ∧ 1 ≤ D ∧ D ≤ idx (xdays false Y) (M - 1)
        ∧ h ≤ 23 ∧ mi ≤ 59 ∧ s ≤ 59)
      ∧ calout ⟨sec, frac⟩ false = some (calfmt '=' Y M D h mi s)
      ∧ calin (calfmt '=' Y M D h mi s) false = .success ⟨sec, 0⟩ false := by
  have h10 : (10 : Nat) ^ 11 = 100000000000 := by norm_num
  rw [h10] at hs ⊢
  obtain ⟨z, hz1, hz2⟩ := year_decomp false (sec / 86400)
  have hsucc := yearDays_succ false z
  obtain ⟨m, d, hm, hd, hdoy⟩ := month_decomp (isLeap false (z + 1))
    (sec / 86400 - yearDays false z) (by omega)
  simp only [yearDays, Bool.false_eq_true, if_false, isLeap_false] at *
  obtain ⟨e, r, -, -, -, -, -, -, -, -, hout⟩ := jul_calout sec frac z m d (by omega)
    (by omega) hm hd
  have htod := tod_split (sec % 86400) (Nat.mod_lt _ (by norm_num))
  have hD31 := idx_mdays_le (jleapyear (z + 1)) m
  have hzb : z + 1 ≤ 100000000000 := by unfold jdaysBefore at hz1; omega
  have hrc := readcal_calfmt '=' (z + 1) (m + 1) (d + 1) (sec % 86400 / 3600)
    (sec % 86400 % 3600 / 60) (sec % 86400 % 60) (by decide) (by omega) (by omega) (by omega)
    (by omega) (by omega) (by omega)
  have hin := calin_jul_of_readcal _ (z + 1) (m + 1) (d + 1) _ _ _ false hrc (by omega)
    (by rw [h10]; exact hzb) (by omega) (by omega) (by omega)
    (by rw [Nat.add_sub_cancel]; omega) (by omega) (by omega) (by omega)
  refine ⟨z + 1, m + 1, d + 1, _, _, _, ⟨hzb, by omega, by omega, by omega, ?_, by omega,
    by omega, by omega⟩, hout, ?_⟩
  · rw [xdays_eq, isLeap_false, Nat.add_sub_cancel]; omega
  · unfold julin at hin
    rw [hin, Outcome.success.injEq, intdate.mk.injEq]
    refine ⟨⟨?_, rfl⟩, rfl⟩
    unfold julSecs
    rw [Nat.add_sub_cancel, Nat.add_sub_cancel, Nat.add_sub_cancel]
    omega

theorem greg_unshift (z t doy : Nat) (hz : 400 ≤ z)
    (ht : t + 146095 = 365 * z + z / 4 - z / 100 + z / 400 + doy) :
    t = 365 * (z - 400) + (z - 400) / 4 - (z - 400) / 100 + (z - 400) / 400 + 2 + doy := by
  omega

theorem last_month (m d doy : Nat) (hm : m < 12) (hd : d < idx (mdays true) m)
    (hdoy : doy = cumDays true m + d) (h : 364 ≤ doy) : m = 11 ∧ (d = 29 ∨ d = 30) := by
  interval_cases m <;>
    simp only [mdays, cumDays, span, idx, lyrdays, if_true, List.getD_cons_zero,
      List.getD_cons_succ] at hd hdoy <;> omega

/-- The Gregorian text of any time below 365 * 10^11 days is read back as the whole
seconds. -/
theorem gregout_gregin (sec frac : Nat) (hs : sec < 86400 * 365 * 10 ^ 11) :
    ∃ Y M D h mi s, (Y ≤ 10 ^ 11 ∧ 1 ≤ M ∧ M ≤ 12 ∧ 1 ≤ D ∧ D ≤ idx (xdays true Y) (M - 1)
        ∧ h ≤ 23 ∧ mi ≤ 59 ∧ s ≤ 59)
      ∧ calout ⟨sec, frac⟩ true = some (calfmt '-' Y M D h mi s)
      ∧ calin (calfmt '-' Y M D h mi s) true = .success ⟨sec, 0⟩ false := by
  have h10 : (10 : Nat) ^ 11 = 100000000000 := by norm_num
  rw [h10] at hs ⊢
  obtain ⟨z, hz1, hz2⟩ := year_decomp true (sec / 86400 + 146095)
  have hsucc := yearDays_succ true z
  obtain ⟨m, d, hm, hd, hdoy⟩ := month_decomp (isLeap true (z + 1))
    (sec / 86400 + 146095 - yearDays true z) (by omega)
  simp only [yearDays, if_true, isLeap_true] at *
  obtain ⟨e, r, -, -, he399, hez, -, -, -, -, -, -, hout⟩ := greg_calout sec frac z m d
    (by omega) (by omega) hm hd
  have htod := tod_split (sec % 86400) (Nat.mod_lt _ (by norm_num))
  have hD31 := idx_mdays_le (gleapyear (z + 1)) m
  have hz399 : 399 ≤ z := by omega
  have hl : gleapyear (z - 399) = gleapyear (z + 1) := gleapyear_congr _ _ (by omega)
  have hrc := readcal_calfmt '-' (z - 399) (m + 1) (d + 1) (sec % 86400 / 3600)
    (sec % 86400 % 3600 / 60) (sec % 86400 % 60) (by decide)
    (by unfold gdaysBefore at hz1; omega) (by omega) (by omega)
    (by omega) (by omega) (by omega)
  obtain ⟨doy, hdoyd⟩ : ∃ doy, doy = cumDays (gleapyear (z + 1)) m + d := ⟨_, rfl⟩
  rw [← hdoyd] at hdoy
  by_cases hz4 : 400 ≤ z
  · have hsh := greg_unshift z (sec / 86400) doy hz4 (by unfold gdaysBefore at hz1 hdoy; omega)
    have hzb : z - 399 ≤ 100000000000 := by
      clear hz1 hz2 hsucc hdoy
      omega
    have hin := calin_greg_of_readcal _ (z - 399) (m + 1) (d + 1) _ _ _ false hrc (by omega)
      (by rw [h10]; exact hzb) (by omega) (by omega) (by omega)
      (by rw [Nat.add_sub_cancel, hl]; omega) (by omega) (by omega) (by omega)
    refine ⟨z - 399, m + 1, d + 1, _, _, _, ⟨hzb, by omega, by omega, by omega, ?_, by omega,
      by omega, by omega⟩, hout, ?_⟩
    · rw [xdays_eq, isLeap_true, Nat.add_sub_cancel, hl]; omega
    · unfold gregin at hin
      rw [hin, Outcome.success.injEq, intdate.mk.injEq]
      refine ⟨⟨?_, rfl⟩, rfl⟩
      unfold gregSecs gdaysBefore
      rw [Nat.add_sub_cancel, Nat.add_sub_cancel, hl, ← hdoyd,
        show z - 399 - 1 = z - 400 by omega, ← hsh]
      omega
  · have hz0 : z = 399 := by omega
    subst hz0
    have hleap : gleapyear (399 + 1) = true := by decide
    rw [hleap] at hd hdoyd hD31
    have hg : gdaysBefore 399 = 145731 := by decide
    rw [hg] at hz1 hdoy
    obtain ⟨hm11, hd2⟩ := last_month m d doy hm hd hdoyd (by omega)
    subst hm11
    have hc : cumDays true 11 = 335 := by decide
    rw [hc] at hdoyd
    have hin := gregin_year_zero _ (d + 1) _ _ _ false hrc (by omega) (by omega) (by omega)
      (by omega)
    refine ⟨0, 12, d + 1, _, _, _, ⟨by omega, by omega, by omega, by omega, ?_, by omega,
      by omega, by omega⟩, hout, ?_⟩
    · rw [show idx (xdays true 0) (12 - 1) = 31 by decide]; omega
    · unfold gregin at hin
      rw [show (399 : Nat) - 399 = 0 from rfl, show (11 : Nat) + 1 = 12 from rfl] at hin
      rw [hin, Outcome.success.injEq, intdate.mk.injEq]
      refine ⟨⟨?_, rfl⟩, rfl⟩
      omega

theorem calout_calin (gp : Bool) (sec frac : Nat) (hs : sec < 86400 * 365 * 10 ^ 11) :
    ∃ Y M D h mi s, (Y ≤ 10 ^ 11 ∧ 1 ≤ M ∧ M ≤ 12 ∧ 1 ≤ D ∧ D ≤ idx (xdays gp Y) (M - 1)
        ∧ h ≤ 23 ∧ mi ≤ 59 ∧ s ≤ 59)
      ∧ calout ⟨sec, frac⟩ gp = some (calfmt (calSep gp) Y M D h mi s)
      ∧ calin (calfmt (calSep gp) Y M D h mi s) gp = .success ⟨sec, 0⟩ false := by
  cases gp
  · exact julout_julin sec frac hs
  · exact gregout_gregin sec frac hs

/-- C23. Calendar encode-then-decode recovers the whole seconds: for every internal time
with seconds below 86400 * 365 * 10^11 and for each of the two calendars, `calout` prints the
text of a valid date-time (year at most 10^11, month 1..12, day within the month, time of
day in range), `calin` accepts that text with `errno` clear and decodes it to the same
seconds with fraction 0; so two times of the range that are printed alike have the same
seconds. -/
theorem calendar_encode_decode (gp : Bool) (t : intdate) (hs : t.sec < 86400 * 365 * 10 ^ 11) :
    (∃ Y M D h mi s, (Y ≤ 10 ^ 11 ∧ 1 ≤ M ∧ M ≤ 12 ∧ 1 ≤ D ∧ D ≤ idx (xdays gp Y) (M - 1)
        ∧ h ≤ 23 ∧ mi ≤ 59 ∧ s ≤ 59)
      ∧ calout t gp = some (calfmt (calSep gp) Y M D h mi s)
      ∧ calin (calfmt (calSep gp) Y M D h mi s) gp = .success ⟨t.sec, 0⟩ false)
      ∧ ∀ u : intdate, u.sec < 86400 * 365 * 10 ^ 11 → calout u gp = calout t gp →
          u.sec = t.sec := by
  obtain ⟨sec, frac⟩ := t
  simp only at hs ⊢
  refine ⟨calout_calin gp sec frac hs, ?_⟩
  intro u hu heq
  obtain ⟨usec, ufrac⟩ := u
  simp only at hu ⊢
  obtain ⟨Y, M, D, h, mi, s, -, ho, hi⟩ := calout_calin gp sec frac hs
  obtain ⟨Y2, M2, D2, h2, mi2, s2, -, ho2, hi2⟩ := calout_calin gp usec ufrac hu
  rw [ho, ho2, Option.some.injEq] at heq
  rw [heq, hi, Outcome.success.injEq, intdate.mk.injEq] at hi2
  exact hi2.1.1.symm

theorem calendar_encode_decode_witness :
    (∃ Y M D h mi s, (Y ≤ 10 ^ 11 ∧ 1 ≤ M ∧ M ≤ 12 ∧ 1 ≤ D ∧ D ≤ idx (xdays true Y) (M - 1)
        ∧ h ≤ 23 ∧ mi ≤ 59 ∧ s ≤ 59)
      ∧ calout ⟨62135769600, 7⟩ true = some (calfmt (calSep true) Y M D h mi s)
      ∧ calin (calfmt (calSep true) Y M D h mi s) true = .success ⟨62135769600, 0⟩ false)
      ∧ ∀ u : intdate, u.sec < 86400 * 365 * 10 ^ 11 →
          calout u true = calout ⟨62135769600, 7⟩ true → u.sec = 62135769600 :=
  calendar_encode_decode true ⟨62135769600, 7⟩ (by decide)

/-! ## The order of stardates -/

theorem efrac_mono (a b : Nat) (h : a < b) : efrac a < efrac b := by
  unfold efrac; omega

theorem efrac_split (I F : Nat) : efrac (I * 1000000 + F) = 17280 * I * 2 ^ 32 + efrac F := by
  unfold efrac; omega

theorem ticks_of (sec f : Nat) :
    (⟨sec + f / 2 ^ 32, f % 2 ^ 32⟩ : intdate).ticks = sec * 2 ^ 32 + f := by
  rw [ticks_mk]; omega

/-- The time of a valid stardate before the TNG era, in ticks of 2^-32 s: the position in
millionths of an early unit times 54/3125 s, rounded up. -/
theorem sdinTime_key (neg : Bool) (n I F : Nat) (hv : ValidStardate neg n I)
    (hpre : neg = true ∨ n ≤ 20) (hF : F ≤ 999999) :
    (sdinTime neg n I F).ticks = 111801600 * 2 ^ 32 + efrac (sdKey neg n I F)
      ∧ (sdinTime neg n I F).frac < 2 ^ 32 := by
  have h9 : (10 : Nat) ^ 9 = 1000000000 := by norm_num
  have hlt : ∀ e : Nat, e % 2 ^ 32 < 2 ^ 32 := fun e => Nat.mod_lt _ (by norm_num)
  rcases hv with ⟨h1, h2, h3, h4⟩ | ⟨h1, h2, h3⟩ | ⟨h1, h2, h3⟩ | ⟨h1, h2, h3, h4⟩
  · subst h1
    have hee := efrac_lt F hF
    rw [sdinTime_neg n I F h2 (by omega) h4 hF (by simp only [ufpepoch]; omega)]
    refine ⟨?_, hlt _⟩
    rw [ticks_mk]
    simp only [sdKey, if_true, ufpepoch]
    rw [show (394 - n) * 10000000000 + I * 1000000 + F
      = ((394 - n) * 10000 + I) * 1000000 + F by omega, efrac_split]
    generalize efrac F = ef at *
    omega
  · subst h1
    by_cases hb : n < 19 ∨ I < 7340
    · rw [sdinTime_early n I F h2 h3 hb hF]
      refine ⟨?_, hlt _⟩
      rw [ticks_of]
      have hk : (n < 19 ∨ (n = 19 ∧ I < 7340)) := by omega
      have hkey : sdKey false n I F = (394 + n) * 10000000000 + I * 1000000 + F := by
        unfold sdKey
        rw [if_neg (by decide), if_pos hk]
      rw [hkey]
      simp only [ufpepoch]
      rw [show (394 + n) * 10000000000 + I * 1000000 + F
        = ((394 + n) * 10000 + I) * 1000000 + F by omega, efrac_split]
      omega
    · have hn : n = 19 := by omega
      subst hn
      rw [sdinTime_film 19 I I F (by omega) (by omega) hF (Or.inl ⟨rfl, h3, rfl⟩),
        sdinFiddle_eq I F (by omega) (by omega) hF]
      refine ⟨?_, hlt _⟩
      have hk : ¬ ((19 : Nat) < 19 ∨ ((19 : Nat) = 19 ∧ I < 7340)) := by omega
      by_cases h78 : 7840 ≤ I
      · rw [if_pos h78, ticks_of]
        have hkey : sdKey false 19 I F
            = 4130000000000 + (32340 + 10 * (I + 10000 * (19 - 19) - 7840)) * 1000000
              + 10 * F := by
          unfold sdKey
          rw [if_neg (by decide), if_neg hk, if_neg (by omega)]
        rw [hkey]
        simp only [ufpepoch]
        rw [show 4130000000000 + (32340 + 10 * (I + 10000 * (19 - 19) - 7840)) * 1000000 + 10 * F
          = (4130000 + (32340 + 10 * (I - 7840) + F / 20000 / 5)) * 1000000
            + (F % 20000 * 10 + F / 20000 % 5 * 200000) by omega, efrac_split]
        omega
      · rw [if_neg h78, ticks_of]
        have hkey : sdKey false 19 I F
            = 4130000000000 + (7340 + 50 * (I - 7340)) * 1000000 + 50 * F := by
          unfold sdKey
          rw [if_neg (by decide), if_neg hk, if_pos ⟨rfl, by omega⟩]
        rw [hkey]
        simp only [ufpepoch]
        rw [show 4130000000000 + (7340 + 50 * (I - 7340)) * 1000000 + 50 * F
          = (4130000 + (7340 + 50 * (I - 7340) + F / 20000)) * 1000000
            + F % 20000 * 50 by omega, efrac_split]
        omega
  · subst h1 h2
    rw [sdinTime_film 20 I (I + 10000) F (by omega) (by omega) hF (Or.inr ⟨rfl, h3, rfl⟩),
      sdinFiddle_eq (I + 10000) F (by omega) (by omega) hF, if_pos (by omega)]
    refine ⟨?_, hlt _⟩
    rw [ticks_of]
    have hkey : sdKey false 20 I F
        = 4130000000000 + (32340 + 10 * (I + 10000 * (20 - 19) - 7840)) * 1000000
          + 10 * F := by
      unfold sdKey
      rw [if_neg (by decide), if_neg (by omega), if_neg (by omega)]
    rw [hkey]
    simp only [ufpepoch]
    rw [show 4130000000000 + (32340 + 10 * (I + 10000 * (20 - 19) - 7840)) * 1000000 + 10 * F
      = (4130000 + (32340 + 10 * (I + 10000 - 7840) + F / 20000 / 5)) * 1000000
        + (F % 20000 * 10 + F / 20000 % 5 * 200000) by omega, efrac_split]
    omega
  · subst h1
    rcases hpre with h | h
    · exact absurd h (by decide)
    · omega

/-- The time of a valid stardate of the TNG era, in ticks of 2^-32 s: the position in
millionths of a unit times 3944619/125000000 s, rounded up. -/
theorem sdinTime_tng_ticks (n I F : Nat) (hn : 21 ≤ n) (hn2 : n ≤ 10 ^ 9) (hI : I ≤ 99999)
    (hF : F ≤ 999999) :
    (sdinTime false n I F).ticks = 73275321600 * 2 ^ 32
        + (((n - 21) * 100000000000 + (I * 1000000 + F)) * 3944619 * 2 ^ 32 + 124999999)
          / 125000000
      ∧ (sdinTime false n I F).frac < 2 ^ 32 := by
  have h9 : (10 : Nat) ^ 9 = 1000000000 := by norm_num
  rw [sdinTime_tng n I F hn hI hF (tng_issue_bound n I F hn2 hI hF), ticks_mk]
  simp only [tngepoch]
  have hU : I * 1000000 + F ≤ 99999999999 := by omega
  generalize I * 1000000 + F = U at *
  constructor
  · omega
  · omega

/-- The order of the stardates before the TNG era is the order of their positions. -/
theorem sdKey_lt (neg1 : Bool) (n1 I1 F1 : Nat) (neg2 : Bool) (n2 I2 F2 : Nat)
    (hv1 : ValidStardate neg1 n1 I1) (hp1 : neg1 = true ∨ n1 ≤ 20) (hF1 : F1 ≤ 999999)
    (hv2 : ValidStardate neg2 n2 I2) (hp2 : neg2 = true ∨ n2 ≤ 20) (hF2 : F2 ≤ 999999)
    (hlt : sdBefore neg1 n1 I1 F1 neg2 n2 I2 F2) :
    sdKey neg1 n1 I1 F1 < sdKey neg2 n2 I2 F2 := by
  have h9 : (10 : Nat) ^ 9 = 1000000000 := by norm_num
  unfold sdBefore at hlt
  unfold ValidStardate at hv1 hv2
  unfold sdKey
  cases neg1 <;> cases neg2 <;>
    simp only [Bool.false_eq_true, Bool.true_eq_false, false_and, true_and, and_false,
      and_true, false_or, or_false, if_true, if_false] at hv1 hv2 hp1 hp2 hlt ⊢
  · split_ifs <;> omega
  · split_ifs <;> omega
  · omega

/-- The range of the positions: negative stardates below issue 0, the others below
[20]5006. -/
theorem sdKey_range (neg : Bool) (n I F : Nat) (hv : ValidStardate neg n I)
    (hp : neg = true ∨ n ≤ 20) (hF : F ≤ 999999) :
    (neg = true → sdKey neg n I F < 3940000000000)
      ∧ (neg = false → 3940000000000 ≤ sdKey neg n I F ∧ sdKey neg n I F < 4234000000000) := by
  have h9 : (10 : Nat) ^ 9 = 1000000000 := by norm_num
  unfold ValidStardate at hv
  unfold sdKey
  cases neg <;>
    simp only [Bool.false_eq_true, Bool.true_eq_false, false_and, true_and, false_or,
      or_false, if_true, if_false, false_implies, true_implies, implies_true, and_true,
      true_and] at hv hp ⊢
  · split_ifs <;> omega
  · omega

theorem before_of_ticks (a b : intdate) (ha : a.frac < 2 ^ 32) (hb : b.frac < 2 ^ 32)
    (h : a.ticks < b.ticks) : a.before b := by
  unfold intdate.ticks at h
  unfold intdate.before
  omega

/-- The era of the time that a valid stardate decodes to. -/
theorem sdinTime_era (neg : Bool) (n I F : Nat) (hv : ValidStardate neg n I)
    (hF : F ≤ 999999) :
    (neg = true → (sdinTime neg n I F).sec < ufpepoch)
      ∧ (neg = false → n ≤ 20 →
          ufpepoch ≤ (sdinTime neg n I F).sec ∧ (sdinTime neg n I F).sec < tngepoch)
      ∧ (neg = false → 21 ≤ n → tngepoch ≤ (sdinTime neg n I F).sec) := by
  have h9 : (10 : Nat) ^ 9 = 1000000000 := by norm_num
  by_cases hp : neg = true ∨ n ≤ 20
  · obtain ⟨ht, hf⟩ := sdinTime_key neg n I F hv hp hF
    obtain ⟨r1, r2⟩ := sdKey_range neg n I F hv hp hF
    unfold intdate.ticks at ht
    generalize sdKey neg n I F = K at *
    generalize (sdinTime neg n I F).sec = sec at *
    generalize (sdinTime neg n I F).frac = frac at *
    unfold efrac at ht
    simp only [ufpepoch, tngepoch]
    refine ⟨fun h => ?_, fun h _ => ?_, fun h h21 => ?_⟩
    · have := r1 h
      omega
    · have := r2 h
      omega
    · rcases hp with h0 | h0
      · rw [h] at h0; exact absurd h0 (by decide)
      · omega
  · have hn : 21 ≤ n := by omega
    have hneg : neg = false := by
      cases neg
      · rfl
      · exact absurd (Or.inl rfl) hp
    subst hneg
    have hv2 : n ≤ 10 ^ 9 ∧ I ≤ 99999 := by
      unfold ValidStardate at hv
      simp only [Bool.false_eq_true, false_and, true_and, false_or] at hv
      omega
    obtain ⟨ht, hf⟩ := sdinTime_tng_ticks n I F hn hv2.1 hv2.2 hF
    unfold intdate.ticks at ht
    generalize (sdinTime false n I F).sec = sec at *
    generalize (sdinTime false n I F).frac = frac at *
    simp only [ufpepoch, tngepoch]
    refine ⟨fun h => absurd h (by decide), fun _ h => by omega, fun _ _ => ?_⟩
    omega

/-- C24. Stardate decoding is strictly monotonic across all eras: every valid stardate with
six fraction digits decodes, with `errno` clear, to a time before `ufpepoch` when its issue
is negative, from `ufpepoch` up to before `tngepoch` when its issue is 0..20, and from
`tngepoch` on when its issue is 21 or more; and of two valid stardates the one that is
earlier in the order of the values (negative issues first, a larger negative issue number
earlier, then by issue, integer part and fraction) decodes to the earlier pair of seconds and
fraction. -/
theorem stardate_decode_monotone (g : List Char) :
    (∀ neg n I F, ValidStardate neg n I → F ≤ 999999 →
        ∃ t, sdin g (sdText neg n I F) = .success t false
          ∧ (neg = true → t.sec < ufpepoch)
          ∧ (neg = false → n ≤ 20 → ufpepoch ≤ t.sec ∧ t.sec < tngepoch)
          ∧ (neg = false → 21 ≤ n → tngepoch ≤ t.sec))
      ∧ ∀ neg1 n1 I1 F1 neg2 n2 I2 F2, ValidStardate neg1 n1 I1 → F1 ≤ 999999 →
          ValidStardate neg2 n2 I2 → F2 ≤ 999999 → sdBefore neg1 n1 I1 F1 neg2 n2 I2 F2 →
          ∃ t1 t2, sdin g (sdText neg1 n1 I1 F1) = .success t1 false
            ∧ sdin g (sdText neg2 n2 I2 F2) = .success t2 false ∧ t1.before t2 := by
  have h9 : (10 : Nat) ^ 9 = 1000000000 := by norm_num
  constructor
  · intro neg n I F hv hF
    exact ⟨_, sdin_sdText g neg n I F hv hF, sdinTime_era neg n I F hv hF⟩
  · intro neg1 n1 I1 F1 neg2 n2 I2 F2 hv1 hF1 hv2 hF2 hlt
    refine ⟨_, _, sdin_sdText g neg1 n1 I1 F1 hv1 hF1, sdin_sdText g neg2 n2 I2 F2 hv2 hF2, ?_⟩
    by_cases hp1 : neg1 = true ∨ n1 ≤ 20
    · obtain ⟨ht1, hf1⟩ := sdinTime_key neg1 n1 I1 F1 hv1 hp1 hF1
      by_cases hp2 : neg2 = true ∨ n2 ≤ 20
      · obtain ⟨ht2, hf2⟩ := sdinTime_key neg2 n2 I2 F2 hv2 hp2 hF2
        have hk := efrac_mono _ _ (sdKey_lt neg1 n1 I1 F1 neg2 n2 I2 F2 hv1 hp1 hF1 hv2 hp2 hF2
          hlt)
        exact before_of_ticks _ _ hf1 hf2 (by rw [ht1, ht2]; omega)
      · have hn2 : 21 ≤ n2 := by omega
        have hneg2 : neg2 = false := by
          cases neg2
          · rfl
          · exact absurd (Or.inl rfl) hp2
        obtain ⟨e1, e2, -⟩ := sdinTime_era neg1 n1 I1 F1 hv1 hF1
        obtain ⟨-, -, e3⟩ := sdinTime_era neg2 n2 I2 F2 hv2 hF2
        have h3 := e3 hneg2 hn2
        have h1 : (sdinTime neg1 n1 I1 F1).sec < tngepoch := by
          cases neg1
          · have hn1 : n1 ≤ 20 := by
              rcases hp1 with h | h
              · exact absurd h (by decide)
              · exact h
            exact (e2 rfl hn1).2
          · have := e1 rfl
            simp only [ufpepoch, tngepoch] at this ⊢
            omega
        exact Or.inl (by omega)
    · have hn1 : 21 ≤ n1 := by omega
      have hneg1 : neg1 = false := by
        cases neg1
        · rfl
        · exact absurd (Or.inl rfl) hp1
      subst hneg1
      unfold sdBefore at hlt
      simp only [Bool.false_eq_true, false_and, true_and, false_or] at hlt
      obtain ⟨hneg2, hord⟩ := hlt
      subst hneg2
      unfold ValidStardate at hv1 hv2
      simp only [Bool.false_eq_true, false_and, true_and, false_or] at hv1 hv2
      have hn2 : 21 ≤ n2 := by omega
      obtain ⟨ht1, hf1⟩ := sdinTime_tng_ticks n1 I1 F1 hn1 (by omega) (by omega) hF1
      obtain ⟨ht2, hf2⟩ := sdinTime_tng_ticks n2 I2 F2 hn2 (by omega) (by omega) hF2
      apply before_of_ticks _ _ hf1 hf2
      rw [ht1, ht2]
      have hV : (n1 - 21) * 100000000000 + (I1 * 1000000 + F1)
          < (n2 - 21) * 100000000000 + (I2 * 1000000 + F2) := by omega
      generalize (n1 - 21) * 100000000000 + (I1 * 1000000 + F1) = V1 at *
      generalize (n2 - 21) * 100000000000 + (I2 * 1000000 + F2) = V2 at *
      omega

theorem stardate_decode_monotone_witness :
    (sdText true 1 9999 999999 = "[-1]9999.999999".toList
        ∧ sdText false 0 0 0 = "[0]0000.000000".toList
        ∧ ∃ t1 t2, sdin [] (sdText true 1 9999 999999) = .success t1 false
          ∧ sdin [] (sdText false 0 0 0) = .success t2 false ∧ t1.before t2)
      ∧ (∃ t1 t2, sdin [] (sdText false 19 7339 999999) = .success t1 false
          ∧ sdin [] (sdText false 19 7340 0) = .success t2 false ∧ t1.before t2)
      ∧ (∃ t1 t2, sdin [] (sdText false 19 7839 999999) = .success t1 false
          ∧ sdin [] (sdText false 19 7840 0) = .success t2 false ∧ t1.before t2)
      ∧ (∃ t1 t2, sdin [] (sdText false 19 9999 999999) = .success t1 false
          ∧ sdin [] (sdText false 20 0 0) = .success t2 false ∧ t1.before t2)
      ∧ (sdText false 20 5005 999999 = "[20]5005.999999".toList
        ∧ sdText false 21 0 0 = "[21]00000.000000".toList
        ∧ ∃ t1 t2, sdin [] (sdText false 20 5005 999999) = .success t1 false
          ∧ sdin [] (sdText false 21 0 0) = .success t2 false ∧ t1.before t2) :=
  ⟨⟨by decide, by decide,
      (stardate_decode_monotone []).2 true 1 9999 999999 false 0 0 0
        (Or.inl ⟨rfl, by decide, by decide, by decide⟩) (by decide)
        (Or.inr (Or.inl ⟨rfl, by decide, by decide⟩)) (by decide) (Or.inl ⟨rfl, rfl⟩)⟩,
    (stardate_decode_monotone []).2 false 19 7339 999999 false 19 7340 0
      (Or.inr (Or.inl ⟨rfl, by decide, by decide⟩)) (by decide)
      (Or.inr (Or.inl ⟨rfl, by decide, by decide⟩)) (by decide)
      (Or.inr (Or.inr ⟨rfl, rfl, Or.inr ⟨rfl, Or.inl (by decide)⟩⟩)),
    (stardate_decode_monotone []).2 false 19 7839 999999 false 19 7840 0
      (Or.inr (Or.inl ⟨rfl, by decide, by decide⟩)) (by decide)
      (Or.inr (Or.inl ⟨rfl, by decide, by decide⟩)) (by decide)
      (Or.inr (Or.inr ⟨rfl, rfl, Or.inr ⟨rfl, Or.inl (by decide)⟩⟩)),
    (stardate_decode_monotone []).2 false 19 9999 999999 false 20 0 0
      (Or.inr (Or.inl ⟨rfl, by decide, by decide⟩)) (by decide)
      (Or.inr (Or.inr (Or.inl ⟨rfl, rfl, by decide⟩))) (by decide)
      (Or.inr (Or.inr ⟨rfl, rfl, Or.inl (by decide)⟩)),
    ⟨by decide, by decide,
      (stardate_decode_monotone []).2 false 20 5005 999999 false 21 0 0
        (Or.inr (Or.inr (Or.inl ⟨rfl, rfl, by decide⟩))) (by decide)
        (Or.inr (Or.inr (Or.inr ⟨rfl, by decide, by norm_num, by decide⟩))) (by decide)
        (Or.inr (Or.inr ⟨rfl, rfl, Or.inl (by decide)⟩))⟩⟩

/-! ## No step of the scaling computations wraps -/

theorem exact64_of_lt (a : Nat) (h : a < 2 ^ 64) : exact64 a = some a := if_pos h

theorem exact32_of_lt (a : Nat) (h : a < 2 ^ 32) : exact32 a = some a := if_pos h

theorem exactSub_of_le (a b : Nat) (h : b ≤ a) : exactSub a b = some (a - b) := if_pos h

theorem bind64 {β : Type} (a : Nat) (f : Nat → Option β) (h : a < 2 ^ 64) :
    (exact64 a >>= f) = f a := by
  rw [exact64_of_lt a h]; rfl

theorem bind32 {β : Type} (a : Nat) (f : Nat → Option β) (h : a < 2 ^ 32) :
    (exact32 a >>= f) = f a := by
  rw [exact32_of_lt a h]; rfl

theorem bindSub {β : Type} (a b : Nat) (f : Nat → Option β) (h : b ≤ a) :
    (exactSub a b >>= f) = f (a - b) := by
  rw [exactSub_of_le a b h]; rfl

theorem bindSome {α β : Type} (a : α) (f : α → Option β) : (some a >>= f) = f a := rfl

theorem bindPure {α β : Type} (a : α) (f : α → Option β) : (pure a >>= f) = f a := rfl

theorem bindSomeS {α β : Type} (a : α) (f : α → Option β) : (some a >>= f) = f a := by
  rw [Option.bind_eq_bind, Option.some_bind]

theorem pureSome {α : Type} (a : α) : (pure a : Option α) = some a := rfl

theorem sdinFiddleExact_eq (J F : Nat) (hJ : 7340 ≤ J) (hJ2 : J ≤ 15005) (hF : F ≤ 999999) :
    sdinFiddleExact J F = some (sdinFiddle J F) := by
  rw [sdinFiddle_eq J F hJ hJ2 hF]
  unfold sdinFiddleExact
  simp (disch := omega) only [bind64, bind32, bindSub]
  by_cases h : 7840 ≤ J
  · rw [if_pos h, if_pos (by omega), pureSome, Option.some.injEq, Prod.mk.injEq]
    constructor <;> omega
  · rw [if_neg h, if_neg (by omega), pureSome, Option.some.injEq, Prod.mk.injEq]
    constructor <;> omega

theorem not_false_true : ((!false) = true) := rfl

theorem not_true_true : ¬ ((!true) = true) := by decide

/-- The checked pre-TNG branch of `sdin` from the scaled triple on, for a non-negative
issue. -/
theorem sdinTimeExact_early (n I F : Nat) (hn : n ≤ 19) (hI : I ≤ 9999)
    (hb : n < 19 ∨ I < 7340) (hF : F ≤ 999999) :
    sdinTimeExact false n I F = some (sdinTime false n I F) := by
  rw [sdinTime_early n I F hn hI hb hF]
  have hc : ((false : Bool) = true ∨ n ≤ 20) := Or.inr (by omega)
  have h20 : ¬ n = 20 := by omega
  have h19 : ¬ (n = 19 ∧ I ≥ 7340) := by omega
  unfold sdinTimeExact
  rw [if_pos hc, if_pos not_false_true, if_neg h20, if_neg h19, bindPure]
  simp only [shl32, shr32, ufpepoch]
  rw [if_pos not_false_true]
  simp (disch := omega) only [bind64, bind32, bindSub]
  rw [if_neg Bool.false_ne_true, bindPure, pureSome, Option.some.injEq, intdate.mk.injEq]
  unfold efrac
  constructor <;> omega

theorem sdinTimeExact_film (n I J F : Nat) (hJ : 7340 ≤ J) (hJ2 : J ≤ 15005) (hF : F ≤ 999999)
    (hnI : (n = 19 ∧ I ≤ 9999 ∧ J = I) ∨ (n = 20 ∧ I ≤ 5005 ∧ J = I + 10000)) :
    sdinTimeExact false n I F = some (sdinTime false n I F) := by
  rw [sdinTime_film n I J F hJ hJ2 hF hnI]
  have hfid := sdinFiddle_eq J F hJ hJ2 hF
  have hI1 : (sdinFiddle J F).1 ≤ 104000 := by
    rw [hfid]; split_ifs <;> simp only <;> omega
  have hF1 : (sdinFiddle J F).2 ≤ 999999 := by
    rw [hfid]; split_ifs <;> simp only <;> omega
  have hc : ((false : Bool) = true ∨ n ≤ 20) := Or.inr (by omega)
  unfold sdinTimeExact
  rcases hnI with ⟨h1, h2, h3⟩ | ⟨h1, h2, h3⟩
  · subst h1 h3
    rw [if_pos hc, if_pos not_false_true, if_neg (by omega), if_pos ⟨rfl, hJ⟩,
      sdinFiddleExact_eq J F hJ hJ2 hF, bindSome, bindPure]
    simp only []
    generalize (sdinFiddle J F).1 = I1 at *
    generalize (sdinFiddle J F).2 = F1 at *
    simp only [shl32, shr32, ufpepoch]
    rw [if_pos not_false_true]
    simp (disch := omega) only [bind64, bind32, bindSub]
    rw [if_neg Bool.false_ne_true, bindPure, pureSome, Option.some.injEq, intdate.mk.injEq]
    unfold efrac
    constructor <;> omega
  · subst h1 h3
    rw [if_pos hc, if_pos not_false_true, if_pos rfl, bind32 _ _ (by omega),
      sdinFiddleExact_eq (I + 10000) F hJ hJ2 hF, bindSome, bindPure]
    simp only []
    generalize (sdinFiddle (I + 10000) F).1 = I1 at *
    generalize (sdinFiddle (I + 10000) F).2 = F1 at *
    simp only [shl32, shr32, ufpepoch]
    rw [if_pos not_false_true]
    simp (disch := omega) only [bind64, bind32, bindSub]
    rw [if_neg Bool.false_ne_true, bindPure, pureSome, Option.some.injEq, intdate.mk.injEq]
    unfold efrac
    constructor <;> omega

theorem sdinTimeExact_neg (n I F : Nat) (hn : 1 ≤ n) (hn2 : n ≤ 394) (hI : I ≤ 9999)
    (hF : F ≤ 999999) :
    sdinTimeExact true n I F = some (sdinTime true n I F) := by
  have hee := efrac_lt F hF
  rw [sdinTime_neg n I F hn (by omega) hI hF (by simp only [ufpepoch]; omega)]
  have hc : ((true : Bool) = true ∨ n ≤ 20) := Or.inl rfl
  unfold sdinTimeExact
  rw [if_pos hc, if_neg not_true_true, bindPure]
  simp only [shl32, shr32, ufpepoch]
  rw [if_neg not_true_true]
  unfold efrac at hee ⊢
  simp (disch := omega) only [bind64, bind32, bindSub]
  rw [if_pos trivial, pureSome, Option.some.injEq, intdate.mk.injEq]
  constructor <;> omega

theorem sdinTimeExact_tng (n I F : Nat) (hn : 21 ≤ n) (hn2 : n ≤ 10 ^ 9) (hI : I ≤ 99999)
    (hF : F ≤ 999999) :
    sdinTimeExact false n I F = some (sdinTime false n I F) := by
  have h9 : (10 : Nat) ^ 9 = 1000000000 := by norm_num
  rw [sdinTime_tng n I F hn hI hF (tng_issue_bound n I F hn2 hI hF)]
  have hc : ¬ ((false : Bool) = true ∨ n ≤ 20) := by
    intro h
    rcases h with h | h
    · exact absurd h (by decide)
    · omega
  unfold sdinTimeExact
  rw [if_neg hc]
  simp only [shl32, tngepoch]
  simp (disch := omega) only [bind64, bind32, bindSub]
  rw [pureSome, Option.some.injEq, intdate.mk.injEq]
  constructor <;> omega

/-- The checked month loop of `qcin` agrees with the wrapped one. -/
theorem monthLoopExact_eq (m : Nat) : ∀ n : Nat, n + 31 * m < 2 ^ 32 →
    monthLoopExact nrmdays m n = some (monthLoop nrmdays m n) := by
  induction m with
  | zero => intro n _; rfl
  | succ m ih =>
    intro n hn
    have hi := idx_mdays_le false m
    rw [mdays_false] at hi
    have hlt : n + idx nrmdays m < 2 ^ 32 := by omega
    unfold monthLoopExact monthLoop
    rw [bind32 _ _ hlt, u32_of_lt _ hlt]
    exact ih _ (by omega)

/-- The checked computation of `qcin` yields the time in closed form, without overflow. -/
theorem qcinTimeExact_eq (Y M D h mi s x : Nat)
    (hY : 1 ≤ Y) (hY2 : Y ≤ 10 ^ 11) (hM : 1 ≤ M) (hM2 : M ≤ 12)
    (hD : 1 ≤ D) (hD2 : D ≤ idx (mdays false) (M - 1))
    (hh : h < 24) (hmi : mi < 60) (hs : s < 60)
    (hx : x = (cumDays false (M - 1) + (D - 1)) * 86400 + h * 3600 + mi * 60 + s) :
    qcinTimeExact { year := Y, month := M, day := D, hour := h, min := mi, sec := s } = some
      ⟨if Y < 323 then 10161417600 + (Y + 77) * 31556952 + x * 31556952 / 31536000 - 12622780800
        else 10161417600 + (Y - 323) * 31556952 + x * 31556952 / 31536000,
       (x * 31556952 % 31536000 * 2 ^ 32 + 31535999) / 31536000⟩ := by
  have h10 : (10 : Nat) ^ 11 = 100000000000 := by norm_num
  have hD31 := idx_mdays_le false (M - 1)
  have hcum := cumDays_add_lt false (M - 1) (D - 1) (by omega) (by omega)
  have hlen : ylen false = 365 := rfl
  rw [hlen] at hcum
  have hx2 : x < 31536000 := by omega
  have hloop := monthLoop_eq false (M - 1) (D - 1) (by omega) (by omega)
  rw [mdays_false] at hloop
  have hloopE := monthLoopExact_eq (M - 1) (D - 1) (by omega)
  rw [hloop] at hloopE
  obtain ⟨hf, hq, -⟩ := qc_scale x _ _ _ hx2 rfl rfl rfl
  have hxe : (D - 1 + cumDays false (M - 1)) * 86400 + h * 3600 + mi * 60 + s = x := by omega
  unfold qcinTimeExact
  simp only []
  by_cases hl : Y < 323
  · rw [if_pos (decide_eq_true hl), if_pos hl]
    simp only [QCYEAR, STDYEAR, qcepoch, quadcent, shl32]
    simp (disch := omega) only [bind64, bindSub, hloopE, bindSomeS, hxe]
    rw [if_pos (decide_eq_true hl)]
    simp (disch := omega) only [bind32, bindSub]
    rw [pureSome, Option.some.injEq, intdate.mk.injEq]
    constructor <;> omega
  · rw [if_neg (by rw [decide_eq_true_eq]; exact hl), if_neg hl]
    simp only [QCYEAR, STDYEAR, qcepoch, quadcent, shl32]
    simp (disch := omega) only [bind64, bindSub, hloopE, bindSomeS, hxe]
    rw [if_neg (by rw [decide_eq_true_eq]; exact hl), bindPure]
    simp (disch := omega) only [bind32, bindSub]
    rw [pureSome, Option.some.injEq, intdate.mk.injEq]
    constructor <;> omega

/-- The checked field computation of `sdout` before the stardate epoch. -/
theorem sdoutFieldsExact_neg (sec frac : Nat) (h : sec < ufpepoch) (hf : frac < 2 ^ 32) :
    sdoutFieldsExact ⟨sec, frac⟩ = some (sdoutFields ⟨sec, frac⟩) := by
  rw [sdoutFields_neg sec frac h hf]
  unfold sdoutFieldsExact
  simp only [ufpepoch] at *
  rw [if_pos h]
  simp (disch := omega) only [bind64, bind32, bindSub, shl_or]
  rw [pureSome]

/-- The checked field computation of `sdout` from the stardate epoch up to [19]7340. -/
theorem sdoutFieldsExact_tos (sec frac : Nat) (h1 : ufpepoch ≤ sec) (h2 : sec < 71605036800)
    (hf : frac < 2 ^ 32) :
    sdoutFieldsExact ⟨sec, frac⟩ = some (sdoutFields ⟨sec, frac⟩) := by
  rw [sdoutFields_tos sec frac h1 h2 hf]
  unfold sdoutFieldsExact
  simp only [ufpepoch] at *
  rw [if_neg (by omega)]
  simp (disch := omega) only [bind64, bind32, bindSub, shl_or]
  rw [if_pos (by omega), pureSome]

/-- The checked field computation of `sdout` from [19]7340 up to [19]7840. -/
theorem sdoutFieldsExact_film1 (sec frac : Nat) (h1 : 71605036800 ≤ sec)
    (h2 : sec < 72037036800) (hf : frac < 2 ^ 32) :
    sdoutFieldsExact ⟨sec, frac⟩ = some (sdoutFields ⟨sec, frac⟩) := by
  rw [sdoutFields_film1 sec frac h1 h2 hf]
  unfold sdoutFieldsExact
  simp only [ufpepoch] at *
  rw [if_neg (by omega)]
  simp (disch := omega) only [bind64, bind32, bindSub, shl_or]
  rw [if_neg (by omega)]
  have e2 : (sec - 68195001600) % (2000 * 86400)
      + ((sec - 68195001600) / (2000 * 86400) - 19) * 2000 * 86400
      - 7340 * (86400 / 5) = sec - 71605036800 := by omega
  simp (disch := omega) only [bind64, bind32, bindSub, shl_or, e2]
  rw [if_neg (by omega), pureSome]

/-- The checked field computation of `sdout` from [19]7840 up to the TNG epoch. -/
theorem sdoutFieldsExact_film2 (sec frac : Nat) (h1 : 72037036800 ≤ sec) (h2 : sec < tngepoch)
    (hf : frac < 2 ^ 32) :
    sdoutFieldsExact ⟨sec, frac⟩ = some (sdoutFields ⟨sec, frac⟩) := by
  rw [sdoutFields_film2 sec frac h1 h2 hf]
  unfold sdoutFieldsExact
  simp only [ufpepoch, tngepoch] at *
  rw [if_neg (by omega)]
  simp (disch := omega) only [bind64, bind32, bindSub, shl_or]
  rw [if_neg (by omega)]
  have e2 : (sec - 68195001600) % (2000 * 86400)
      + ((sec - 68195001600) / (2000 * 86400) - 19) * 2000 * 86400
      - 7340 * (86400 / 5) = sec - 71605036800 := by omega
  simp (disch := omega) only [bind64, bind32, bindSub, shl_or, e2]
  rw [if_pos (by omega)]
  have e3 : sec - 71605036800 - 5000 * 86400 = sec - 72037036800 := by omega
  rw [e3]
  by_cases hc : 7840 + (sec - 72037036800) / 172800 ≥ 10000
  · rw [if_pos hc, if_pos hc, if_pos hc, pureSome]
  · rw [if_neg hc, if_neg hc, if_neg hc, pureSome]

/-- The checked field computation of `sdout` agrees with the wrapped one at every time
before the TNG epoch. -/
theorem sdoutFieldsExact_eq (t : intdate) (hs : t.sec < tngepoch) (hf : t.frac < 2 ^ 32) :
    sdoutFieldsExact t = some (sdoutFields t) := by
  obtain ⟨sec, frac⟩ := t
  simp only at hs hf
  by_cases c0 : sec < ufpepoch
  · exact sdoutFieldsExact_neg sec frac c0 hf
  · by_cases c1 : sec < 71605036800
    · exact sdoutFieldsExact_tos sec frac (by omega) c1 hf
    · by_cases c2 : sec < 72037036800
      · exact sdoutFieldsExact_film1 sec frac (by omega) c2 hf
      · exact sdoutFieldsExact_film2 sec frac (by omega) hs hf

/-- The checked scaling of the fraction in `sdout` agrees with the wrapped one. -/
theorem sdoutFracExact_eq (X : Nat) (hX : X * 125 < 2 ^ 64) (hF : X * 125 / 108 / 2 ^ 32 ≤ 999999) :
    sdoutFracExact X = some (u32 ((mul64 X 125 / 108) >>> 32)) := by
  unfold sdoutFracExact
  rw [bind64 _ _ hX, shr32, shr32, mul64_of_lt _ _ hX, exact32_of_lt _ (by omega),
    u32_of_lt _ (by omega)]

/-- The checked computation of `tngsdout` agrees with the wrapped one. -/
theorem tngFieldsExact_eq (sec frac : Nat) (h1 : tngepoch ≤ sec) (h2 : sec < 2 ^ 64)
    (hf : frac < 2 ^ 32) :
    tngFieldsExact ⟨sec, frac⟩ = some (tngFields ⟨sec, frac⟩) := by
  rw [tngFields_eq sec frac h1 h2 hf]
  unfold tngFieldsExact
  simp only [tngepoch, shr32] at *
  simp (disch := omega) only [bind64, bind32, bindSub]
  rw [pureSome]

/-- The checked computation of `qcout` yields the year and the nominal seconds into it in
closed form, and `qcout` hands the same numbers to `docalout`. -/
theorem qcoutExact_eq (sec frac : Nat) (h2 : sec < 2 ^ 64) (hf : frac < 2 ^ 32) :
    qcoutExact ⟨sec, frac⟩ = some
        (if sec < qcepoch then (sec + quadcent - qcepoch) / QCYEAR - 77
          else (sec - qcepoch) / QCYEAR + 323,
         ((if sec < qcepoch then sec + quadcent - qcepoch else sec - qcepoch) % QCYEAR * 146000
            + frac * 146000 / 2 ^ 32) / 146097)
      ∧ qcout ⟨sec, frac⟩ = docalout '*' false 1
        (if sec < qcepoch then (sec + quadcent - qcepoch) / QCYEAR - 77
          else (sec - qcepoch) / QCYEAR + 323)
        (((if sec < qcepoch then sec + quadcent - qcepoch else sec - qcepoch) % QCYEAR * 146000
            + frac * 146000 / 2 ^ 32) / 146097 / 86400)
        (((if sec < qcepoch then sec + quadcent - qcepoch else sec - qcepoch) % QCYEAR * 146000
            + frac * 146000 / 2 ^ 32) / 146097 % 86400) := by
  unfold qcoutExact qcout
  simp only [qcepoch, quadcent, QCYEAR, shr32]
  by_cases hl : sec < 10161417600
  · rw [if_pos hl, if_pos hl, if_pos (decide_eq_true hl),
      if_pos (decide_eq_true hl), if_pos (decide_eq_true hl)]
    constructor
    · simp (disch := omega) only [bind64, bind32, bindSub]
      rw [if_pos (decide_eq_true hl), pureSome]
    · simp (disch := omega) only [sub64_of_le, u32_of_lt, mul64_of_lt, add64_of_lt]
  · have hd : ¬ decide (sec < 10161417600) = true := by rw [decide_eq_true_eq]; exact hl
    rw [if_neg hl, if_neg hl, if_neg hd, if_neg hd, if_neg hd]
    constructor
    · simp (disch := omega) only [bind64, bind32, bindSub, bindPure]
      rw [if_neg hd, pureSome]
    · simp (disch := omega) only [sub64_of_le, u32_of_lt, mul64_of_lt, add64_of_lt]

/-- The checked second half of `sdin` agrees with the wrapped one at every valid stardate. -/
theorem sdinTimeExact_eq (neg : Bool) (n I F : Nat) (hv : ValidStardate neg n I)
    (hF : F ≤ 999999) :
    sdinTimeExact neg n I F = some (sdinTime neg n I F) := by
  rcases hv with ⟨h1, h2, h3, h4⟩ | ⟨h1, h2, h3⟩ | ⟨h1, h2, h3⟩ | ⟨h1, h2, h3, h4⟩
  · subst h1
    exact sdinTimeExact_neg n I F h2 h3 h4 hF
  · subst h1
    by_cases hb : n < 19 ∨ I < 7340
    · exact sdinTimeExact_early n I F h2 h3 hb hF
    · exact sdinTimeExact_film n I I F (by omega) (by omega) hF
        (Or.inl ⟨by omega, h3, rfl⟩)
  · subst h1
    exact sdinTimeExact_film n I (I + 10000) F (by omega) (by omega) hF
      (Or.inr ⟨h2, h3, rfl⟩)
  · subst h1
    exact sdinTimeExact_tng n I F h2 h3 h4 hF

/-- C22. The fixed-point scaling steps never overflow.  The computations of `sdin`, `qcin`,
`sdout`, `tngsdout` and `qcout`, carried out in unbounded integers with every
multiplication, shift and addition required to stay below 2^64, every subtraction required
not to go below zero and every narrowing to 32 bits required to lose no bits (the low half
of `f` in `sdin` apart, which is the fraction), give a result, and it is the result of the
wrap-around computation of the program: for every valid stardate with a fraction of at most
six digits, for every valid Quadcent date with year in 1..10^11, for every internal time
before the TNG epoch in `sdout`, from the TNG epoch on in `tngsdout`, and for every internal
time in `qcout`. -/
theorem scaling_never_overflows (g : List Char) :
    (∀ neg n I F, ValidStardate neg n I → F ≤ 999999 →
        sdinTimeExact neg n I F = some (sdinTime neg n I F)
          ∧ sdin g (sdText neg n I F) = .success (sdinTime neg n I F) false)
      ∧ (∀ date Y M D h mi s e, readcal date '*' =
            .success { year := Y, month := M, day := D, hour := h, min := mi, sec := s } e →
          1 ≤ Y → Y ≤ 10 ^ 11 → 1 ≤ M → M ≤ 12 → 1 ≤ D → D ≤ idx nrmdays (M - 1) →
          h < 24 → mi < 60 → s < 60 →
          ∃ t, qcinTimeExact { year := Y, month := M, day := D, hour := h, min := mi, sec := s }
              = some t ∧ qcin date = .success t e)
      ∧ (∀ t : intdate, t.sec < tngepoch → t.frac < 2 ^ 32 →
          sdoutFieldsExact t = some (sdoutFields t)
            ∧ sdoutFracExact (sdoutFields t).2.2.2
              = some (u32 ((mul64 (sdoutFields t).2.2.2 125 / 108) >>> 32)))
      ∧ (∀ t : intdate, tngepoch ≤ t.sec → t.sec < 2 ^ 64 → t.frac < 2 ^ 32 →
          tngFieldsExact t = some (tngFields t))
      ∧ (∀ t : intdate, t.sec < 2 ^ 64 → t.frac < 2 ^ 32 →
          ∃ year nsec, qcoutExact t = some (year, nsec)
            ∧ qcout t = docalout '*' false 1 year (nsec / 86400) (nsec % 86400)) := by
  refine ⟨fun neg n I F hv hF => ⟨sdinTimeExact_eq neg n I F hv hF, sdin_sdText g neg n I F hv hF⟩,
    ?_, ?_, ?_, ?_⟩
  · intro date Y M D h mi s e hrc hY hY2 hM hM2 hD hD2 hh hmi hs
    have hD3 : D ≤ idx (mdays false) (M - 1) := by rw [mdays_false]; exact hD2
    exact ⟨_, qcinTimeExact_eq Y M D h mi s _ hY hY2 hM hM2 hD hD3 hh hmi hs rfl,
      qcin_of_readcal date Y M D h mi s _ e hrc hY hY2 hM hM2 hD hD3 hh hmi hs rfl⟩
  · intro t hs hf
    refine ⟨sdoutFieldsExact_eq t hs hf, ?_⟩
    obtain ⟨sec, frac⟩ := t
    obtain ⟨neg, n, I, X, F, hfl, hX, hXF, hF, -, -⟩ := sdoutFields_range sec frac hs hf
    rw [hfl]
    exact sdoutFracExact_eq X hX (by omega)
  · intro t h1 h2 hf
    obtain ⟨sec, frac⟩ := t
    exact tngFieldsExact_eq sec frac h1 h2 hf
  · intro t h2 hf
    obtain ⟨sec, frac⟩ := t
    obtain ⟨e1, e2⟩ := qcoutExact_eq sec frac h2 hf
    exact ⟨_, _, e1, e2⟩

theorem scaling_never_overflows_witness :
    (sdinTimeExact false 20 5005 999999 = some (sdinTime false 20 5005 999999)
        ∧ sdin [] (sdText false 20 5005 999999) = .success (sdinTime false 20 5005 999999) false)
      ∧ (∃ t, qcinTimeExact
            { year := 100000000000, month := 12, day := 31, hour := 23, min := 59, sec := 59 }
            = some t ∧ qcin (calfmt '*' 100000000000 12 31 23 59 59) = .success t false)
      ∧ (sdoutFieldsExact ⟨73229788799, 4294967295⟩ = some (sdoutFields ⟨73229788799, 4294967295⟩)
          ∧ sdoutFracExact (sdoutFields ⟨73229788799, 4294967295⟩).2.2.2
            = some (u32 ((mul64 (sdoutFields ⟨73229788799, 4294967295⟩).2.2.2 125 / 108) >>> 32)))
      ∧ tngFieldsExact ⟨18446744073709551615, 4294967295⟩
          = some (tngFields ⟨18446744073709551615, 4294967295⟩)
      ∧ ∃ year nsec, qcoutExact ⟨18446744073709551615, 4294967295⟩ = some (year, nsec)
          ∧ qcout ⟨18446744073709551615, 4294967295⟩
            = docalout '*' false 1 year (nsec / 86400) (nsec % 86400) :=
  ⟨(scaling_never_overflows []).1 false 20 5005 999999
      (Or.inr (Or.inr (Or.inl ⟨rfl, rfl, by decide⟩))) (by decide),
    (scaling_never_overflows []).2.1 _ 100000000000 12 31 23 59 59 false
      (readcal_calfmt '*' 100000000000 12 31 23 59 59 (by decide) (by decide)
        (by decide) (by decide) (by decide) (by decide) (by decide))
      (by decide) (by decide) (by decide) (by decide) (by decide) (by decide) (by decide)
      (by decide) (by decide),
    (scaling_never_overflows []).2.2.1 ⟨73229788799, 4294967295⟩ (by decide) (by decide),
    (scaling_never_overflows []).2.2.2.1 ⟨18446744073709551615, 4294967295⟩ (by decide)
      (by decide) (by decide),
    (scaling_never_overflows []).2.2.2.2 ⟨18446744073709551615, 4294967295⟩ (by decide)
      (by decide)⟩

end Stardate
